import Mathlib

/-!
Verification of the spreadsheet-formula dialect translation engine:
a shallow embedding of the Lark-grammar formula parser, the
`IndirectAddressTransformer`, the `tree_to_formula` printer and the
regex-based `FormulaTokenizer` / `map_formula` locale mapper, together
with proofs and refutations of the specified properties.
-/

namespace XL

/-- Distinguished characters, named to keep literals uniform. -/
def qc : Char := Char.ofNat 39

def dq : Char := Char.ofNat 34

def bsl : Char := Char.ofNat 92

def tabC : Char := Char.ofNat 9

def nlC : Char := Char.ofNat 10

def crC : Char := Char.ofNat 13

def ffC : Char := Char.ofNat 12

def vtC : Char := Char.ofNat 11

/-- Binary operators of the Calc formula grammar. -/
inductive Op where
  | add | sub | mul | div | pow | concat
  | eq | ne | lt | le | gt | ge
deriving DecidableEq, Repr

/-- The printer's precedence table (`needs_parens` in the source). -/
def pprec : Op → Nat
  | .eq | .ne | .lt | .le | .gt | .ge => 1
  | .concat => 2
  | .add | .sub => 3
  | .mul | .div => 4
  | .pow => 5

/-- Operator spelling used by `tree_to_formula`. -/
def opStr : Op → String
  | .add => "+"
  | .sub => "-"
  | .mul => "*"
  | .div => "/"
  | .pow => "^"
  | .concat => "&"
  | .eq => "="
  | .ne => "<>"
  | .lt => "<"
  | .le => "<="
  | .gt => ">"
  | .ge => ">="

mutual

/-- AST of parsed formulas: mirrors the Lark trees produced by
`CALC_FORMULA_GRAMMAR` (`number`, `string`, `cell`, `function_call`
and the twelve binary-operator rules).  Argument lists are a mutual
inductive so that every function on ASTs is structurally recursive. -/
inductive Ast where
  | num (s : String)
  | str (s : String)
  | cell (s : String)
  | call (name : String) (args : Args)
  | bin (op : Op) (l r : Ast)

/-- Ordered `function_call` argument lists. -/
inductive Args where
  | nil
  | cons (head : Ast) (tail : Args)

end

/-- Build an argument list from a `List`. -/
def argsOf : List Ast → Args
  | [] => .nil
  | a :: r => .cons a (argsOf r)

/-- Number of arguments. -/
def alen : Args → Nat
  | .nil => 0
  | .cons _ t => alen t + 1

/-- ASCII uppercase of a character, as Python's `str.upper`. -/
def upperChar (c : Char) : Char :=
  if 'a' ≤ c && c ≤ 'z' then Char.ofNat (c.toNat - 32) else c

/-- ASCII uppercase of a string, as Python's `str.upper`. -/
def upperStr (s : String) : String := String.mk (s.data.map upperChar)

/-- Tokens of the Lark grammar's terminals. -/
inductive Tok where
  | lpar | rpar | semi
  | numT (s : String)
  | strT (s : String)
  | cellT (s : String)
  | nameT (s : String)
  | opT (o : Op)
deriving DecidableEq, Repr

/-! ### Character classes (ASCII, as used by the grammar's regexes) -/

def isWSC (c : Char) : Bool :=
  c = ' ' || c = tabC || c = nlC || c = crC || c = ffC || c = vtC

def isDigitC (c : Char) : Bool := '0' ≤ c && c ≤ '9'

def isUpperC (c : Char) : Bool := 'A' ≤ c && c ≤ 'Z'

def isLowerC (c : Char) : Bool := 'a' ≤ c && c ≤ 'z'

def isWordC (c : Char) : Bool :=
  isUpperC c || isLowerC c || isDigitC c || c = '_'

def isWordDashC (c : Char) : Bool := isWordC c || c = '-'

def isNameStartC (c : Char) : Bool := isUpperC c || isLowerC c || c = '_'

def isNameTailC (c : Char) : Bool := isNameStartC c || isDigitC c

/-! ### Regex fragment matchers over `List Char`

Each matcher returns `some (matched, rest)` with `matched ++ rest` equal
to the input, mirroring the greedy semantics of the source regexes. -/

/-- Longest prefix satisfying `p`, with the remainder. -/
def takeCls (p : Char → Bool) : List Char → List Char × List Char
  | [] => ([], [])
  | c :: cs =>
    if p c then
      let r := takeCls p cs
      (c :: r.1, r.2)
    else ([], c :: cs)

/-- `\$?` -/
def matchDollar : List Char → List Char × List Char
  | c :: cs => if c = '$' then (['$'], cs) else ([], c :: cs)
  | [] => ([], [])

/-- An optional single quote `'?`. -/
def matchQuote : List Char → List Char × List Char
  | c :: cs => if c = qc then ([qc], cs) else ([], c :: cs)
  | [] => ([], [])

/-- `\-?` -/
def matchMinus : List Char → List Char × List Char
  | c :: cs => if c = '-' then (['-'], cs) else ([], c :: cs)
  | [] => ([], [])

/-- One-or-more characters of a class. -/
def matchPlus (p : Char → Bool) (cs : List Char) :
    Option (List Char × List Char) :=
  match takeCls p cs with
  | ([], _) => none
  | (v, r) => some (v, r)

/-- `\$?[A-Z]+\$?[0-9]+` — the plain cell-reference terminal. -/
def a0Match (cs : List Char) : Option (List Char × List Char) :=
  let d1 := matchDollar cs
  match matchPlus isUpperC d1.2 with
  | none => none
  | some (ls, cs2) =>
    let d2 := matchDollar cs2
    match matchPlus isDigitC d2.2 with
    | none => none
    | some (ds, cs4) => some (d1.1 ++ ls ++ d2.1 ++ ds, cs4)

/-- `\$?[A-Z]+\$?[0-9]+:\$?[A-Z]+\$?[0-9]+` — the range terminal. -/
def a1Match (cs : List Char) : Option (List Char × List Char) :=
  match a0Match cs with
  | none => none
  | some (p1, cs1) =>
    match cs1 with
    | ':' :: cs2 =>
      match a0Match cs2 with
      | none => none
      | some (p2, cs3) => some (p1 ++ ':' :: p2, cs3)
    | _ => none

/-- `\$?'?[\w\-]+'?\.\$?[A-Z]+\$?[0-9]+` — the sheet-qualified terminal. -/
def a2Match (cs : List Char) : Option (List Char × List Char) :=
  let d1 := matchDollar cs
  let q1 := matchQuote d1.2
  match matchPlus isWordDashC q1.2 with
  | none => none
  | some (w, cs3) =>
    let q2 := matchQuote cs3
    match q2.2 with
    | '.' :: cs5 =>
      let d2 := matchDollar cs5
      match matchPlus isUpperC d2.2 with
      | none => none
      | some (ls, cs7) =>
        let d3 := matchDollar cs7
        match matchPlus isDigitC d3.2 with
        | none => none
        | some (ds, cs9) =>
          some (d1.1 ++ q1.1 ++ w ++ q2.1 ++ '.' :: (d2.1 ++ ls ++ d3.1 ++ ds), cs9)
    | _ => none

/-- `[A-Z_][A-Z0-9_]*` with the case-insensitive flag. -/
def nameMatch : List Char → Option (List Char × List Char)
  | c :: cs =>
    if isNameStartC c then
      let r := takeCls isNameTailC cs
      some (c :: r.1, r.2)
    else none
  | [] => none

/-- `\-?\d+(\.\d+)?` — the grammar's NUMBER terminal. -/
def numMatch (cs : List Char) : Option (List Char × List Char) :=
  let m := matchMinus cs
  match matchPlus isDigitC m.2 with
  | none => none
  | some (ds, cs2) =>
    match cs2 with
    | '.' :: cs3 =>
      match takeCls isDigitC cs3 with
      | ([], _) => some (m.1 ++ ds, cs2)
      | (fs, cs4) => some (m.1 ++ ds ++ '.' :: fs, cs4)
    | _ => some (m.1 ++ ds, cs2)

/-- `"[^"]*"` — the grammar's STRING terminal. -/
def strMatch : List Char → Option (List Char × List Char)
  | c :: cs =>
    if c = dq then
      match takeCls (fun d => d ≠ dq) cs with
      | (a, b) =>
        match b with
        | b0 :: b' => if b0 = dq then some (dq :: a ++ [dq], b') else none
        | [] => none
    else none
  | [] => none

/-! ### The contextual lexer

Lark's LALR contextual lexer only offers the terminals acceptable in the
current parser state.  For this grammar that collapses to two modes:
at an operand position the operand terminals (with the cell-reference
terminals ordered before NAME before NUMBER, as Lark orders terminals
by pattern length) are tried; after an operand only operator-like
terminals can be produced. -/

inductive LMode where
  | operand | operator
deriving DecidableEq, Repr

/-- The lexer mode that follows a token. -/
def nextMode : Tok → LMode
  | .numT _ | .strT _ | .cellT _ | .rpar => .operator
  | _ => .operand

def lexOperand (cs : List Char) : Option (Tok × List Char) :=
  match a1Match cs with
  | some (v, r) => some (.cellT (String.mk v), r)
  | none =>
    match a2Match cs with
    | some (v, r) => some (.cellT (String.mk v), r)
    | none =>
      match a0Match cs with
      | some (v, r) => some (.cellT (String.mk v), r)
      | none =>
        match nameMatch cs with
        | some (v, r) => some (.nameT (String.mk v), r)
        | none =>
          match numMatch cs with
          | some (v, r) => some (.numT (String.mk v), r)
          | none =>
            match strMatch cs with
            | some (v, r) => some (.strT (String.mk v), r)
            | none =>
              match cs with
              | '(' :: r => some (.lpar, r)
              | ')' :: r => some (.rpar, r)
              | ';' :: r => some (.semi, r)
              | '=' :: r => some (.opT .eq, r)
              | _ => none

def lexOperator : List Char → Option (Tok × List Char)
  | '<' :: r =>
    (match r with
     | '=' :: r2 => some (.opT .le, r2)
     | '>' :: r2 => some (.opT .ne, r2)
     | _ => some (.opT .lt, r))
  | '>' :: r =>
    (match r with
     | '=' :: r2 => some (.opT .ge, r2)
     | _ => some (.opT .gt, r))
  | '=' :: r => some (.opT .eq, r)
  | '+' :: r => some (.opT .add, r)
  | '-' :: r => some (.opT .sub, r)
  | '*' :: r => some (.opT .mul, r)
  | '/' :: r => some (.opT .div, r)
  | '^' :: r => some (.opT .pow, r)
  | '&' :: r => some (.opT .concat, r)
  | ')' :: r => some (.rpar, r)
  | ';' :: r => some (.semi, r)
  | _ => none

def lexStep : LMode → List Char → Option (Tok × List Char)
  | .operand, cs => lexOperand cs
  | .operator, cs => lexOperator cs

/-- Whitespace is `%ignore`d in every state. -/
def lexRun : Nat → LMode → List Char → Option (List Tok)
  | 0, _, _ => none
  | fuel + 1, m, cs =>
    match (cs.dropWhile isWSC) with
    | [] => some []
    | c :: cs' =>
      match lexStep m (c :: cs') with
      | some (t, r) =>
        match lexRun fuel (nextMode t) r with
        | some ts => some (t :: ts)
        | none => none
      | none => none

def lexF (s : String) : Option (List Tok) :=
  lexRun (s.data.length + 1) .operand s.data

/-! ### The parser

A fuel-indexed recursive-descent parser equivalent to the LALR parse of
the grammar: left-associative comparison, term and factor tiers, a
right-associative power tier, and atoms. -/

def isCmpOp : Op → Bool
  | .eq | .ne | .lt | .le | .gt | .ge => true
  | _ => false

def isTermOp : Op → Bool
  | .add | .sub | .concat => true
  | _ => false

def isFacOp : Op → Bool
  | .mul | .div => true
  | _ => false

mutual

def parseAtom : Nat → List Tok → Option (Ast × List Tok)
  | 0, _ => none
  | fuel + 1, ts =>
    match ts with
    | .numT s :: r => some (.num s, r)
    | .strT s :: r => some (.str s, r)
    | .cellT s :: r => some (.cell s, r)
    | .nameT n :: .lpar :: r =>
      (match r with
       | .rpar :: r2 => some (.call n .nil, r2)
       | _ =>
         match parseCmp fuel r with
         | none => none
         | some (a, r2) => parseArgs fuel n [a] r2)
    | .lpar :: r =>
      (match parseCmp fuel r with
       | none => none
       | some (a, r2) =>
         match r2 with
         | .rpar :: r3 => some (a, r3)
         | _ => none)
    | _ => none

def parseArgs : Nat → String → List Ast → List Tok → Option (Ast × List Tok)
  | 0, _, _, _ => none
  | fuel + 1, n, acc, ts =>
    match ts with
    | .rpar :: r => some (.call n (argsOf acc.reverse), r)
    | .semi :: r =>
      (match parseCmp fuel r with
       | none => none
       | some (a, r2) => parseArgs fuel n (a :: acc) r2)
    | _ => none

def parsePow : Nat → List Tok → Option (Ast × List Tok)
  | 0, _ => none
  | fuel + 1, ts =>
    match parseAtom fuel ts with
    | none => none
    | some (a, r) =>
      match r with
      | .opT .pow :: r2 =>
        (match parsePow fuel r2 with
         | none => none
         | some (b, r3) => some (.bin .pow a b, r3))
      | _ => some (a, r)

def parseFac : Nat → List Tok → Option (Ast × List Tok)
  | 0, _ => none
  | fuel + 1, ts =>
    match parsePow fuel ts with
    | none => none
    | some (a, r) => parseFacLoop fuel a r

def parseFacLoop : Nat → Ast → List Tok → Option (Ast × List Tok)
  | 0, _, _ => none
  | fuel + 1, acc, ts =>
    match ts with
    | .opT o :: r =>
      if isFacOp o then
        match parsePow fuel r with
        | none => none
        | some (b, r2) => parseFacLoop fuel (.bin o acc b) r2
      else some (acc, ts)
    | _ => some (acc, ts)

def parseTerm : Nat → List Tok → Option (Ast × List Tok)
  | 0, _ => none
  | fuel + 1, ts =>
    match parseFac fuel ts with
    | none => none
    | some (a, r) => parseTermLoop fuel a r

def parseTermLoop : Nat → Ast → List Tok → Option (Ast × List Tok)
  | 0, _, _ => none
  | fuel + 1, acc, ts =>
    match ts with
    | .opT o :: r =>
      if isTermOp o then
        match parseFac fuel r with
        | none => none
        | some (b, r2) => parseTermLoop fuel (.bin o acc b) r2
      else some (acc, ts)
    | _ => some (acc, ts)

def parseCmp : Nat → List Tok → Option (Ast × List Tok)
  | 0, _ => none
  | fuel + 1, ts =>
    match parseTerm fuel ts with
    | none => none
    | some (a, r) => parseCmpLoop fuel a r

def parseCmpLoop : Nat → Ast → List Tok → Option (Ast × List Tok)
  | 0, _, _ => none
  | fuel + 1, acc, ts =>
    match ts with
    | .opT o :: r =>
      if isCmpOp o then
        match parseTerm fuel r with
        | none => none
        | some (b, r2) => parseCmpLoop fuel (.bin o acc b) r2
      else some (acc, ts)
    | _ => some (acc, ts)

end

/-- Parse a full token stream: `start → "=" expr`, consuming everything. -/
def parseToks (ts : List Tok) : Option Ast :=
  match ts with
  | .opT .eq :: r =>
    match parseCmp (5 * r.length + 5) r with
    | some (t, []) => some t
    | _ => none
  | _ => none

/-- `self.parser.parse(formula)` -/
def parseF (s : String) : Option Ast :=
  match lexF s with
  | none => none
  | some ts => parseToks ts

/-! ### The printer (`tree_to_formula` with `needs_parens`) -/

def needsParens (o : Op) (parent : Option Op) : Bool :=
  match parent with
  | some p => pprec o < pprec p
  | none => false

mutual

def treeToFormula : Ast → Option Op → String
  | .num s, _ => s
  | .str s, _ => s
  | .cell s, _ => s
  | .call n args, _ => n ++ "(" ++ printArgs args ++ ")"
  | .bin o l r, parent =>
    let body := treeToFormula l (some o) ++ opStr o ++ treeToFormula r (some o)
    if needsParens o parent then "(" ++ body ++ ")" else body

def printArgs : Args → String
  | .nil => ""
  | .cons a .nil => treeToFormula a none
  | .cons a (.cons b rest) =>
    treeToFormula a none ++ ";" ++ printArgs (.cons b rest)

end

/-- The full printed formula, with the `"="` prefix. -/
def printTop (t : Ast) : String := "=" ++ treeToFormula t none

/-! ### The transformer (`IndirectAddressTransformer`)

`none` models a raised exception (the `sheet_name[0]` IndexError on an
empty sheet string); the `Nat` counts `logger.warning` calls. -/

/-- Python's `str.strip(uiteQuote)` specialised to `strip(chr 34)`. -/
def stripQ (s : String) : String :=
  String.mk (((s.data.dropWhile (fun c => c = dq)).reverse.dropWhile
    (fun c => c = dq)).reverse)

def needsQuote (s : String) : Bool :=
  (match s.data with
   | c :: _ => isDigitC c
   | [] => false) || s.data.contains '-' || s.data.contains ' '

def sheetRef (m : List (String × String)) (s : String) : Option String :=
  match m.lookup s with
  | some v => some v
  | none =>
    match s.data with
    | [] => none
    | _ :: _ =>
      some (if needsQuote s then String.mk [qc] ++ s ++ String.mk [qc] else s)

/-- `_transform_indirect_address`, given the `ADDRESS` call's name token
and arguments. -/
def transformIA (m : List (String × String)) (addrName : String)
    (addrArgs : Args) : Option (Ast × Nat) :=
  if alen addrArgs < 5 then
    some (.call "INDIRECT" (argsOf [.call addrName addrArgs]), 1)
  else
    match addrArgs with
    | .cons row (.cons col (.cons _ (.cons _ (.cons sheet _)))) =>
      (match sheet with
       | .str q =>
         (match sheetRef m (stripQ q) with
          | none => none
          | some ref =>
            some (.call "OFFSET"
              (argsOf [.cell (ref ++ ".A1"),
               .bin .sub row (.num "1"),
               .bin .sub col (.num "1")]), 0))
       | _ => some (.call "INDIRECT" (argsOf [.call addrName addrArgs]), 1))
    | _ => none

/-- The `function_call` visitor. -/
def transformCall (m : List (String × String)) (name : String)
    (args : Args) : Option (Ast × Nat) :=
  if upperStr name = "INDIRECT" && alen args = 1 then
    match args with
    | .cons (.call an aargs) .nil =>
      if upperStr an = "ADDRESS" then transformIA m an aargs
      else some (.call name args, 0)
    | _ => some (.call name args, 0)
  else some (.call name args, 0)

mutual

/-- Bottom-up transformation, as Lark's `Transformer.transform`. -/
def transformAst (m : List (String × String)) : Ast → Option (Ast × Nat)
  | .num s => some (.num s, 0)
  | .str s => some (.str s, 0)
  | .cell s => some (.cell s, 0)
  | .bin o l r =>
    match transformAst m l with
    | none => none
    | some (l', wl) =>
      match transformAst m r with
      | none => none
      | some (r', wr) => some (.bin o l' r', wl + wr)
  | .call n args =>
    match transformArgs m args with
    | none => none
    | some (args', w) =>
      match transformCall m n args' with
      | none => none
      | some (t, w2) => some (t, w + w2)

def transformArgs (m : List (String × String)) :
    Args → Option (Args × Nat)
  | .nil => some (.nil, 0)
  | .cons a rest =>
    match transformAst m a with
    | none => none
    | some (a', w1) =>
      match transformArgs m rest with
      | none => none
      | some (rest', w2) => some (.cons a' rest', w1 + w2)

end

/-- `FormulaASTTransformer.transform_indirect_address_to_offset`:
parse, transform, reprint; every internal failure becomes the single
`FormulaTransformError` (modelled as `.error ()`). -/
def transformF (m : List (String × String)) (s : String) :
    Except Unit String :=
  match parseF s with
  | none => .error ()
  | some t =>
    match transformAst m t with
    | none => .error ()
    | some (t', _) => .ok ("=" ++ treeToFormula t' none)

end XL


namespace XL

/-! ## The `FormulaTokenizer` of `formula_mapper.py`

A faithful model of the ordered `re`-pattern tokenizer, including the
`\b` word-boundary assertions (which inspect the previous character)
and the `(?=\s*\()` lookahead of the FUNCTION pattern. -/

inductive PTT where
  | FUNCTION | CELL_REF | NUMBER | STRING
  | LPAREN | RPAREN | COMMA | SEMICOLON | COLON
  | OPERATOR | EQUALS | WHITESPACE | UNKNOWN
deriving DecidableEq, Repr

structure PTok where
  type : PTT
  value : List Char
  pos : Nat
deriving DecidableEq, Repr

/-- `"(?:[^"\\]|\\.)*"` body scanner (after the opening quote);
returns the consumed characters including the closing quote. -/
def pyStrBody : Nat → List Char → Option (List Char × List Char)
  | 0, _ => none
  | fuel + 1, cs =>
    match cs with
    | [] => none
    | c :: r =>
      if c = dq then some ([dq], r)
      else if c = bsl then
        match r with
        | [] => none
        | e :: r2 =>
          match pyStrBody fuel r2 with
          | none => none
          | some (b, rest) => some (bsl :: e :: b, rest)
      else
        match pyStrBody fuel r with
        | none => none
        | some (b, rest) => some (c :: b, rest)

def pyStrMatch (cs : List Char) : Option (List Char × List Char) :=
  match cs with
  | c :: r =>
    if c = dq then
      match pyStrBody (r.length + 1) r with
      | none => none
      | some (b, rest) => some (dq :: b, rest)
    else none
  | [] => none

/-- CELL_REF pattern `\$?[A-Z]+\$?\d+` is the same regex as the
grammar's plain cell terminal. -/
def pyCellMatch (cs : List Char) : Option (List Char × List Char) :=
  a0Match cs

/-- Word-boundary `\b` immediately before a word character. -/
def bdryBefore (prev : Option Char) : Bool :=
  match prev with
  | none => true
  | some p => !(isWordC p)

/-- Word-boundary `\b` immediately after a word character: the next
character must not be a word character. -/
def bdryAfter : List Char → Bool
  | [] => true
  | c :: _ => !(isWordC c)

def isFuncTailC (c : Char) : Bool := isUpperC c || isDigitC c || c = '_'

/-- FUNCTION pattern `\b[A-Z_][A-Z0-9_]*(?=\s*\()`. -/
def pyFuncMatch (prev : Option Char) (cs : List Char) :
    Option (List Char × List Char) :=
  match cs with
  | c :: rest =>
    if (isUpperC c || c = '_') && bdryBefore prev then
      match takeCls isFuncTailC rest with
      | (nm, r) =>
        match r.dropWhile isWSC with
        | '(' :: _ => some (c :: nm, r)
        | _ => none
    else none
  | [] => none

/-- The exponent part `[eE][+-]?\d+`, if present. -/
def pyExpPart : List Char → Option (List Char × List Char)
  | c :: r =>
    if c = 'e' || c = 'E' then
      match r with
      | s :: r2 =>
        if s = '+' || s = '-' then
          match matchPlus isDigitC r2 with
          | none => none
          | some (ds, rest) => some (c :: s :: ds, rest)
        else
          match matchPlus isDigitC r with
          | none => none
          | some (ds, rest) => some (c :: ds, rest)
      | [] => none
    else none
  | [] => none

/-- The fraction part `\.\d+`, if present. -/
def pyFracPart : List Char → Option (List Char × List Char)
  | '.' :: r =>
    (match matchPlus isDigitC r with
     | none => none
     | some (ds, rest) => some ('.' :: ds, rest))
  | _ => none

/-- NUMBER pattern `\b\d+(?:\.\d+)?(?:[eE][+-]?\d+)?\b`.

Backtracking note: a digit run can only shrink to a point immediately
before another digit, where the trailing `\b` fails, so only the four
whole-group alternatives (with/without fraction, with/without
exponent), in the regex engine's preference order, can match. -/
def pyNumMatch (prev : Option Char) (cs : List Char) :
    Option (List Char × List Char) :=
  if bdryBefore prev then
    match matchPlus isDigitC cs with
    | none => none
    | some (ds, r1) =>
      let cand2 : Option (List Char × List Char) :=
        match pyFracPart r1 with
        | none => none
        | some (fr, r2) =>
          let cand1 : Option (List Char × List Char) :=
            match pyExpPart r2 with
            | none => none
            | some (ex, r3) =>
              if bdryAfter r3 then some (ds ++ fr ++ ex, r3) else none
          match cand1 with
          | some v => some v
          | none => if bdryAfter r2 then some (ds ++ fr, r2) else none
      match cand2 with
      | some v => some v
      | none =>
        match pyExpPart r1 with
        | some (ex, r3) =>
          if bdryAfter r3 then some (ds ++ ex, r3)
          else if bdryAfter r1 then some (ds, r1) else none
        | none => if bdryAfter r1 then some (ds, r1) else none
  else none

/-- OPERATOR pattern `(?:<=|>=|<>|[+\-*/^&<>=])`. -/
def pyOpMatch : List Char → Option (List Char × List Char)
  | '<' :: '=' :: r => some (['<', '='], r)
  | '>' :: '=' :: r => some (['>', '='], r)
  | '<' :: '>' :: r => some (['<', '>'], r)
  | c :: r =>
    if c = '+' || c = '-' || c = '*' || c = '/' || c = '^' || c = '&' ||
       c = '<' || c = '>' || c = '=' then some ([c], r)
    else none
  | [] => none

/-- One step of `FormulaTokenizer.tokenize`: the first pattern of the
ordered `PATTERNS` list matching at the current position wins. -/
def pyStep (prev : Option Char) (cs : List Char) :
    Option (PTT × List Char × List Char) :=
  match pyStrMatch cs with
  | some (v, r) => some (.STRING, v, r)
  | none =>
    match pyCellMatch cs with
    | some (v, r) => some (.CELL_REF, v, r)
    | none =>
      match pyFuncMatch prev cs with
      | some (v, r) => some (.FUNCTION, v, r)
      | none =>
        match pyNumMatch prev cs with
        | some (v, r) => some (.NUMBER, v, r)
        | none =>
          match cs with
          | '(' :: r => some (.LPAREN, ['('], r)
          | ')' :: r => some (.RPAREN, [')'], r)
          | ',' :: r => some (.COMMA, [','], r)
          | ';' :: r => some (.SEMICOLON, [';'], r)
          | ':' :: r => some (.COLON, [':'], r)
          | _ =>
            match pyOpMatch cs with
            | some (v, r) => some (.OPERATOR, v, r)
            | none =>
              match cs with
              | '=' :: r => some (.EQUALS, ['='], r)
              | _ =>
                match matchPlus isWSC cs with
                | some (v, r) => some (.WHITESPACE, v, r)
                | none => none

/-- The scan loop: on no match, a single-character UNKNOWN token. -/
def pyGo : Nat → Option Char → Nat → List Char → List PTok
  | 0, _, _, _ => []
  | fuel + 1, prev, pos, cs =>
    match cs with
    | [] => []
    | c :: rest =>
      match pyStep prev (c :: rest) with
      | some (ty, v, r) =>
        ⟨ty, v, pos⟩ :: pyGo fuel (v.getLast? ) (pos + v.length) r
      | none => ⟨.UNKNOWN, [c], pos⟩ :: pyGo fuel (some c) (pos + 1) rest

/-- `FormulaTokenizer.tokenize` over the characters of the input. -/
def tokenizePy (cs : List Char) : List PTok :=
  pyGo (cs.length + 1) none 0 cs

/-! ## `map_formula` -/

/-- Translation of a single token, given the function map (canonical
name → locale → localized name) and the separator for the locale. -/
def mapTok (fm : List (String × List (String × String)))
    (sep : String) (locale : String) (t : PTok) : String :=
  match t.type with
  | .FUNCTION =>
    (match fm.lookup (upperStr (String.mk t.value)) with
     | some entry =>
       (match entry.lookup locale with
        | some tr => tr
        | none => String.mk t.value)
     | none => String.mk t.value)
  | .COMMA => sep
  | _ => String.mk t.value

/-- `locale_config.get(locale, {}).get("separator", ",")` -/
def lcSep (lc : List (String × String)) (locale : String) : String :=
  match lc.lookup locale with
  | some sp => sp
  | none => ","

/-- `formula.startswith(eqSign)`: the formula is nonempty and begins
with `=`. -/
def startsEq (s : String) : Bool :=
  match s.data with
  | c :: _ => c = '='
  | [] => false

/-- `map_formula`, with the YAML-loaded tables passed explicitly. -/
def mapFormula (fm : List (String × List (String × String)))
    (lc : List (String × String)) (s : String) (locale : String) : String :=
  if !(startsEq s) then s
  else
    String.join ((tokenizePy s.data).map (mapTok fm (lcSep lc locale) locale))

end XL


namespace XL

/-! ## Claim C1 (dynamic-addressing rewrite: which target shape?) -/

/-- C1: evaluating `transform_indirect_address_to_offset` on
`=INDIRECT(ADDRESS(5;3;4;1;"Sheet1"))` yields the static `OFFSET`
form, not the concatenation form
`=INDIRECT("Sheet1."&ADDRESS(5;3;4;1))` that the specification (and
the repository's own unit test) state; no concatenation-form strategy
exists in the code. -/
theorem c1_transform_produces_offset_form :
    transformF [] "=INDIRECT(ADDRESS(5;3;4;1;\"Sheet1\"))" =
      .ok "=OFFSET(Sheet1.A1;5-1;3-1)" ∧
    "=OFFSET(Sheet1.A1;5-1;3-1)" ≠
      "=INDIRECT(\"Sheet1.\"&ADDRESS(5;3;4;1))" := by
  exact ⟨rfl, by decide⟩

/-! ## Claim C2 (cross-sheet dollar-prefix repair) -/

/-- C2: the transform returns `=SUM($Tabelle.$D$5)` byte-identically:
the stray `$` before the sheet qualifier is *not* stripped, contrary to
the specification and the repository's own unit test, which expect
`=SUM(Tabelle.$D$5)`. -/
theorem c2_no_dollar_strip :
    transformF [] "=SUM($Tabelle.$D$5)" = .ok "=SUM($Tabelle.$D$5)" ∧
    "=SUM($Tabelle.$D$5)" ≠ "=SUM(Tabelle.$D$5)" := by
  exact ⟨rfl, by decide⟩

end XL

namespace XL

/-! ## Claim C4 (static-offset rewrite) -/

/-- C4: on a `FunctionCall INDIRECT` whose single argument is
`FunctionCall ADDRESS` with exactly five arguments whose fifth is a
string literal naming a sheet, the `function_call` visitor replaces the
subtree with `OFFSET(<quotedSheet>.A1, row - 1, col - 1)`; the row and
column expressions are carried over verbatim as sub-ASTs. -/
theorem c4_static_offset_rewrite (m : List (String × String))
    (name an : String) (hn : upperStr name = "INDIRECT")
    (ha : upperStr an = "ADDRESS") (row col a b : Ast) (q ref : String)
    (href : sheetRef m (stripQ q) = some ref) :
    transformCall m name
      (argsOf [.call an (argsOf [row, col, a, b, .str q])]) =
      some (.call "OFFSET"
        (argsOf [.cell (ref ++ ".A1"),
         .bin .sub row (.num "1"),
         .bin .sub col (.num "1")]), 0) := by
  simp [transformCall, hn, ha, transformIA, href, argsOf, alen]

/-- Witness for C4, with a live non-literal row expression
(`ROW()`), never pre-evaluated. -/
theorem c4_static_offset_rewrite_witness :
    transformCall [] "INDIRECT"
      (argsOf [.call "ADDRESS"
        (argsOf [.call "ROW" .nil, .num "3", .num "4", .num "1",
          .str "\"Sheet1\""])]) =
      some (.call "OFFSET"
        (argsOf [.cell "Sheet1.A1",
         .bin .sub (.call "ROW" .nil) (.num "1"),
         .bin .sub (.num "3") (.num "1")]), 0) :=
  c4_static_offset_rewrite [] "INDIRECT" "ADDRESS" rfl rfl
    (.call "ROW" .nil) (.num "3") (.num "4") (.num "1") "\"Sheet1\"" "Sheet1" rfl

/-! ## Claim C6 (arity/shape guard of the addressing rewrite) -/

/-- C6 counterexample: with a lowercase-spelled `indirect`, the guarded
(4-argument `ADDRESS`) subtree is *not* left unchanged: the rebuilt
node carries a fresh uppercase `INDIRECT` token, so the output is not
byte-identical to the input. -/
theorem c6_lowercase_indirect_not_byte_identical :
    transformF [] "=indirect(ADDRESS(1;2;3;4))" =
      .ok "=INDIRECT(ADDRESS(1;2;3;4))" ∧
    "=INDIRECT(ADDRESS(1;2;3;4))" ≠ "=indirect(ADDRESS(1;2;3;4))" := by
  exact ⟨rfl, by decide⟩

/-- C6 (amended): when `ADDRESS` has fewer than five arguments, or its
fifth argument is not a string literal, the visitor returns the subtree
unchanged except that the `INDIRECT` name token is normalized to
uppercase (so an uppercase-spelled `INDIRECT` round-trips
byte-identically), records exactly one warning, and raises no
exception. -/
theorem c6_guard_leaves_subtree (m : List (String × String))
    (name an : String) (hn : upperStr name = "INDIRECT")
    (ha : upperStr an = "ADDRESS") (args : Args)
    (hguard : alen args < 5 ∨
      ∃ r c a b s rest,
        args = .cons r (.cons c (.cons a (.cons b (.cons s rest)))) ∧
        ∀ q, s ≠ .str q) :
    transformCall m name (argsOf [.call an args]) =
      some (.call "INDIRECT" (argsOf [.call an args]), 1) := by
  show transformCall m name (.cons (.call an args) .nil) =
    some (.call "INDIRECT" (.cons (.call an args) .nil), 1)
  have hcond : (upperStr name = "INDIRECT" &&
      alen (Args.cons (Ast.call an args) .nil) = 1) = true := by
    simp [hn, alen]
  simp only [transformCall, hcond, if_true, ha, if_pos]
  rcases hguard with h5 | ⟨r, c, a, b, s, rest, hargs, hs⟩
  · simp only [transformIA, h5, if_pos]
    rfl
  · subst hargs
    have h5 : ¬ (alen (Args.cons r (.cons c (.cons a (.cons b (.cons s rest))))) < 5) := by
      simp only [alen]
      omega
    simp only [transformIA, h5, if_false]
    cases s with
    | num s0 => rfl
    | str s0 => exact absurd rfl (hs s0)
    | cell s0 => rfl
    | call n0 a0 => rfl
    | bin o0 l0 r0 => rfl

/-- Witness for C6: the spec's own instance — `ADDRESS` with only four
arguments inside an (uppercase) `INDIRECT` is left unchanged with one
warning, and the full pipeline returns the formula byte-identically. -/
theorem c6_guard_leaves_subtree_witness :
    transformCall [] "INDIRECT"
      (argsOf [.call "ADDRESS"
        (argsOf [.num "1", .num "2", .num "3", .num "4"])]) =
      some (.call "INDIRECT"
        (argsOf [.call "ADDRESS"
          (argsOf [.num "1", .num "2", .num "3", .num "4"])]), 1) ∧
    transformF [] "=INDIRECT(ADDRESS(1;2;3;4))" =
      .ok "=INDIRECT(ADDRESS(1;2;3;4))" :=
  ⟨c6_guard_leaves_subtree [] "INDIRECT" "ADDRESS" rfl rfl
      (argsOf [.num "1", .num "2", .num "3", .num "4"])
      (Or.inl (by simp [argsOf, alen])),
    rfl⟩

end XL

namespace XL

/-! ## Claim C8 (locale-mapper frame property) -/

/-- C8: for a formula starting with `=`, `map_formula` is exactly the
per-token translation joined back together, and the translation of
every token that is not a FUNCTION token and not a COMMA token is its
original text — references, numbers, strings, operators, whitespace,
parentheses and colons are copied verbatim. -/
theorem c8_map_formula_frame (fm : List (String × List (String × String)))
    (lc : List (String × String)) (s locale : String)
    (h : startsEq s = true) :
    mapFormula fm lc s locale =
      String.join ((tokenizePy s.data).map
        (mapTok fm (lcSep lc locale) locale)) ∧
    ∀ t ∈ tokenizePy s.data, t.type ≠ .FUNCTION → t.type ≠ .COMMA →
      mapTok fm (lcSep lc locale) locale t = String.mk t.value := by
  constructor
  · simp [mapFormula, h]
  · intro t _ h1 h2
    unfold mapTok
    cases ht : t.type <;>
      first
        | exact absurd ht h1
        | exact absurd ht h2
        | rfl

/-- Witness for C8 at the spec's own example `=SUM(A1,A2,A3)` with the
German locale tables. -/
theorem c8_map_formula_frame_witness :
    mapFormula [("SUM", [("de-DE", "SUMME")])] [("de-DE", ";")]
        "=SUM(A1,A2,A3)" "de-DE" =
      String.join ((tokenizePy "=SUM(A1,A2,A3)".data).map
        (mapTok [("SUM", [("de-DE", "SUMME")])] ";" "de-DE")) ∧
    mapFormula [("SUM", [("de-DE", "SUMME")])] [("de-DE", ";")]
        "=SUM(A1,A2,A3)" "de-DE" = "=SUMME(A1;A2;A3)" := by
  have hmain := c8_map_formula_frame [("SUM", [("de-DE", "SUMME")])]
    [("de-DE", ";")] "=SUM(A1,A2,A3)" "de-DE" rfl
  exact ⟨hmain.1, rfl⟩

end XL

namespace XL

/-! ## Matcher consumption lemmas -/

theorem takeCls_append (p : Char → Bool) :
    ∀ cs, (takeCls p cs).1 ++ (takeCls p cs).2 = cs := by
  intro cs
  induction cs with
  | nil => rfl
  | cons c rest ih =>
    by_cases h : p c
    · simp [takeCls, h, ih]
    · simp [takeCls, h]

theorem matchPlus_spec {p : Char → Bool} {cs v r : List Char}
    (h : matchPlus p cs = some (v, r)) : v ++ r = cs ∧ v ≠ [] := by
  unfold matchPlus at h
  rcases ht : takeCls p cs with ⟨a, b⟩
  rw [ht] at h
  cases a with
  | nil => simp at h
  | cons x xs =>
    simp only [Option.some.injEq, Prod.mk.injEq] at h
    obtain ⟨hv, hr⟩ := h
    subst hv
    subst hr
    have := takeCls_append p cs
    rw [ht] at this
    exact ⟨this, by simp⟩

theorem matchDollar_append : ∀ cs,
    (matchDollar cs).1 ++ (matchDollar cs).2 = cs := by
  intro cs
  rcases cs with _ | ⟨c, r⟩
  · rfl
  · dsimp only [matchDollar]
    split <;> simp_all

theorem matchQuote_append : ∀ cs,
    (matchQuote cs).1 ++ (matchQuote cs).2 = cs := by
  intro cs
  unfold matchQuote
  split
  · split <;> simp_all
  · rfl

theorem matchMinus_append : ∀ cs,
    (matchMinus cs).1 ++ (matchMinus cs).2 = cs := by
  intro cs
  rcases cs with _ | ⟨c, r⟩
  · rfl
  · dsimp only [matchMinus]
    split <;> simp_all

theorem a0Match_spec {cs v r : List Char}
    (h : a0Match cs = some (v, r)) : v ++ r = cs ∧ v ≠ [] := by
  simp only [a0Match] at h
  rcases h1 : matchPlus isUpperC (matchDollar cs).2
    with _ | ⟨ls, cs2⟩ <;> simp only [h1] at h
  · exact absurd h (by simp)
  rcases h2 : matchPlus isDigitC (matchDollar cs2).2
    with _ | ⟨ds, cs4⟩ <;> simp only [h2] at h
  · exact absurd h (by simp)
  simp only [Option.some.injEq, Prod.mk.injEq] at h
  obtain ⟨hv, hr⟩ := h
  rw [← hv, ← hr]
  obtain ⟨e1, ne1⟩ := matchPlus_spec h1
  obtain ⟨e2, _⟩ := matchPlus_spec h2
  have d1 := matchDollar_append cs
  have d2 := matchDollar_append cs2
  constructor
  · calc ((matchDollar cs).1 ++ ls ++ (matchDollar cs2).1 ++ ds) ++ cs4
        = (matchDollar cs).1 ++ (ls ++ ((matchDollar cs2).1 ++ (ds ++ cs4))) := by
          simp [List.append_assoc]
      _ = (matchDollar cs).1 ++ (ls ++ cs2) := by rw [e2, d2]
      _ = (matchDollar cs).1 ++ (matchDollar cs).2 := by rw [← e1]
      _ = cs := d1
  · simp [ne1]

theorem a1Match_spec {cs v r : List Char}
    (h : a1Match cs = some (v, r)) : v ++ r = cs ∧ v ≠ [] := by
  simp only [a1Match] at h
  rcases h1 : a0Match cs with _ | ⟨p1, cs1⟩ <;> simp only [h1] at h
  · exact absurd h (by simp)
  split at h
  next cs2 =>
    rcases h2 : a0Match cs2 with _ | ⟨p2, cs3⟩ <;> simp only [h2] at h
    · exact absurd h (by simp)
    simp only [Option.some.injEq, Prod.mk.injEq] at h
    obtain ⟨hv, hr⟩ := h
    rw [← hv, ← hr]
    obtain ⟨e1, _⟩ := a0Match_spec h1
    obtain ⟨e2, _⟩ := a0Match_spec h2
    constructor
    · calc (p1 ++ ':' :: p2) ++ cs3 = p1 ++ ':' :: (p2 ++ cs3) := by
            simp [List.append_assoc]
        _ = p1 ++ ':' :: cs2 := by rw [e2]
        _ = cs := e1
    · simp
  next => exact absurd h (by simp)

theorem a2Match_spec {cs v r : List Char}
    (h : a2Match cs = some (v, r)) : v ++ r = cs ∧ v ≠ [] := by
  simp only [a2Match] at h
  rcases h1 : matchPlus isWordDashC (matchQuote (matchDollar cs).2).2
    with _ | ⟨w, cs3⟩ <;> simp only [h1] at h
  · exact absurd h (by simp)
  split at h
  next cs5 hq2 =>
    rcases h2 : matchPlus isUpperC (matchDollar cs5).2
      with _ | ⟨ls, cs7⟩ <;> simp only [h2] at h
    · exact absurd h (by simp)
    rcases h3 : matchPlus isDigitC (matchDollar cs7).2
      with _ | ⟨ds, cs9⟩ <;> simp only [h3] at h
    · exact absurd h (by simp)
    simp only [Option.some.injEq, Prod.mk.injEq] at h
    obtain ⟨hv, hr⟩ := h
    rw [← hv, ← hr]
    obtain ⟨e1, ne1⟩ := matchPlus_spec h1
    obtain ⟨e2, _⟩ := matchPlus_spec h2
    obtain ⟨e3, _⟩ := matchPlus_spec h3
    have dqcs3 := matchQuote_append cs3
    have dd5 := matchDollar_append cs5
    have dd7 := matchDollar_append cs7
    have dqd := matchQuote_append (matchDollar cs).2
    have ddc := matchDollar_append cs
    constructor
    · calc ((matchDollar cs).1 ++ (matchQuote (matchDollar cs).2).1 ++ w ++
            (matchQuote cs3).1 ++
            '.' :: ((matchDollar cs5).1 ++ ls ++ (matchDollar cs7).1 ++ ds)) ++ cs9
          = (matchDollar cs).1 ++ ((matchQuote (matchDollar cs).2).1 ++ (w ++
            ((matchQuote cs3).1 ++
            '.' :: ((matchDollar cs5).1 ++ (ls ++ ((matchDollar cs7).1 ++ (ds ++ cs9))))))) := by
            simp [List.append_assoc]
        _ = (matchDollar cs).1 ++ ((matchQuote (matchDollar cs).2).1 ++ (w ++
            ((matchQuote cs3).1 ++
            '.' :: ((matchDollar cs5).1 ++ (ls ++ cs7))))) := by rw [e3, dd7]
        _ = (matchDollar cs).1 ++ ((matchQuote (matchDollar cs).2).1 ++ (w ++
            ((matchQuote cs3).1 ++ '.' :: cs5))) := by rw [e2, dd5]
        _ = (matchDollar cs).1 ++ ((matchQuote (matchDollar cs).2).1 ++ (w ++
            ((matchQuote cs3).1 ++ (matchQuote cs3).2))) := by rw [hq2]
        _ = (matchDollar cs).1 ++ ((matchQuote (matchDollar cs).2).1 ++ (w ++ cs3)) := by
            rw [dqcs3]
        _ = (matchDollar cs).1 ++ ((matchQuote (matchDollar cs).2).1 ++
            (matchQuote (matchDollar cs).2).2) := by rw [← e1]
        _ = cs := by rw [dqd, ddc]
    · intro hcon
      obtain ⟨-, h2n⟩ := List.append_eq_nil.mp hcon
      exact List.cons_ne_nil _ _ h2n
  next => exact absurd h (by simp)

theorem nameMatch_spec {cs v r : List Char}
    (h : nameMatch cs = some (v, r)) : v ++ r = cs ∧ v ≠ [] := by
  simp only [nameMatch] at h
  rcases cs with _ | ⟨c, rest⟩
  · exact absurd h (by simp)
  by_cases hc : isNameStartC c
  · simp only [hc, if_true, Option.some.injEq, Prod.mk.injEq] at h
    obtain ⟨hv, hr⟩ := h
    rw [← hv, ← hr]
    have := takeCls_append isNameTailC rest
    exact ⟨by simp [this], by simp⟩
  · simp [hc] at h

theorem numMatch_spec {cs v r : List Char}
    (h : numMatch cs = some (v, r)) : v ++ r = cs ∧ v ≠ [] := by
  simp only [numMatch] at h
  rcases h1 : matchPlus isDigitC (matchMinus cs).2
    with _ | ⟨ds, cs2⟩ <;> simp only [h1] at h
  · exact absurd h (by simp)
  obtain ⟨e1, ne1⟩ := matchPlus_spec h1
  have dm := matchMinus_append cs
  have base : ((matchMinus cs).1 ++ ds) ++ cs2 = cs := by
    calc ((matchMinus cs).1 ++ ds) ++ cs2
        = (matchMinus cs).1 ++ (ds ++ cs2) := by simp [List.append_assoc]
      _ = cs := by rw [e1, dm]
  split at h
  next cs3 =>
    rcases h2 : takeCls isDigitC cs3 with ⟨fs, cs4⟩
    rw [h2] at h
    have tca := takeCls_append isDigitC cs3
    rw [h2] at tca
    dsimp only at tca
    cases fs with
    | nil =>
      simp only [Option.some.injEq, Prod.mk.injEq] at h
      obtain ⟨hv, hr⟩ := h
      rw [← hv, ← hr]
      exact ⟨base, by simp [ne1]⟩
    | cons f0 fs0 =>
      simp only [Option.some.injEq, Prod.mk.injEq] at h
      obtain ⟨hv, hr⟩ := h
      rw [← hv, ← hr]
      constructor
      · calc ((matchMinus cs).1 ++ ds ++ '.' :: (f0 :: fs0)) ++ cs4
            = ((matchMinus cs).1 ++ ds) ++ ('.' :: ((f0 :: fs0) ++ cs4)) := by
              simp [List.append_assoc]
          _ = ((matchMinus cs).1 ++ ds) ++ ('.' :: cs3) := by
              rw [tca]
          _ = cs := base
      · simp [ne1]
  next =>
    simp only [Option.some.injEq, Prod.mk.injEq] at h
    obtain ⟨hv, hr⟩ := h
    rw [← hv, ← hr]
    exact ⟨base, by simp [ne1]⟩

end XL

namespace XL

theorem pyStrBody_spec : ∀ fuel (cs b rest : List Char),
    pyStrBody fuel cs = some (b, rest) → b ++ rest = cs ∧ b ≠ [] := by
  intro fuel
  induction fuel with
  | zero => intro cs b rest h; exact absurd h (by simp [pyStrBody])
  | succ f ih =>
    intro cs b rest h
    unfold pyStrBody at h
    rcases cs with _ | ⟨c, r⟩
    · exact absurd h (by simp)
    dsimp only at h
    by_cases hc : c = dq
    · subst hc
      rw [if_pos rfl] at h
      simp only [Option.some.injEq, Prod.mk.injEq] at h
      obtain ⟨hv, hr⟩ := h
      rw [← hv, ← hr]
      exact ⟨rfl, by simp⟩
    · rw [if_neg hc] at h
      by_cases hb : c = bsl
      · subst hb
        rw [if_pos rfl] at h
        rcases r with _ | ⟨e, r2⟩
        · exact absurd h (by simp)
        dsimp only at h
        rcases h2 : pyStrBody f r2 with _ | ⟨b0, rest0⟩ <;>
          simp only [h2] at h
        · exact absurd h (by simp)
        simp only [Option.some.injEq, Prod.mk.injEq] at h
        obtain ⟨hv, hr⟩ := h
        rw [← hv, ← hr]
        obtain ⟨e0, -⟩ := ih r2 b0 rest0 h2
        exact ⟨by simp [e0], by simp⟩
      · rw [if_neg hb] at h
        rcases h2 : pyStrBody f r with _ | ⟨b0, rest0⟩ <;>
          simp only [h2] at h
        · exact absurd h (by simp)
        simp only [Option.some.injEq, Prod.mk.injEq] at h
        obtain ⟨hv, hr⟩ := h
        rw [← hv, ← hr]
        obtain ⟨e0, -⟩ := ih r b0 rest0 h2
        exact ⟨by simp [e0], by simp⟩

theorem pyStrMatch_spec {cs v r : List Char}
    (h : pyStrMatch cs = some (v, r)) : v ++ r = cs ∧ v ≠ [] := by
  unfold pyStrMatch at h
  rcases cs with _ | ⟨c, rest⟩
  · exact absurd h (by simp)
  dsimp only at h
  by_cases hc : c = dq
  · subst hc
    rw [if_pos rfl] at h
    rcases h2 : pyStrBody (rest.length + 1) rest with _ | ⟨b, rest0⟩ <;>
      simp only [h2] at h
    · exact absurd h (by simp)
    simp only [Option.some.injEq, Prod.mk.injEq] at h
    obtain ⟨hv, hr⟩ := h
    rw [← hv, ← hr]
    obtain ⟨e0, -⟩ := pyStrBody_spec _ _ _ _ h2
    exact ⟨by simp [e0], by simp⟩
  · rw [if_neg hc] at h
    exact absurd h (by simp)

theorem pyFuncMatch_spec {prev : Option Char} {cs v r : List Char}
    (h : pyFuncMatch prev cs = some (v, r)) : v ++ r = cs ∧ v ≠ [] := by
  unfold pyFuncMatch at h
  rcases cs with _ | ⟨c, rest⟩
  · exact absurd h (by simp)
  dsimp only at h
  by_cases hc : ((isUpperC c || c = '_') && bdryBefore prev) = true
  · rw [if_pos hc] at h
    rcases h2 : takeCls isFuncTailC rest with ⟨nm, r0⟩
    rw [h2] at h
    dsimp only at h
    have tca := takeCls_append isFuncTailC rest
    rw [h2] at tca
    dsimp only at tca
    split at h
    · simp only [Option.some.injEq, Prod.mk.injEq] at h
      obtain ⟨hv, hr⟩ := h
      rw [← hv, ← hr]
      exact ⟨by simp [tca], by simp⟩
    · exact absurd h (by simp)
  · rw [if_neg hc] at h
    exact absurd h (by simp)

theorem pyFracPart_spec {cs v r : List Char}
    (h : pyFracPart cs = some (v, r)) : v ++ r = cs ∧ v ≠ [] := by
  unfold pyFracPart at h
  split at h
  next r0 =>
    rcases h2 : matchPlus isDigitC r0 with _ | ⟨ds, rest⟩ <;>
      simp only [h2] at h
    · exact absurd h (by simp)
    simp only [Option.some.injEq, Prod.mk.injEq] at h
    obtain ⟨hv, hr⟩ := h
    rw [← hv, ← hr]
    obtain ⟨e0, -⟩ := matchPlus_spec h2
    exact ⟨by simp [e0], by simp⟩
  next => exact absurd h (by simp)

theorem pyExpPart_spec {cs v r : List Char}
    (h : pyExpPart cs = some (v, r)) : v ++ r = cs ∧ v ≠ [] := by
  unfold pyExpPart at h
  rcases cs with _ | ⟨c, r0⟩
  · exact absurd h (by simp)
  dsimp only at h
  by_cases hc : (c = 'e' || c = 'E') = true
  · rw [if_pos hc] at h
    rcases r0 with _ | ⟨s, r2⟩
    · exact absurd h (by simp)
    dsimp only at h
    by_cases hs : (s = '+' || s = '-') = true
    · rw [if_pos hs] at h
      rcases h2 : matchPlus isDigitC r2 with _ | ⟨ds, rest⟩ <;>
        simp only [h2] at h
      · exact absurd h (by simp)
      simp only [Option.some.injEq, Prod.mk.injEq] at h
      obtain ⟨hv, hr⟩ := h
      rw [← hv, ← hr]
      obtain ⟨e0, -⟩ := matchPlus_spec h2
      exact ⟨by simp [e0], by simp⟩
    · rw [if_neg hs] at h
      rcases h2 : matchPlus isDigitC (s :: r2) with _ | ⟨ds, rest⟩ <;>
        simp only [h2] at h
      · exact absurd h (by simp)
      simp only [Option.some.injEq, Prod.mk.injEq] at h
      obtain ⟨hv, hr⟩ := h
      rw [← hv, ← hr]
      obtain ⟨e0, -⟩ := matchPlus_spec h2
      exact ⟨by simp [e0], by simp⟩
  · rw [if_neg hc] at h
    exact absurd h (by simp)

theorem pyNumMatch_spec {prev : Option Char} {cs v r : List Char}
    (h : pyNumMatch prev cs = some (v, r)) : v ++ r = cs ∧ v ≠ [] := by
  unfold pyNumMatch at h
  by_cases hb : bdryBefore prev = true
  case neg => rw [if_neg hb] at h; exact absurd h (by simp)
  rw [if_pos hb] at h
  rcases h1 : matchPlus isDigitC cs with _ | ⟨ds, r1⟩ <;> simp only [h1] at h
  · exact absurd h (by simp)
  obtain ⟨e1, ne1⟩ := matchPlus_spec h1
  have concl : ∀ (w rr : List Char), w ++ rr = cs → w ≠ [] →
      some (w, rr) = some (v, r) → v ++ r = cs ∧ v ≠ [] := by
    intro w rr hw hne hh
    simp only [Option.some.injEq, Prod.mk.injEq] at hh
    obtain ⟨hv, hr⟩ := hh
    rw [← hv, ← hr]
    exact ⟨hw, hne⟩
  rcases h2 : pyFracPart r1 with _ | ⟨fr, r2⟩ <;> simp only [h2] at h
  · rcases h4 : pyExpPart r1 with _ | ⟨ex1, r31⟩ <;> simp only [h4] at h
    · by_cases hba1 : bdryAfter r1 = true
      · rw [if_pos hba1] at h
        exact concl _ _ e1 ne1 h
      · rw [if_neg hba1] at h
        exact absurd h (by simp)
    · obtain ⟨e4, -⟩ := pyExpPart_spec h4
      by_cases hba3 : bdryAfter r31 = true
      · rw [if_pos hba3] at h
        refine concl _ _ ?_ (by simp [ne1]) h
        calc (ds ++ ex1) ++ r31 = ds ++ (ex1 ++ r31) := by
              simp [List.append_assoc]
          _ = ds ++ r1 := by rw [e4]
          _ = cs := e1
      · rw [if_neg hba3] at h
        by_cases hba1 : bdryAfter r1 = true
        · rw [if_pos hba1] at h
          exact concl _ _ e1 ne1 h
        · rw [if_neg hba1] at h
          exact absurd h (by simp)
  · obtain ⟨e2, -⟩ := pyFracPart_spec h2
    have base2 : (ds ++ fr) ++ r2 = cs := by
      calc (ds ++ fr) ++ r2 = ds ++ (fr ++ r2) := by simp [List.append_assoc]
        _ = ds ++ r1 := by rw [e2]
        _ = cs := e1
    rcases h3 : pyExpPart r2 with _ | ⟨ex, r3⟩ <;> simp only [h3] at h
    · by_cases hba2 : bdryAfter r2 = true
      · rw [if_pos hba2] at h
        dsimp only at h
        exact concl _ _ base2 (by simp [ne1]) h
      · rw [if_neg hba2] at h
        dsimp only at h
        rcases h4 : pyExpPart r1 with _ | ⟨ex1, r31⟩ <;> simp only [h4] at h
        · by_cases hba1 : bdryAfter r1 = true
          · rw [if_pos hba1] at h
            exact concl _ _ e1 ne1 h
          · rw [if_neg hba1] at h
            exact absurd h (by simp)
        · obtain ⟨e4, -⟩ := pyExpPart_spec h4
          by_cases hba3 : bdryAfter r31 = true
          · rw [if_pos hba3] at h
            refine concl _ _ ?_ (by simp [ne1]) h
            calc (ds ++ ex1) ++ r31 = ds ++ (ex1 ++ r31) := by
                  simp [List.append_assoc]
              _ = ds ++ r1 := by rw [e4]
              _ = cs := e1
          · rw [if_neg hba3] at h
            by_cases hba1 : bdryAfter r1 = true
            · rw [if_pos hba1] at h
              exact concl _ _ e1 ne1 h
            · rw [if_neg hba1] at h
              exact absurd h (by simp)
    · obtain ⟨e3, -⟩ := pyExpPart_spec h3
      by_cases hba3 : bdryAfter r3 = true
      · rw [if_pos hba3] at h
        dsimp only at h
        refine concl _ _ ?_ (by simp [ne1]) h
        calc (ds ++ fr ++ ex) ++ r3 = ds ++ (fr ++ (ex ++ r3)) := by
              simp [List.append_assoc]
          _ = ds ++ (fr ++ r2) := by rw [e3]
          _ = ds ++ r1 := by rw [e2]
          _ = cs := e1
      · rw [if_neg hba3] at h
        dsimp only at h
        by_cases hba2 : bdryAfter r2 = true
        · rw [if_pos hba2] at h
          dsimp only at h
          exact concl _ _ base2 (by simp [ne1]) h
        · rw [if_neg hba2] at h
          dsimp only at h
          rcases h4 : pyExpPart r1 with _ | ⟨ex1, r31⟩ <;> simp only [h4] at h
          · by_cases hba1 : bdryAfter r1 = true
            · rw [if_pos hba1] at h
              exact concl _ _ e1 ne1 h
            · rw [if_neg hba1] at h
              exact absurd h (by simp)
          · obtain ⟨e4, -⟩ := pyExpPart_spec h4
            by_cases hba31 : bdryAfter r31 = true
            · rw [if_pos hba31] at h
              refine concl _ _ ?_ (by simp [ne1]) h
              calc (ds ++ ex1) ++ r31 = ds ++ (ex1 ++ r31) := by
                    simp [List.append_assoc]
                _ = ds ++ r1 := by rw [e4]
                _ = cs := e1
            · rw [if_neg hba31] at h
              by_cases hba1 : bdryAfter r1 = true
              · rw [if_pos hba1] at h
                exact concl _ _ e1 ne1 h
              · rw [if_neg hba1] at h
                exact absurd h (by simp)

theorem pyOpMatch_spec {cs v r : List Char}
    (h : pyOpMatch cs = some (v, r)) : v ++ r = cs ∧ v ≠ [] := by
  unfold pyOpMatch at h
  split at h
  next r0 =>
    simp only [Option.some.injEq, Prod.mk.injEq] at h
    obtain ⟨hv, hr⟩ := h
    rw [← hv, ← hr]
    exact ⟨rfl, by simp⟩
  next r0 =>
    simp only [Option.some.injEq, Prod.mk.injEq] at h
    obtain ⟨hv, hr⟩ := h
    rw [← hv, ← hr]
    exact ⟨rfl, by simp⟩
  next r0 =>
    simp only [Option.some.injEq, Prod.mk.injEq] at h
    obtain ⟨hv, hr⟩ := h
    rw [← hv, ← hr]
    exact ⟨rfl, by simp⟩
  next c r0 =>
    split at h
    · simp only [Option.some.injEq, Prod.mk.injEq] at h
      obtain ⟨hv, hr⟩ := h
      rw [← hv, ← hr]
      exact ⟨rfl, by simp⟩
    · exact absurd h (by simp)
  next => exact absurd h (by simp)

theorem pyStep_spec {prev : Option Char} {cs : List Char} {ty : PTT}
    {v r : List Char} (h : pyStep prev cs = some (ty, v, r)) :
    v ++ r = cs ∧ v ≠ [] ∧ ty ≠ .UNKNOWN := by
  have concl : ∀ (ty0 : PTT) (w rr : List Char), w ++ rr = cs → w ≠ [] →
      ty0 ≠ PTT.UNKNOWN →
      some (ty0, w, rr) = some (ty, v, r) →
      v ++ r = cs ∧ v ≠ [] ∧ ty ≠ .UNKNOWN := by
    intro ty0 w rr hw hne hu hh
    simp only [Option.some.injEq, Prod.mk.injEq] at hh
    obtain ⟨hty, hv, hr⟩ := hh
    rw [← hty, ← hv, ← hr]
    exact ⟨hw, hne, hu⟩
  unfold pyStep at h
  rcases h1 : pyStrMatch cs with _ | ⟨v1, r1⟩ <;> simp only [h1] at h
  · rcases h2 : pyCellMatch cs with _ | ⟨v2, r2⟩ <;> simp only [h2] at h
    · rcases h3 : pyFuncMatch prev cs with _ | ⟨v3, r3⟩ <;>
        simp only [h3] at h
      · rcases h4 : pyNumMatch prev cs with _ | ⟨v4, r4⟩ <;>
          simp only [h4] at h
        · split at h
          · exact concl _ _ _ rfl (by simp) (by decide) h
          · exact concl _ _ _ rfl (by simp) (by decide) h
          · exact concl _ _ _ rfl (by simp) (by decide) h
          · exact concl _ _ _ rfl (by simp) (by decide) h
          · exact concl _ _ _ rfl (by simp) (by decide) h
          · rcases h5 : pyOpMatch cs with _ | ⟨v5, r5⟩ <;>
              simp only [h5] at h
            · split at h
              · exact concl _ _ _ rfl (by simp) (by decide) h
              · rcases h6 : matchPlus isWSC cs with _ | ⟨v6, r6⟩ <;>
                  simp only [h6] at h
                · exact absurd h (by simp)
                · obtain ⟨e6, ne6⟩ := matchPlus_spec h6
                  exact concl _ _ _ e6 ne6 (by decide) h
            · obtain ⟨e5, ne5⟩ := pyOpMatch_spec h5
              exact concl _ _ _ e5 ne5 (by decide) h
        · obtain ⟨e4, ne4⟩ := pyNumMatch_spec h4
          exact concl _ _ _ e4 ne4 (by decide) h
      · obtain ⟨e3, ne3⟩ := pyFuncMatch_spec h3
        exact concl _ _ _ e3 ne3 (by decide) h
    · obtain ⟨e2, ne2⟩ := a0Match_spec h2
      exact concl _ _ _ e2 ne2 (by decide) h
  · obtain ⟨e1, ne1⟩ := pyStrMatch_spec h1
    exact concl _ _ _ e1 ne1 (by decide) h

end XL

namespace XL

/-- Concatenation of the `value` fields of a token list. -/
def valuesJoin (ts : List PTok) : List Char :=
  ts.foldr (fun t acc => t.value ++ acc) []

theorem valuesJoin_cons (t : PTok) (ts : List PTok) :
    valuesJoin (t :: ts) = t.value ++ valuesJoin ts := rfl

theorem pyGo_values : ∀ (fuel : Nat) (prev : Option Char) (pos : Nat)
    (cs : List Char), cs.length < fuel →
    valuesJoin (pyGo fuel prev pos cs) = cs := by
  intro fuel
  induction fuel with
  | zero => intro prev pos cs h; exact absurd h (by omega)
  | succ f ih =>
    intro prev pos cs hlen
    rcases cs with _ | ⟨c, rest⟩
    · rfl
    unfold pyGo
    dsimp only
    rcases hstep : pyStep prev (c :: rest) with _ | ⟨ty, v, r⟩ <;> dsimp only
    · have h2 : rest.length < f := by
        simp only [List.length_cons] at hlen
        omega
      rw [valuesJoin_cons, ih (some c) (pos + 1) rest h2]
      rfl
    · obtain ⟨hvr, hne, -⟩ := pyStep_spec hstep
      have hrlen : r.length < f := by
        have hl : v.length + r.length = rest.length + 1 := by
          have := congrArg List.length hvr
          simpa using this
        have hv1 : 1 ≤ v.length := by
          cases v with
          | nil => exact absurd rfl hne
          | cons a b => simp
        simp only [List.length_cons] at hlen
        omega
      rw [valuesJoin_cons, ih _ _ r hrlen]
      exact hvr

theorem pyGo_spec : ∀ (fuel : Nat) (prev : Option Char) (pos : Nat)
    (cs full : List Char), cs.length < fuel → full.drop pos = cs →
    ∀ t ∈ pyGo fuel prev pos cs,
      ∃ rest prev2, full.drop t.pos = t.value ++ rest ∧
        (pyStep prev2 (full.drop t.pos) = some (t.type, t.value, rest) ∨
         (pyStep prev2 (full.drop t.pos) = none ∧ t.type = .UNKNOWN ∧
          ∃ c0, t.value = [c0])) := by
  intro fuel
  induction fuel with
  | zero => intro prev pos cs full h; exact absurd h (by omega)
  | succ f ih =>
    intro prev pos cs full hlen hdrop t ht
    rcases cs with _ | ⟨c, rest⟩
    · exact absurd ht (by simp [pyGo])
    unfold pyGo at ht
    dsimp only at ht
    rcases hstep : pyStep prev (c :: rest) with _ | ⟨ty, v, r⟩ <;>
      simp only [hstep] at ht
    · rcases List.mem_cons.mp ht with hhd | htl
      · refine ⟨rest, prev, ?_, ?_⟩
        · rw [hhd]
          simp [hdrop]
        · right
          rw [hhd]
          refine ⟨by simpa [hdrop], rfl, c, rfl⟩
      · have hdrop2 : full.drop (pos + 1) = rest := by
          rw [← List.drop_drop, hdrop]
          rfl
        have hlen2 : rest.length < f := by
          simp only [List.length_cons] at hlen
          omega
        exact ih (some c) (pos + 1) rest full hlen2 hdrop2 t htl
    · obtain ⟨hvr, hne, -⟩ := pyStep_spec hstep
      rcases List.mem_cons.mp ht with hhd | htl
      · refine ⟨r, prev, ?_, ?_⟩
        · rw [hhd]
          dsimp only
          rw [hdrop]
          exact hvr.symm
        · left
          rw [hhd]
          dsimp only
          rw [hdrop]
          exact hstep
      · have hdrop2 : full.drop (pos + v.length) = r := by
          rw [← List.drop_drop, hdrop, ← hvr, List.drop_left]
        have hlen2 : r.length < f := by
          have : v.length + r.length = rest.length + 1 := by
            have := congrArg List.length hvr
            simpa using this
          have hv1 : 1 ≤ v.length := by
            cases v with
            | nil => exact absurd rfl hne
            | cons a b => simp
          simp only [List.length_cons] at hlen
          omega
        exact ih v.getLast? (pos + v.length) r full hlen2 hdrop2 t htl

end XL

namespace XL

/-! ## Claim C10 (total, lossless tokenization) -/

/-- C10: for every input string, including malformed ones, the
tokenizer terminates and the concatenation of the token values, in
order, is exactly the input; a character matched by no pattern shows up
as a single-character UNKNOWN token whose position points at that
character in the input. -/
theorem c10_tokenize_total_lossless (s : String) :
    String.mk (valuesJoin (tokenizePy s.data)) = s ∧
    ∀ t ∈ tokenizePy s.data, t.type = .UNKNOWN →
      ∃ c0 rest, t.value = [c0] ∧ s.data.drop t.pos = c0 :: rest := by
  constructor
  · have hv := pyGo_values (s.data.length + 1) none 0 s.data (by omega)
    unfold tokenizePy
    rw [hv]
  · intro t ht hty
    obtain ⟨rest, prev2, hdrop, hcase⟩ :=
      pyGo_spec (s.data.length + 1) none 0 s.data s.data (by omega)
        (by simp) t ht
    rcases hcase with hsome | ⟨-, -, c0, hc⟩
    · obtain ⟨-, -, hu⟩ := pyStep_spec hsome
      exact absurd hty hu
    · refine ⟨c0, rest, hc, ?_⟩
      rw [hdrop, hc]
      rfl

/-- Witness for C10, exercising the UNKNOWN clause at the unmatched
`@` in `=A1@B2`. -/
theorem c10_tokenize_total_lossless_witness :
    ∃ c0 rest,
      (PTok.mk .UNKNOWN ['@'] 3).value = [c0] ∧
      "=A1@B2".data.drop (PTok.mk .UNKNOWN ['@'] 3).pos = c0 :: rest :=
  (c10_tokenize_total_lossless "=A1@B2").2 ⟨.UNKNOWN, ['@'], 3⟩
    (by decide) rfl

end XL

namespace XL

theorem pyFuncMatch_lookahead {prev : Option Char} {cs v r : List Char}
    (h : pyFuncMatch prev cs = some (v, r)) :
    (r.dropWhile isWSC).head? = some '(' := by
  unfold pyFuncMatch at h
  rcases cs with _ | ⟨c, rest⟩
  · exact absurd h (by simp)
  dsimp only at h
  by_cases hc : ((isUpperC c || c = '_') && bdryBefore prev) = true
  · rw [if_pos hc] at h
    rcases h2 : takeCls isFuncTailC rest with ⟨nm, r0⟩
    rw [h2] at h
    dsimp only at h
    split at h
    next hla =>
      simp only [Option.some.injEq, Prod.mk.injEq] at h
      obtain ⟨-, hr⟩ := h
      rw [← hr, hla]
      rfl
    next => exact absurd h (by simp)
  · rw [if_neg hc] at h
    exact absurd h (by simp)

theorem pyStep_function_inv {prev : Option Char} {cs v r : List Char}
    (h : pyStep prev cs = some (.FUNCTION, v, r)) :
    pyFuncMatch prev cs = some (v, r) := by
  unfold pyStep at h
  rcases h1 : pyStrMatch cs with _ | ⟨v1, r1⟩ <;> simp only [h1] at h
  · rcases h2 : pyCellMatch cs with _ | ⟨v2, r2⟩ <;> simp only [h2] at h
    · rcases h3 : pyFuncMatch prev cs with _ | ⟨v3, r3⟩ <;>
        simp only [h3] at h
      · rcases h4 : pyNumMatch prev cs with _ | ⟨v4, r4⟩ <;>
          simp only [h4] at h
        · split at h
          · simp at h
          · simp at h
          · simp at h
          · simp at h
          · simp at h
          · rcases h5 : pyOpMatch cs with _ | ⟨v5, r5⟩ <;>
              simp only [h5] at h
            · split at h
              · simp at h
              · rcases h6 : matchPlus isWSC cs with _ | ⟨v6, r6⟩ <;>
                  simp only [h6] at h
                · exact absurd h (by simp)
                · simp at h
            · simp at h
        · simp at h
      · simp only [Option.some.injEq, Prod.mk.injEq, true_and] at h
        obtain ⟨hv, hr⟩ := h
        subst hv
        subst hr
        rfl
    · simp at h
  · simp at h

theorem a0Match_head {cs : List Char} {p : List Char × List Char}
    (h : a0Match cs = some p) :
    ∃ c cs2, cs = c :: cs2 ∧ (c = '$' ∨ isUpperC c = true) := by
  simp only [a0Match] at h
  rcases h1 : matchPlus isUpperC (matchDollar cs).2
    with _ | ⟨ls, cs2⟩ <;> simp only [h1] at h
  · exact absurd h (by simp)
  rcases cs with _ | ⟨c, rest⟩
  · have hd : matchDollar ([] : List Char) = ([], []) := rfl
    rw [hd] at h1
    simp [matchPlus, takeCls] at h1
  · by_cases hc : c = '$'
    · exact ⟨c, rest, rfl, Or.inl hc⟩
    · refine ⟨c, rest, rfl, Or.inr ?_⟩
      have hd : matchDollar (c :: rest) = ([], c :: rest) := by
        dsimp only [matchDollar]
        rw [if_neg hc]
      rw [hd] at h1
      unfold matchPlus at h1
      rcases h2 : takeCls isUpperC (c :: rest) with ⟨a, b⟩
      rw [h2] at h1
      cases a with
      | nil => simp at h1
      | cons x xs =>
        unfold takeCls at h2
        by_cases hcc : isUpperC c
        · exact hcc
        · simp [hcc] at h2

theorem pyCell_str_none {cs : List Char} {p : List Char × List Char}
    (h : pyCellMatch cs = some p) : pyStrMatch cs = none := by
  obtain ⟨c, cs2, hcs, hc⟩ :=
    a0Match_head (show a0Match cs = some p from h)
  subst hcs
  unfold pyStrMatch
  dsimp only
  have hne : ¬ c = dq := by
    rcases hc with h1 | h1
    · rw [h1]
      decide
    · intro hdq
      rw [hdq] at h1
      exact absurd h1 (by decide)
  rw [if_neg hne]

theorem pyStep_cell_det (prev : Option Char) {cs : List Char}
    {p : List Char × List Char} (h : pyCellMatch cs = some p) :
    pyStep prev cs = some (.CELL_REF, p.1, p.2) := by
  unfold pyStep
  rw [pyCell_str_none h, h]

/-! ## Claim C9 (tokenizer classification rule) -/

/-- C9 counterexample: in `=SUM (A1)` the identifier `SUM` is emitted
as a FUNCTION token although the character that follows it directly is
a space, not `(` — the FUNCTION pattern allows whitespace before the
parenthesis (`\s*\(` lookahead). -/
theorem c9_function_not_directly_followed :
    (tokenizePy "=SUM (A1)".data).get? 1 =
      some ⟨.FUNCTION, ['S', 'U', 'M'], 1⟩ ∧
    "=SUM (A1)".data.get? (1 + 3) = some ' ' ∧ (' ' : Char) ≠ '(' := by
  exact ⟨rfl, rfl, by decide⟩

/-- C9 (amended): an identifier is emitted as a FUNCTION token only
when it is followed — possibly after whitespace — by `(`; and at any
token start where the cell-reference pattern matches, the emitted token
is a CELL_REF token carrying exactly that match. -/
theorem c9_function_lookahead_and_cell (cs : List Char) (t : PTok)
    (ht : t ∈ tokenizePy cs) :
    (t.type = .FUNCTION →
      ((cs.drop (t.pos + t.value.length)).dropWhile isWSC).head? =
        some '(') ∧
    (∀ p : List Char × List Char, pyCellMatch (cs.drop t.pos) = some p →
      t.type = .CELL_REF ∧ t.value = p.1) := by
  obtain ⟨rest, prev2, hdrop, hcase⟩ :=
    pyGo_spec (cs.length + 1) none 0 cs cs (by omega) (by simp) t ht
  constructor
  · intro hty
    rcases hcase with hsome | ⟨-, hu, -⟩
    · rw [hty] at hsome
      have hfn := pyStep_function_inv hsome
      have hdrop2 : cs.drop (t.pos + t.value.length) = rest := by
        rw [← List.drop_drop, hdrop, List.drop_left]
      rw [hdrop2]
      exact pyFuncMatch_lookahead hfn
    · rw [hty] at hu
      exact absurd hu (by simp)
  · intro p hp
    rcases hcase with hsome | ⟨hnone, -, -⟩
    · rw [pyStep_cell_det prev2 hp] at hsome
      simp only [Option.some.injEq, Prod.mk.injEq] at hsome
      obtain ⟨hty, hv, -⟩ := hsome
      exact ⟨hty.symm, hv.symm⟩
    · rw [pyStep_cell_det prev2 hp] at hnone
      exact absurd hnone (by simp)

/-- Witness for C9 at `=SUM (A1)`: the lookahead holds for the
FUNCTION token `SUM`, and the token at the `A1` position is CELL_REF. -/
theorem c9_function_lookahead_and_cell_witness :
    ((("=SUM (A1)".data.drop
        ((PTok.mk .FUNCTION ['S', 'U', 'M'] 1).pos +
         (PTok.mk .FUNCTION ['S', 'U', 'M'] 1).value.length)).dropWhile
        isWSC).head? = some '(') :=
  (c9_function_lookahead_and_cell "=SUM (A1)".data
      ⟨.FUNCTION, ['S', 'U', 'M'], 1⟩ (by decide)).1 rfl

end XL

namespace XL

/-! ## Counterexamples for claims C3, C5, C7 -/

/-- C3 counterexample: `=A1-(B1+C1)` parses to a `sub` whose right
operand is an `add`; the printer drops the parentheses (equal
precedence is not parenthesized), and the printed string `=A1-B1+C1`
re-parses to a *different* AST (left-associated, rooted at `add`). -/
theorem c3_roundtrip_counterexample :
    parseF "=A1-(B1+C1)" =
      some (.bin .sub (.cell "A1") (.bin .add (.cell "B1") (.cell "C1"))) ∧
    printTop (.bin .sub (.cell "A1") (.bin .add (.cell "B1") (.cell "C1"))) =
      "=A1-B1+C1" ∧
    parseF "=A1-B1+C1" =
      some (.bin .add (.bin .sub (.cell "A1") (.cell "B1")) (.cell "C1")) ∧
    (Ast.bin .add (.bin .sub (.cell "A1") (.cell "B1")) (.cell "C1") ≠
      Ast.bin .sub (.cell "A1") (.bin .add (.cell "B1") (.cell "C1"))) := by
  refine ⟨rfl, rfl, rfl, ?_⟩
  intro hcon
  injection hcon with ho hl hr
  exact absurd ho (by decide)

/-- C5 counterexample: one application of the rewrite on
`=INDIRECT(ADDRESS(1;1;4;1;"My Sheet"))` succeeds and produces an
`OFFSET` whose quoted base reference does not match the grammar's
cell-reference pattern, so the second application raises — applying the
rewrite twice is not the same as applying it once. -/
theorem c5_not_idempotent :
    transformF [] "=INDIRECT(ADDRESS(1;1;4;1;\"My Sheet\"))" =
      .ok "=OFFSET('My Sheet'.A1;1-1;1-1)" ∧
    transformF [] "=OFFSET('My Sheet'.A1;1-1;1-1)" = .error () := ⟨rfl, rfl⟩

/-- C7 counterexample: the pipeline succeeds on
`=INDIRECT(ADDRESS(2;7;4;1;"My Sheet"))`, returning a string that does
begin with `=` but is *not* re-parseable by the grammar (the quoted
sheet name contains a space, which the cell-reference terminal cannot
match). -/
theorem c7_output_not_reparseable :
    transformF [] "=INDIRECT(ADDRESS(2;7;4;1;\"My Sheet\"))" =
      .ok "=OFFSET('My Sheet'.A1;2-1;7-1)" ∧
    parseF "=OFFSET('My Sheet'.A1;2-1;7-1)" = none := ⟨rfl, rfl⟩

end XL

namespace XL

/-! ## Token-level view of the printer

`toksE t pp` is the token sequence of `tree_to_formula t parent` where
`pp` is the printer precedence of the parent operator (`0` for none);
`charsOf` maps it back to characters. -/

def tokChars : Tok → List Char
  | .lpar => ['(']
  | .rpar => [')']
  | .semi => [';']
  | .numT s => s.data
  | .strT s => s.data
  | .cellT s => s.data
  | .nameT s => s.data
  | .opT o => (opStr o).data

def charsOf : List Tok → List Char
  | [] => []
  | t :: ts => tokChars t ++ charsOf ts

def ppOf : Option Op → Nat
  | none => 0
  | some o => pprec o

mutual

def toksE : Ast → Nat → List Tok
  | .num s, _ => [.numT s]
  | .str s, _ => [.strT s]
  | .cell s, _ => [.cellT s]
  | .call n args, _ => .nameT n :: .lpar :: (toksArgs args ++ [.rpar])
  | .bin o l r, pp =>
    if pprec o < pp then
      .lpar :: (toksE l (pprec o) ++ .opT o :: toksE r (pprec o)) ++ [.rpar]
    else toksE l (pprec o) ++ .opT o :: toksE r (pprec o)

def toksArgs : Args → List Tok
  | .nil => []
  | .cons a .nil => toksE a 0
  | .cons a (.cons b rest) => toksE a 0 ++ .semi :: toksArgs (.cons b rest)

end

/-! ## Wellformedness of leaves (full matches of the terminals) -/

def numWF (s : String) : Bool := decide (numMatch s.data = some (s.data, []))

def strWF (s : String) : Bool := decide (strMatch s.data = some (s.data, []))

def cellWF (s : String) : Bool :=
  decide (a1Match s.data = some (s.data, [])) ||
  decide (a2Match s.data = some (s.data, [])) ||
  decide (a0Match s.data = some (s.data, []))

def nameWF (s : String) : Bool :=
  decide (nameMatch s.data = some (s.data, []))

mutual

def wfT : Ast → Bool
  | .num s => numWF s
  | .str s => strWF s
  | .cell s => cellWF s
  | .call n args => nameWF n && wfArgs args
  | .bin _ l r => wfT l && wfT r

def wfArgs : Args → Bool
  | .nil => true
  | .cons a t => wfT a && wfArgs t

end

/-! ## The re-association safety predicate -/

/-- The grammar tier of an operator (comparison, term, factor, power). -/
def gtier : Op → Nat
  | .eq | .ne | .lt | .le | .gt | .ge => 1
  | .add | .sub | .concat => 2
  | .mul | .div => 3
  | .pow => 4

mutual

/-- No unparenthesized same-tier right operand, and no unparenthesized
`pow` as left operand of `pow`: the printed form of such trees
re-associates on re-parsing. -/
def good : Ast → Bool
  | .bin o l r =>
    good l && good r &&
    (if o = .pow then
      (match l with
       | .bin .pow _ _ => false
       | _ => true)
     else
      (match r with
       | .bin o2 _ _ =>
         decide (pprec o2 < pprec o) || decide (gtier o2 ≠ gtier o)
       | _ => true))
  | .call _ args => goodArgs args
  | _ => true

def goodArgs : Args → Bool
  | .nil => true
  | .cons a t => good a && goodArgs t

end

/-! ## The no-coalescence condition

At a token position where the contextual lexer scans an operand, a
cell-reference pattern ordered before the intended winner must not
match across the token boundary (e.g. the sheet-qualified pattern
swallows `A1-Sheet.B2` whole).  `noCoal` states those conditions over
the concrete character stream. -/

def noCoalStep : Tok → List Char → Bool
  | .numT _, cs => decide (a2Match cs = none)
  | .cellT s, cs =>
    if decide (a1Match s.data = some (s.data, [])) then true
    else if decide (a2Match s.data = some (s.data, [])) then
      decide (a1Match cs = none)
    else decide (a2Match cs = none)
  | .nameT _, cs =>
    decide (a1Match cs = none) && decide (a2Match cs = none) &&
      decide (a0Match cs = none)
  | _, _ => true

def noCoal : List Tok → Bool
  | [] => true
  | t :: ts => noCoalStep t (tokChars t ++ charsOf ts) && noCoal ts

/-! ## Mode structure of printable token streams -/

def operandTok : Tok → Bool
  | .numT _ | .strT _ | .cellT _ | .nameT _ | .lpar | .rpar => true
  | .semi => false
  | .opT _ => false

def operatorTok : Tok → Bool
  | .opT _ | .rpar | .semi => true
  | _ => false

/-- The token stream is lexable mode-by-mode starting from `m`; a NAME
token is directly followed by `(` as the printer always produces. -/
def streamOK : LMode → List Tok → Bool
  | _, [] => true
  | .operand, .nameT n :: ts =>
    (match ts with
     | .lpar :: _ => true
     | _ => false) && streamOK (nextMode (.nameT n)) ts
  | .operand, t :: ts => operandTok t && streamOK (nextMode t) ts
  | .operator, t :: ts => operatorTok t && streamOK (nextMode t) ts

end XL

namespace XL

theorem charsOf_append : ∀ (xs ys : List Tok),
    charsOf (xs ++ ys) = charsOf xs ++ charsOf ys
  | [], _ => rfl
  | t :: xs, ys => by
    simp [charsOf, charsOf_append xs ys]

theorem needsParens_eq (o : Op) (p : Option Op) :
    needsParens o p = decide (pprec o < ppOf p) := by
  cases p <;> simp [needsParens, ppOf]

mutual

theorem treeToFormula_chars : ∀ (t : Ast) (p : Option Op),
    (treeToFormula t p).data = charsOf (toksE t (ppOf p))
  | .num s, p => by simp [treeToFormula, toksE, tokChars, charsOf]
  | .str s, p => by simp [treeToFormula, toksE, tokChars, charsOf]
  | .cell s, p => by simp [treeToFormula, toksE, tokChars, charsOf]
  | .call n args, p => by
    have ha := printArgs_chars args
    simp [treeToFormula, toksE, tokChars, charsOf, charsOf_append,
      String.data_append, ha]
  | .bin o l r, p => by
    have hl := treeToFormula_chars l (some o)
    have hr := treeToFormula_chars r (some o)
    have hn : needsParens o p = decide (pprec o < ppOf p) := needsParens_eq o p
    have hpp : ppOf (some o) = pprec o := rfl
    rw [hpp] at hl hr
    by_cases h : pprec o < ppOf p
    · simp [treeToFormula, toksE, hn, h, charsOf, charsOf_append, tokChars,
        String.data_append, hl, hr]
    · simp [treeToFormula, toksE, hn, h, charsOf, charsOf_append, tokChars,
        String.data_append, hl, hr]

theorem printArgs_chars : ∀ (args : Args),
    (printArgs args).data = charsOf (toksArgs args)
  | .nil => by simp [printArgs, toksArgs, charsOf]
  | .cons a .nil => by
    have h := treeToFormula_chars a none
    simp [printArgs, toksArgs, h, ppOf]
  | .cons a (.cons b rest) => by
    have h := treeToFormula_chars a none
    have h2 := printArgs_chars (.cons b rest)
    simp [printArgs, toksArgs, charsOf_append, String.data_append, h, h2,
      charsOf, tokChars, ppOf]

end

/-- Characters of the whole printed formula. -/
theorem printTop_chars (t : Ast) :
    (printTop t).data = charsOf (.opT .eq :: toksE t 0) := by
  have h := treeToFormula_chars t none
  simp [printTop, String.data_append, charsOf, tokChars, opStr, h, ppOf]

/-! ### Structure of printed token streams -/

def tokWF : Tok → Bool
  | .numT s => numWF s
  | .strT s => strWF s
  | .cellT s => cellWF s
  | .nameT s => nameWF s
  | _ => true

def wfToks (ts : List Tok) : Bool := ts.all tokWF

mutual

theorem wfToks_toksE : ∀ (t : Ast) (pp : Nat), wfT t = true →
    wfToks (toksE t pp) = true
  | .num s, pp, h => by
    simp [wfT] at h; simp [toksE, wfToks, tokWF, h]
  | .str s, pp, h => by
    simp [wfT] at h; simp [toksE, wfToks, tokWF, h]
  | .cell s, pp, h => by
    simp [wfT] at h; simp [toksE, wfToks, tokWF, h]
  | .call n args, pp, h => by
    simp [wfT] at h
    have ha := wfToks_toksArgs args h.2
    simp [toksE, wfToks, tokWF, h.1, List.all_append] at ha ⊢
    exact ha
  | .bin o l r, pp, h => by
    simp only [wfT, Bool.and_eq_true] at h
    have hl := wfToks_toksE l (pprec o) h.1
    have hr := wfToks_toksE r (pprec o) h.2
    unfold wfToks at hl hr ⊢
    by_cases hc : pprec o < pp
    · simp only [toksE, if_pos hc, List.cons_append, List.all_cons,
        List.all_append, hl, hr]
      rfl
    · simp only [toksE, if_neg hc, List.all_append, List.all_cons, hl, hr]
      rfl

theorem wfToks_toksArgs : ∀ (args : Args), wfArgs args = true →
    wfToks (toksArgs args) = true
  | .nil, _ => rfl
  | .cons a .nil, h => by
    simp only [wfArgs, Bool.and_eq_true] at h
    exact wfToks_toksE a 0 h.1
  | .cons a (.cons b rest), h => by
    simp only [wfArgs, Bool.and_eq_true] at h
    have h1 := wfToks_toksE a 0 h.1
    have h2 := wfToks_toksArgs (.cons b rest) (by
      simp only [wfArgs, Bool.and_eq_true]
      exact h.2)
    unfold wfToks at h1 h2 ⊢
    simp only [toksArgs, List.all_append, List.all_cons, h1, h2]
    rfl

end

mutual

theorem streamOK_toksE : ∀ (t : Ast) (pp : Nat) (rest : List Tok),
    streamOK .operator rest = true →
    streamOK .operand (toksE t pp ++ rest) = true
  | .num s, _, rest, h => by
    simp [toksE, streamOK, operandTok, nextMode, h]
  | .str s, _, rest, h => by
    simp [toksE, streamOK, operandTok, nextMode, h]
  | .cell s, _, rest, h => by
    simp [toksE, streamOK, operandTok, nextMode, h]
  | .call n args, _, rest, h => by
    have ha := streamOK_toksArgs args rest h
    simp [toksE, streamOK, operandTok, nextMode]
    simpa using ha
  | .bin o l r, pp, rest, h => by
    have hr : streamOK .operand (toksE r (pprec o) ++ rest) = true :=
      streamOK_toksE r (pprec o) rest h
    have hop : streamOK .operator (Tok.opT o :: (toksE r (pprec o) ++ rest))
        = true := by
      simp [streamOK, operatorTok, nextMode, hr]
    have hl := streamOK_toksE l (pprec o)
      (Tok.opT o :: (toksE r (pprec o) ++ rest)) hop
    by_cases hc : pprec o < pp
    · have hrp : streamOK .operator (Tok.rpar :: rest) = true := by
        simp [streamOK, operatorTok, nextMode, h]
      have hr2 : streamOK .operand (toksE r (pprec o) ++ (Tok.rpar :: rest))
          = true := streamOK_toksE r (pprec o) _ hrp
      have hop2 : streamOK .operator
          (Tok.opT o :: (toksE r (pprec o) ++ (Tok.rpar :: rest))) = true := by
        simp [streamOK, operatorTok, nextMode, hr2]
      have hl2 := streamOK_toksE l (pprec o)
        (Tok.opT o :: (toksE r (pprec o) ++ (Tok.rpar :: rest))) hop2
      simp [toksE, hc, streamOK, operandTok, nextMode]
      simpa using hl2
    · simp [toksE, hc]
      simpa using hl

theorem streamOK_toksArgs : ∀ (args : Args) (rest : List Tok),
    streamOK .operator rest = true →
    streamOK .operand (toksArgs args ++ (Tok.rpar :: rest)) = true
  | .nil, rest, h => by
    simp [toksArgs, streamOK, operandTok, nextMode, h]
  | .cons a .nil, rest, h => by
    have hrp : streamOK .operator (Tok.rpar :: rest) = true := by
      simp [streamOK, operatorTok, nextMode, h]
    have := streamOK_toksE a 0 (Tok.rpar :: rest) hrp
    simpa [toksArgs] using this
  | .cons a (.cons b r2), rest, h => by
    have htail := streamOK_toksArgs (.cons b r2) rest h
    have hsemi : streamOK .operator
        (Tok.semi :: (toksArgs (.cons b r2) ++ (Tok.rpar :: rest))) = true := by
      simp [streamOK, operatorTok, nextMode]
      simpa using htail
    have := streamOK_toksE a 0 _ hsemi
    simp [toksArgs]
    simpa using this

end

end XL

namespace XL

/-! ### Extension of the matchers to longer inputs

The relexing proof needs each matcher to behave the same when the
remainder of the printed stream is appended after its full match,
provided the first appended character cannot extend the match. -/

/-- The head of `cs` (if any) fails the class `p`. -/
def headFail (p : Char → Bool) : List Char → Prop
  | [] => True
  | c :: _ => p c = false

/-- The head of `cs` (if any) differs from `x`. -/
def headNe (x : Char) : List Char → Prop
  | [] => True
  | c :: _ => c ≠ x

theorem takeCls_mid {p : Char → Bool} :
    ∀ {xs a b : List Char} {c : Char} (rest : List Char),
    takeCls p xs = (a, c :: b) →
    takeCls p (xs ++ rest) = (a, c :: (b ++ rest))
  | [], a, b, c, rest, h => by simp [takeCls] at h
  | x :: xs, a, b, c, rest, h => by
    by_cases hx : p x
    · rcases ht : takeCls p xs with ⟨a1, b1⟩
      rw [takeCls, if_pos hx, ht] at h
      simp only [Prod.mk.injEq] at h
      obtain ⟨ha, hb⟩ := h
      rw [hb] at ht
      have := takeCls_mid rest ht
      rw [List.cons_append, takeCls, if_pos hx, this, ← ha]
    · rw [takeCls, if_neg hx] at h
      simp only [Prod.mk.injEq] at h
      obtain ⟨ha, hb⟩ := h
      injection hb with h1 h2
      rw [List.cons_append, takeCls, if_neg hx, ← ha, h1, h2]

theorem takeCls_ext {p : Char → Bool} :
    ∀ {xs a : List Char} {rest : List Char},
    takeCls p xs = (a, []) → headFail p rest →
    takeCls p (xs ++ rest) = (a, rest)
  | [], a, rest, h, hf => by
    simp [takeCls] at h
    rcases rest with _ | ⟨c, cs⟩
    · simp [takeCls, ← h]
    · simp only [headFail] at hf
      simp [takeCls, hf, ← h]
  | x :: xs, a, rest, h, hf => by
    by_cases hx : p x
    · rcases ht : takeCls p xs with ⟨a1, b1⟩
      rw [takeCls, if_pos hx, ht] at h
      simp only [Prod.mk.injEq] at h
      obtain ⟨ha, hb⟩ := h
      rw [hb] at ht
      have := takeCls_ext ht hf
      rw [List.cons_append, takeCls, if_pos hx, this, ← ha]
    · rw [takeCls, if_neg hx] at h
      simp only [Prod.mk.injEq] at h
      exact absurd h.2 (by simp)

theorem matchPlus_mid {p : Char → Bool} {xs v b : List Char} {c : Char}
    (rest : List Char) (h : matchPlus p xs = some (v, c :: b)) :
    matchPlus p (xs ++ rest) = some (v, c :: (b ++ rest)) := by
  unfold matchPlus at h ⊢
  rcases ht : takeCls p xs with ⟨a1, b1⟩
  rw [ht] at h
  cases a1 with
  | nil => simp at h
  | cons y ys =>
    simp only [Option.some.injEq, Prod.mk.injEq] at h
    obtain ⟨hv, hb⟩ := h
    rw [hb] at ht
    rw [takeCls_mid rest ht, ← hv]

theorem matchPlus_ext {p : Char → Bool} {xs v : List Char} {rest : List Char}
    (h : matchPlus p xs = some (v, [])) (hf : headFail p rest) :
    matchPlus p (xs ++ rest) = some (v, rest) := by
  unfold matchPlus at h ⊢
  rcases ht : takeCls p xs with ⟨a1, b1⟩
  rw [ht] at h
  cases a1 with
  | nil => simp at h
  | cons y ys =>
    simp only [Option.some.injEq, Prod.mk.injEq] at h
    obtain ⟨hv, hb⟩ := h
    rw [hb] at ht
    rw [takeCls_ext ht hf, ← hv]

theorem matchDollar_app (x : Char) (xs rest : List Char) :
    matchDollar (x :: xs ++ rest) =
      ((matchDollar (x :: xs)).1, (matchDollar (x :: xs)).2 ++ rest) := by
  dsimp only [matchDollar]
  by_cases hx : x = '$' <;> simp [hx]

theorem matchQuote_app (x : Char) (xs rest : List Char) :
    matchQuote (x :: xs ++ rest) =
      ((matchQuote (x :: xs)).1, (matchQuote (x :: xs)).2 ++ rest) := by
  dsimp only [matchQuote]
  by_cases hx : x = qc <;> simp [hx]

theorem matchMinus_app (x : Char) (xs rest : List Char) :
    matchMinus (x :: xs ++ rest) =
      ((matchMinus (x :: xs)).1, (matchMinus (x :: xs)).2 ++ rest) := by
  dsimp only [matchMinus]
  by_cases hx : x = '-' <;> simp [hx]

end XL

namespace XL

theorem matchDollar_app2 (xs rest : List Char) (hne : xs ≠ []) :
    matchDollar (xs ++ rest) = ((matchDollar xs).1, (matchDollar xs).2 ++ rest) := by
  rcases xs with _ | ⟨x, xs'⟩
  · exact absurd rfl hne
  · exact matchDollar_app x xs' rest

theorem matchQuote_app2 (xs rest : List Char) (hne : xs ≠ []) :
    matchQuote (xs ++ rest) = ((matchQuote xs).1, (matchQuote xs).2 ++ rest) := by
  rcases xs with _ | ⟨x, xs'⟩
  · exact absurd rfl hne
  · exact matchQuote_app x xs' rest

theorem matchMinus_app2 (xs rest : List Char) (hne : xs ≠ []) :
    matchMinus (xs ++ rest) = ((matchMinus xs).1, (matchMinus xs).2 ++ rest) := by
  rcases xs with _ | ⟨x, xs'⟩
  · exact absurd rfl hne
  · exact matchMinus_app x xs' rest

/-- `matchPlus` extension, with a follower condition only when the match
consumed the whole input. -/
theorem matchPlus_app {p : Char → Bool} {xs v r : List Char} (rest : List Char)
    (h : matchPlus p xs = some (v, r)) (hf : r = [] → headFail p rest) :
    matchPlus p (xs ++ rest) = some (v, r ++ rest) := by
  rcases r with _ | ⟨c, b⟩
  · simpa using matchPlus_ext h (hf rfl)
  · simpa using matchPlus_mid rest h

theorem a0Match_app {xs v r : List Char} (rest : List Char)
    (h : a0Match xs = some (v, r))
    (hf : r = [] → headFail isDigitC rest) :
    a0Match (xs ++ rest) = some (v, r ++ rest) := by
  have hne : xs ≠ [] := by
    obtain ⟨e, nv⟩ := a0Match_spec h
    intro hx
    rw [hx] at e
    exact nv (List.append_eq_nil.mp e).1
  simp only [a0Match] at h ⊢
  rcases h1 : matchPlus isUpperC (matchDollar xs).2
    with _ | ⟨ls, cs2⟩ <;> simp only [h1] at h
  · exact absurd h (by simp)
  rcases h2 : matchPlus isDigitC (matchDollar cs2).2
    with _ | ⟨ds, cs4⟩ <;> simp only [h2] at h
  · exact absurd h (by simp)
  simp only [Option.some.injEq, Prod.mk.injEq] at h
  obtain ⟨hv, hr⟩ := h
  have hcs2 : cs2 ≠ [] := by
    intro hc
    rw [hc] at h2
    have : matchDollar ([] : List Char) = ([], []) := rfl
    rw [this] at h2
    obtain ⟨e2, n2⟩ := matchPlus_spec h2
    dsimp at e2
    exact n2 (List.append_eq_nil.mp e2).1
  rw [matchDollar_app2 xs rest hne]
  dsimp only
  rcases hc2 : cs2 with _ | ⟨c2, cs2'⟩
  · exact absurd hc2 hcs2
  rw [hc2] at h1
  rw [matchPlus_mid rest h1]
  dsimp only
  simp only [← List.cons_append, ← hc2]
  rw [matchDollar_app2 cs2 rest hcs2]
  dsimp only
  rw [hr] at h2
  rw [matchPlus_app rest h2 hf]
  dsimp only
  rw [hv]

end XL

namespace XL

theorem a1Match_app {xs v r : List Char} (rest : List Char)
    (h : a1Match xs = some (v, r))
    (hf : r = [] → headFail isDigitC rest) :
    a1Match (xs ++ rest) = some (v, r ++ rest) := by
  simp only [a1Match] at h ⊢
  rcases h1 : a0Match xs with _ | ⟨p1, cs1⟩ <;> simp only [h1] at h
  · exact absurd h (by simp)
  split at h
  next cs2 =>
    rcases h2 : a0Match cs2 with _ | ⟨p2, cs3⟩ <;> simp only [h2] at h
    · exact absurd h (by simp)
    simp only [Option.some.injEq, Prod.mk.injEq] at h
    obtain ⟨hv, hr⟩ := h
    rw [hr] at h2
    rw [a0Match_app rest h1 (by intro hcon; exact absurd hcon (by simp))]
    dsimp only [List.cons_append]
    split
    next cs2' heq =>
      injection heq with h4 h5
      rw [← h5]
      rw [a0Match_app rest h2 hf]
      dsimp only
      rw [hv]
    next hno => exact (hno (cs2 ++ rest) rfl).elim
  next => exact absurd h (by simp)

theorem a2Match_app {xs v r : List Char} (rest : List Char)
    (h : a2Match xs = some (v, r))
    (hf : r = [] → headFail isDigitC rest) :
    a2Match (xs ++ rest) = some (v, r ++ rest) := by
  have hne : xs ≠ [] := by
    obtain ⟨e, nv⟩ := a2Match_spec h
    intro hx
    rw [hx] at e
    exact nv (List.append_eq_nil.mp e).1
  simp only [a2Match] at h ⊢
  rcases h1 : matchPlus isWordDashC (matchQuote (matchDollar xs).2).2
    with _ | ⟨w, cs3⟩ <;> simp only [h1] at h
  · exact absurd h (by simp)
  split at h
  next cs5 hq2 =>
    rcases h2 : matchPlus isUpperC (matchDollar cs5).2
      with _ | ⟨ls, cs7⟩ <;> simp only [h2] at h
    · exact absurd h (by simp)
    rcases h3 : matchPlus isDigitC (matchDollar cs7).2
      with _ | ⟨ds, cs9⟩ <;> simp only [h3] at h
    · exact absurd h (by simp)
    simp only [Option.some.injEq, Prod.mk.injEq] at h
    obtain ⟨hv, hr⟩ := h
    have hq : (matchDollar xs).2 ≠ [] := by
      intro hq0
      rw [hq0] at h1
      have : matchQuote ([] : List Char) = ([], []) := rfl
      rw [this] at h1
      obtain ⟨e1, n1⟩ := matchPlus_spec h1
      dsimp at e1
      exact n1 (List.append_eq_nil.mp e1).1
    have hcs3 : cs3 ≠ [] := by
      intro hc
      rw [hc] at hq2
      have : matchQuote ([] : List Char) = ([], []) := rfl
      rw [this] at hq2
      exact absurd hq2.symm (by simp)
    have hcs5 : cs5 ≠ [] := by
      intro hc
      rw [hc] at h2
      have : matchDollar ([] : List Char) = ([], []) := rfl
      rw [this] at h2
      obtain ⟨e2, n2⟩ := matchPlus_spec h2
      dsimp at e2
      exact n2 (List.append_eq_nil.mp e2).1
    have hcs7 : cs7 ≠ [] := by
      intro hc
      rw [hc] at h3
      have : matchDollar ([] : List Char) = ([], []) := rfl
      rw [this] at h3
      obtain ⟨e3, n3⟩ := matchPlus_spec h3
      dsimp at e3
      exact n3 (List.append_eq_nil.mp e3).1
    rw [matchDollar_app2 xs rest hne]
    dsimp only
    rw [matchQuote_app2 _ rest hq]
    dsimp only
    rcases hc3 : cs3 with _ | ⟨c3, cs3'⟩
    · exact absurd hc3 hcs3
    rw [hc3] at h1
    rw [matchPlus_mid rest h1]
    dsimp only
    simp only [← List.cons_append, ← hc3]
    rw [matchQuote_app2 cs3 rest hcs3]
    dsimp only
    rw [hq2]
    dsimp only [List.cons_append]
    split
    next cs5' heq5 =>
      injection heq5 with h6 h7
      rw [← h7]
      rw [matchDollar_app2 cs5 rest hcs5]
      dsimp only
      rcases hc7 : cs7 with _ | ⟨c7, cs7'⟩
      · exact absurd hc7 hcs7
      rw [hc7] at h2
      rw [matchPlus_mid rest h2]
      dsimp only
      simp only [← List.cons_append, ← hc7]
      rw [matchDollar_app2 cs7 rest hcs7]
      dsimp only
      rw [hr] at h3
      rw [matchPlus_app rest h3 hf]
      dsimp only
      rw [← hv]
      simp [List.append_assoc]
    next hno => exact (hno (cs5 ++ rest) rfl).elim
  next => exact absurd h (by simp)

theorem nameMatch_app {xs v r : List Char} (rest : List Char)
    (h : nameMatch xs = some (v, r))
    (hf : r = [] → headFail isNameTailC rest) :
    nameMatch (xs ++ rest) = some (v, r ++ rest) := by
  rcases xs with _ | ⟨c, cs⟩
  · simp [nameMatch] at h
  rw [List.cons_append]
  simp only [nameMatch] at h ⊢
  by_cases hc : isNameStartC c
  · rw [if_pos hc] at h ⊢
    rcases ht : takeCls isNameTailC cs with ⟨a, b⟩
    rw [ht] at h
    simp only [Option.some.injEq, Prod.mk.injEq] at h
    obtain ⟨hv, hr⟩ := h
    rw [hr] at ht
    rcases hb : r with _ | ⟨b0, b'⟩ <;> subst hb
    · rw [takeCls_ext ht (hf rfl)]
      rw [← hv]
      simp
    · rw [takeCls_mid rest ht]
      rw [← hv, List.cons_append]
  · rw [if_neg hc] at h
    exact absurd h (by simp)

theorem numMatch_ext {xs v : List Char} (rest : List Char)
    (h : numMatch xs = some (v, []))
    (hf : headFail isDigitC rest) (hf2 : headNe '.' rest) :
    numMatch (xs ++ rest) = some (v, rest) := by
  have hne : xs ≠ [] := by
    obtain ⟨e, nv⟩ := numMatch_spec h
    intro hx
    rw [hx] at e
    exact nv (List.append_eq_nil.mp e).1
  simp only [numMatch] at h ⊢
  rcases h1 : matchPlus isDigitC (matchMinus xs).2
    with _ | ⟨ds, cs2⟩ <;> simp only [h1] at h
  · exact absurd h (by simp)
  rw [matchMinus_app2 xs rest hne]
  dsimp only
  split at h
  next cs3 =>
    rcases ht : takeCls isDigitC cs3 with ⟨fs, cs4⟩
    rw [ht] at h
    cases fs with
    | nil =>
      simp only [Option.some.injEq, Prod.mk.injEq] at h
      exact absurd h.2 (by simp)
    | cons f0 fs0 =>
      simp only [Option.some.injEq, Prod.mk.injEq] at h
      obtain ⟨hv, hr⟩ := h
      rw [matchPlus_mid rest h1]
      dsimp only [List.cons_append]
      rw [hr] at ht
      split
      next cs3' heq3 =>
        injection heq3 with h4 h5
        rw [← h5]
        rw [takeCls_ext ht hf]
        rw [← hv]
      next hno => exact (hno (cs3 ++ rest) rfl).elim
  next h2 =>
    simp only [Option.some.injEq, Prod.mk.injEq] at h
    obtain ⟨hv, hr⟩ := h
    rw [hr] at h1
    rw [matchPlus_ext h1 hf]
    dsimp only
    rcases rest with _ | ⟨c, rs⟩
    · rw [← hv]
    · have hcne : c ≠ '.' := hf2
      split
      next heq =>
        injection heq with hh1 hh2
        exact absurd hh1 hcne
      next => rw [← hv]

theorem strMatch_ext {xs v : List Char} (rest : List Char)
    (h : strMatch xs = some (v, [])) :
    strMatch (xs ++ rest) = some (v, rest) := by
  rcases xs with _ | ⟨c, cs⟩
  · simp [strMatch] at h
  rw [List.cons_append]
  simp only [strMatch] at h ⊢
  by_cases hc : c = dq
  · rw [if_pos hc] at h ⊢
    rcases ht : takeCls (fun d => d ≠ dq) cs with ⟨a, b⟩
    rw [ht] at h
    dsimp only at h
    rcases b with _ | ⟨b0, b'⟩
    · exact absurd h (by simp)
    dsimp only at h
    by_cases hb : b0 = dq
    · rw [if_pos hb] at h
      simp only [Option.some.injEq, Prod.mk.injEq] at h
      obtain ⟨hv, hr⟩ := h
      rw [hr] at ht
      rw [takeCls_mid rest ht]
      dsimp only [List.nil_append]
      rw [if_pos hb, ← hv]
    · rw [if_neg hb] at h
      exact absurd h (by simp)
  · rw [if_neg hc] at h
    exact absurd h (by simp)

end XL

namespace XL

/-! ### Head-character lemmas -/

theorem matchPlus_none_head {p : Char → Bool} {c : Char} (cs : List Char)
    (h : p c = false) : matchPlus p (c :: cs) = none := by
  unfold matchPlus
  have ht : takeCls p (c :: cs) = ([], c :: cs) := by
    unfold takeCls
    rw [if_neg (by simp [h])]
  rw [ht]

theorem a0Match_none_head {c : Char} (cs : List Char)
    (h1 : ¬ c = '$') (h2 : isUpperC c = false) : a0Match (c :: cs) = none := by
  simp only [a0Match]
  have hd : matchDollar (c :: cs) = ([], c :: cs) := by
    dsimp only [matchDollar]
    rw [if_neg h1]
  rw [hd]
  dsimp only
  rw [matchPlus_none_head cs h2]

theorem a1Match_none {cs : List Char}
    (h : a0Match cs = none) : a1Match cs = none := by
  simp only [a1Match]
  rw [h]

theorem a2Match_none_head {c : Char} (cs : List Char)
    (h1 : ¬ c = '$') (h2 : ¬ c = qc) (h3 : isWordDashC c = false) :
    a2Match (c :: cs) = none := by
  simp only [a2Match]
  have hd : matchDollar (c :: cs) = ([], c :: cs) := by
    dsimp only [matchDollar]
    rw [if_neg h1]
  have hq : matchQuote (c :: cs) = ([], c :: cs) := by
    dsimp only [matchQuote]
    rw [if_neg h2]
  rw [hd]
  dsimp only
  rw [hq]
  dsimp only
  rw [matchPlus_none_head cs h3]

theorem nameMatch_none_head {c : Char} (cs : List Char)
    (h : isNameStartC c = false) : nameMatch (c :: cs) = none := by
  simp only [nameMatch]
  rw [if_neg (by simp [h])]

theorem numMatch_none_head {c : Char} (cs : List Char)
    (h1 : ¬ c = '-') (h2 : isDigitC c = false) : numMatch (c :: cs) = none := by
  simp only [numMatch]
  have hm : matchMinus (c :: cs) = ([], c :: cs) := by
    dsimp only [matchMinus]
    rw [if_neg h1]
  rw [hm]
  dsimp only
  rw [matchPlus_none_head cs h2]

theorem strMatch_none_head {c : Char} (cs : List Char)
    (h : ¬ c = dq) : strMatch (c :: cs) = none := by
  simp only [strMatch]
  rw [if_neg h]

theorem a1Match_of_a0_noColon {cs v r : List Char}
    (h : a0Match cs = some (v, r)) (hr : headNe ':' r) :
    a1Match cs = none := by
  simp only [a1Match]
  rw [h]
  dsimp only
  split
  next cs2 heq => exact absurd rfl hr
  next => rfl

/-! Heads of full matches. -/

theorem numMatch_head {cs : List Char} {p : List Char × List Char}
    (h : numMatch cs = some p) :
    ∃ c cs2, cs = c :: cs2 ∧ (c = '-' ∨ isDigitC c = true) := by
  rcases cs with _ | ⟨c, rest⟩
  · simp only [numMatch] at h
    have hm : matchMinus ([] : List Char) = ([], []) := rfl
    rw [hm] at h
    dsimp only at h
    have hp : matchPlus isDigitC ([] : List Char) = none := rfl
    rw [hp] at h
    simp at h
  · by_cases hc : c = '-'
    · exact ⟨c, rest, rfl, Or.inl hc⟩
    · refine ⟨c, rest, rfl, Or.inr ?_⟩
      simp only [numMatch] at h
      have hm : matchMinus (c :: rest) = ([], c :: rest) := by
        dsimp only [matchMinus]
        rw [if_neg hc]
      rw [hm] at h
      dsimp only at h
      rcases hd : isDigitC c
      · rw [matchPlus_none_head rest hd] at h
        exact absurd h (by simp)
      · rfl

theorem a2Match_head {cs : List Char} {p : List Char × List Char}
    (h : a2Match cs = some p) :
    ∃ c cs2, cs = c :: cs2 ∧ (c = '$' ∨ c = qc ∨ isWordDashC c = true) := by
  rcases cs with _ | ⟨c, rest⟩
  · simp [a2Match, matchDollar, matchQuote, matchPlus, takeCls] at h
  · by_cases h1 : c = '$'
    · exact ⟨c, rest, rfl, Or.inl h1⟩
    by_cases h2 : c = qc
    · exact ⟨c, rest, rfl, Or.inr (Or.inl h2)⟩
    refine ⟨c, rest, rfl, Or.inr (Or.inr ?_)⟩
    rcases hw : isWordDashC c
    · rw [a2Match_none_head rest h1 h2 hw] at h
      exact absurd h (by simp)
    · rfl

theorem nameMatch_head {cs : List Char} {p : List Char × List Char}
    (h : nameMatch cs = some p) :
    ∃ c cs2, cs = c :: cs2 ∧ isNameStartC c = true := by
  rcases cs with _ | ⟨c, rest⟩
  · simp [nameMatch] at h
  · rcases hs : isNameStartC c
    · rw [nameMatch_none_head rest hs] at h
      exact absurd h (by simp)
    · exact ⟨c, rest, rfl, hs⟩

theorem strMatch_head {cs : List Char} {p : List Char × List Char}
    (h : strMatch cs = some p) :
    ∃ cs2, cs = dq :: cs2 := by
  rcases cs with _ | ⟨c, rest⟩
  · simp [strMatch] at h
  · by_cases hc : c = dq
    · exact ⟨rest, by rw [hc]⟩
    · rw [strMatch_none_head rest hc] at h
      exact absurd h (by simp)

/-! Generic character-class exclusion helpers. -/

theorem class_ne {p : Char → Bool} {c x : Char}
    (h : p c = true) (hx : p x = false) : c ≠ x := by
  intro he
  rw [he, hx] at h
  exact absurd h (by simp)

theorem isWSC_false_of {p : Char → Bool} {c : Char}
    (hsp : p ' ' = false) (htb : p tabC = false) (hnl : p nlC = false)
    (hcr : p crC = false) (hff : p ffC = false) (hvt : p vtC = false)
    (h : p c = true) : isWSC c = false := by
  rcases hb : isWSC c
  · rfl
  · exfalso
    simp only [isWSC, Bool.or_eq_true, decide_eq_true_eq] at hb
    rcases hb with ((((h1 | h1) | h1) | h1) | h1) | h1 <;> rw [h1] at h
    · rw [hsp] at h; exact absurd h (by simp)
    · rw [htb] at h; exact absurd h (by simp)
    · rw [hnl] at h; exact absurd h (by simp)
    · rw [hcr] at h; exact absurd h (by simp)
    · rw [hff] at h; exact absurd h (by simp)
    · rw [hvt] at h; exact absurd h (by simp)

end XL

namespace XL

theorem isUpperC_false_of_digit {c : Char} (h : isDigitC c = true) :
    isUpperC c = false := by
  simp only [isDigitC, Bool.and_eq_true, decide_eq_true_eq] at h
  simp only [isUpperC, Bool.and_eq_false_iff]
  left
  simp only [decide_eq_false_iff_not]
  intro hA
  exact absurd (le_trans hA h.2) (by decide)

theorem isLowerC_false_of_digit {c : Char} (h : isDigitC c = true) :
    isLowerC c = false := by
  simp only [isDigitC, Bool.and_eq_true, decide_eq_true_eq] at h
  simp only [isLowerC, Bool.and_eq_false_iff]
  left
  simp only [decide_eq_false_iff_not]
  intro hA
  exact absurd (le_trans hA h.2) (by decide)

theorem isNameStartC_false_of_digit {c : Char} (h : isDigitC c = true) :
    isNameStartC c = false := by
  simp only [isNameStartC, Bool.or_eq_false_iff]
  refine ⟨⟨isUpperC_false_of_digit h, isLowerC_false_of_digit h⟩, ?_⟩
  simp only [decide_eq_false_iff_not]
  exact class_ne h (by decide)

end XL

namespace XL

theorem head_props_upper {c : Char} (h : isUpperC c = true) :
    isWSC c = false ∧ c ≠ '=' ∧ c ≠ '>' :=
  ⟨isWSC_false_of (by decide) (by decide) (by decide) (by decide) (by decide)
    (by decide) h, class_ne h (by decide), class_ne h (by decide)⟩

theorem head_props_digit {c : Char} (h : isDigitC c = true) :
    isWSC c = false ∧ c ≠ '=' ∧ c ≠ '>' :=
  ⟨isWSC_false_of (by decide) (by decide) (by decide) (by decide) (by decide)
    (by decide) h, class_ne h (by decide), class_ne h (by decide)⟩

theorem head_props_word {c : Char} (h : isWordDashC c = true) :
    isWSC c = false ∧ c ≠ '=' ∧ c ≠ '>' :=
  ⟨isWSC_false_of (by decide) (by decide) (by decide) (by decide) (by decide)
    (by decide) h, class_ne h (by decide), class_ne h (by decide)⟩

theorem head_props_nameStart {c : Char} (h : isNameStartC c = true) :
    isWSC c = false ∧ c ≠ '=' ∧ c ≠ '>' :=
  ⟨isWSC_false_of (by decide) (by decide) (by decide) (by decide) (by decide)
    (by decide) h, class_ne h (by decide), class_ne h (by decide)⟩

/-- For a full cell-reference match, the head is a `$`, a quote, or a
word character (upper-case letters included). -/
theorem cellWF_head {s : String} (hw : cellWF s = true) :
    ∃ c cs, s.data = c :: cs ∧
      (c = '$' ∨ c = qc ∨ isUpperC c = true ∨ isWordDashC c = true) := by
  simp only [cellWF, Bool.or_eq_true, decide_eq_true_eq] at hw
  rcases hw with (h1 | h2) | h0
  · simp only [a1Match] at h1
    rcases ha : a0Match s.data with _ | ⟨p1, cs1⟩
    · rw [ha] at h1; exact absurd h1 (by simp)
    · obtain ⟨c, cs2, hcs, hc⟩ := a0Match_head ha
      exact ⟨c, cs2, hcs, hc.imp id (fun h => Or.inr (Or.inl h))⟩
  · obtain ⟨c, cs2, hcs, hc⟩ := a2Match_head h2
    exact ⟨c, cs2, hcs, hc.imp id (fun h => h.imp id Or.inr)⟩
  · obtain ⟨c, cs2, hcs, hc⟩ := a0Match_head h0
    exact ⟨c, cs2, hcs, hc.imp id (fun h => Or.inr (Or.inl h))⟩

/-- Head character of a wellformed operand token: nonempty, no
whitespace, and never `=` or `>`. -/
theorem operand_head {t : Tok} (hw : tokWF t = true) (ho : operandTok t = true) :
    ∃ c cs, tokChars t = c :: cs ∧ isWSC c = false ∧ c ≠ '=' ∧ c ≠ '>' := by
  cases t with
  | numT s =>
    simp only [tokWF, numWF, decide_eq_true_eq] at hw
    obtain ⟨c, cs2, hcs, hc⟩ := numMatch_head hw
    refine ⟨c, cs2, by simpa [tokChars] using hcs, ?_⟩
    rcases hc with hc | hc
    · subst hc; exact ⟨by decide, by decide, by decide⟩
    · exact head_props_digit hc
  | strT s =>
    simp only [tokWF, strWF, decide_eq_true_eq] at hw
    obtain ⟨cs2, hcs⟩ := strMatch_head hw
    exact ⟨dq, cs2, by simpa [tokChars] using hcs, by decide, by decide, by decide⟩
  | cellT s =>
    simp only [tokWF] at hw
    obtain ⟨c, cs2, hcs, hc⟩ := cellWF_head hw
    refine ⟨c, cs2, by simpa [tokChars] using hcs, ?_⟩
    rcases hc with hc | hc | hc | hc
    · subst hc; exact ⟨by decide, by decide, by decide⟩
    · subst hc; exact ⟨by decide, by decide, by decide⟩
    · exact head_props_upper hc
    · exact head_props_word hc
  | nameT s =>
    simp only [tokWF, nameWF, decide_eq_true_eq] at hw
    obtain ⟨c, cs2, hcs, hc⟩ := nameMatch_head hw
    exact ⟨c, cs2, by simpa [tokChars] using hcs, head_props_nameStart hc⟩
  | lpar => exact ⟨'(', [], rfl, by decide, by decide, by decide⟩
  | rpar => exact ⟨')', [], rfl, by decide, by decide, by decide⟩
  | semi => exact absurd ho (by simp [operandTok])
  | opT o => exact absurd ho (by simp [operandTok])

def isOpHeadC (c : Char) : Bool :=
  c = '<' || c = '>' || c = '=' || c = '+' || c = '-' || c = '*' ||
  c = '/' || c = '^' || c = '&' || c = ')' || c = ';'

theorem operator_head {t : Tok} (ho : operatorTok t = true) :
    ∃ c cs, tokChars t = c :: cs ∧ isOpHeadC c = true := by
  cases t with
  | opT o =>
    cases o with
    | eq => exact ⟨'=', [], by decide, by decide⟩
    | ne => exact ⟨'<', ['>'], by decide, by decide⟩
    | lt => exact ⟨'<', [], by decide, by decide⟩
    | le => exact ⟨'<', ['='], by decide, by decide⟩
    | gt => exact ⟨'>', [], by decide, by decide⟩
    | ge => exact ⟨'>', ['='], by decide, by decide⟩
    | add => exact ⟨'+', [], by decide, by decide⟩
    | sub => exact ⟨'-', [], by decide, by decide⟩
    | mul => exact ⟨'*', [], by decide, by decide⟩
    | div => exact ⟨'/', [], by decide, by decide⟩
    | pow => exact ⟨'^', [], by decide, by decide⟩
    | concat => exact ⟨'&', [], by decide, by decide⟩
  | rpar => exact ⟨')', [], rfl, by decide⟩
  | semi => exact ⟨';', [], rfl, by decide⟩
  | numT s => exact absurd ho (by simp [operatorTok])
  | strT s => exact absurd ho (by simp [operatorTok])
  | cellT s => exact absurd ho (by simp [operatorTok])
  | nameT s => exact absurd ho (by simp [operatorTok])
  | lpar => exact absurd ho (by simp [operatorTok])

theorem opHead_props {c : Char} (h : isOpHeadC c = true) :
    isDigitC c = false ∧ c ≠ '.' ∧ c ≠ ':' ∧ isWSC c = false := by
  simp only [isOpHeadC, Bool.or_eq_true, decide_eq_true_eq] at h
  rcases h with ((((((((((h | h) | h) | h) | h) | h) | h) | h) | h) | h) | h) <;>
    subst h <;> exact ⟨by decide, by decide, by decide, by decide⟩

theorem streamOK_operator_cons {t : Tok} {ts : List Tok}
    (h : streamOK .operator (t :: ts) = true) :
    operatorTok t = true ∧ streamOK (nextMode t) ts = true := by
  cases t <;> simp only [streamOK, Bool.and_eq_true] at h <;>
    first
    | exact ⟨rfl, h.2⟩
    | exact absurd h.1 (by simp [operatorTok])

/-- The character stream that follows in operator mode never begins
with a digit, a dot, a colon, or whitespace. -/
theorem operatorFollow {ts : List Tok} (h : streamOK .operator ts = true) :
    headFail isDigitC (charsOf ts) ∧ headNe '.' (charsOf ts) ∧
      headNe ':' (charsOf ts) ∧ headFail isWSC (charsOf ts) := by
  rcases ts with _ | ⟨t, ts'⟩
  · exact ⟨trivial, trivial, trivial, trivial⟩
  · obtain ⟨hop, -⟩ := streamOK_operator_cons h
    obtain ⟨c, cs, hc, hhead⟩ := operator_head hop
    obtain ⟨p1, p2, p3, p4⟩ := opHead_props hhead
    simp only [charsOf, hc, List.cons_append]
    exact ⟨p1, p2, p3, p4⟩

end XL

namespace XL

theorem streamOK_operand_tok {t : Tok} {ts : List Tok}
    (h : streamOK .operand (t :: ts) = true) :
    operandTok t = true ∧ streamOK (nextMode t) ts = true := by
  cases t <;> simp only [streamOK, Bool.and_eq_true] at h <;>
    first
    | exact ⟨rfl, h.2⟩
    | exact absurd h.1 (by simp [operandTok])

theorem streamOK_operand_name {n : String} {ts : List Tok}
    (h : streamOK .operand (.nameT n :: ts) = true) :
    ∃ ts', ts = .lpar :: ts' := by
  simp only [streamOK, Bool.and_eq_true] at h
  rcases ts with _ | ⟨t2, ts2⟩
  · exact absurd h.1 (by simp)
  · cases t2 <;> first
      | exact ⟨ts2, rfl⟩
      | exact absurd h.1 (by simp)

/-- The character stream that follows in operand mode never begins with
`=` or `>`. -/
theorem operandFollow {ts : List Tok} (h : streamOK .operand ts = true)
    (hw : wfToks ts = true) :
    headNe '=' (charsOf ts) ∧ headNe '>' (charsOf ts) := by
  rcases ts with _ | ⟨t, ts'⟩
  · exact ⟨trivial, trivial⟩
  · obtain ⟨hot, -⟩ := streamOK_operand_tok h
    have hwt : tokWF t = true := by
      simp only [wfToks, List.all_cons, Bool.and_eq_true] at hw
      exact hw.1
    obtain ⟨c, cs, hc, -, p2, p3⟩ := operand_head hwt hot
    simp only [charsOf, hc, List.cons_append]
    exact ⟨p2, p3⟩

/-! ### One lexer step per printed token -/

theorem lexOperand_num {s : String} {rest : List Char}
    (hw : numWF s = true)
    (hcoal : a2Match (s.data ++ rest) = none)
    (hf1 : headFail isDigitC rest) (hf2 : headNe '.' rest) :
    lexOperand (s.data ++ rest) = some (.numT s, rest) := by
  have hnum : numMatch s.data = some (s.data, []) := by
    simpa [numWF] using hw
  obtain ⟨c, cs2, hcs, hc⟩ := numMatch_head hnum
  have hdol : ¬ c = '$' := by
    rcases hc with hc | hc
    · subst hc; decide
    · exact class_ne hc (by decide)
  have hup : isUpperC c = false := by
    rcases hc with hc | hc
    · subst hc; decide
    · exact isUpperC_false_of_digit hc
  have hns : isNameStartC c = false := by
    rcases hc with hc | hc
    · subst hc; decide
    · exact isNameStartC_false_of_digit hc
  have ha0 : a0Match (s.data ++ rest) = none := by
    rw [hcs, List.cons_append]
    exact a0Match_none_head _ hdol hup
  have ha1 : a1Match (s.data ++ rest) = none := a1Match_none ha0
  have hnm : nameMatch (s.data ++ rest) = none := by
    rw [hcs, List.cons_append]
    exact nameMatch_none_head _ hns
  have hmm : numMatch (s.data ++ rest) = some (s.data, rest) :=
    numMatch_ext rest hnum hf1 hf2
  unfold lexOperand
  rw [ha1, hcoal, ha0, hnm, hmm]

theorem lexOperand_cell {s : String} {rest : List Char}
    (hw : cellWF s = true)
    (hq : noCoalStep (.cellT s) (s.data ++ rest) = true)
    (hf1 : headFail isDigitC rest) (hcol : headNe ':' rest) :
    lexOperand (s.data ++ rest) = some (.cellT s, rest) := by
  by_cases h1 : a1Match s.data = some (s.data, [])
  · have ha1e : a1Match (s.data ++ rest) = some (s.data, rest) := by
      simpa using a1Match_app rest h1 (fun _ => hf1)
    unfold lexOperand
    rw [ha1e]
  · by_cases h2 : a2Match s.data = some (s.data, [])
    · simp only [noCoalStep] at hq
      rw [if_neg (by simpa using h1), if_pos (by simpa using h2)] at hq
      have ha1n : a1Match (s.data ++ rest) = none := of_decide_eq_true hq
      have ha2e : a2Match (s.data ++ rest) = some (s.data, rest) := by
        simpa using a2Match_app rest h2 (fun _ => hf1)
      unfold lexOperand
      rw [ha1n, ha2e]
    · have h0 : a0Match s.data = some (s.data, []) := by
        simp only [cellWF, Bool.or_eq_true, decide_eq_true_eq] at hw
        rcases hw with (h | h) | h
        · exact absurd h h1
        · exact absurd h h2
        · exact h
      simp only [noCoalStep] at hq
      rw [if_neg (by simpa using h1), if_neg (by simpa using h2)] at hq
      have ha2n : a2Match (s.data ++ rest) = none := of_decide_eq_true hq
      have ha0e : a0Match (s.data ++ rest) = some (s.data, rest) := by
        simpa using a0Match_app rest h0 (fun _ => hf1)
      have ha1n : a1Match (s.data ++ rest) = none :=
        a1Match_of_a0_noColon ha0e hcol
      unfold lexOperand
      rw [ha1n, ha2n, ha0e]

theorem lexOperand_str {s : String} {rest : List Char}
    (hw : strWF s = true) :
    lexOperand (s.data ++ rest) = some (.strT s, rest) := by
  have hstr : strMatch s.data = some (s.data, []) := by
    simpa [strWF] using hw
  obtain ⟨cs2, hcs⟩ := strMatch_head hstr
  have ha0 : a0Match (s.data ++ rest) = none := by
    rw [hcs, List.cons_append]
    exact a0Match_none_head _ (by decide) (by decide)
  have ha1 : a1Match (s.data ++ rest) = none := a1Match_none ha0
  have ha2 : a2Match (s.data ++ rest) = none := by
    rw [hcs, List.cons_append]
    exact a2Match_none_head _ (by decide) (by decide) (by decide)
  have hnm : nameMatch (s.data ++ rest) = none := by
    rw [hcs, List.cons_append]
    exact nameMatch_none_head _ (by decide)
  have hnn : numMatch (s.data ++ rest) = none := by
    rw [hcs, List.cons_append]
    exact numMatch_none_head _ (by decide) (by decide)
  have hse : strMatch (s.data ++ rest) = some (s.data, rest) :=
    strMatch_ext rest hstr
  unfold lexOperand
  rw [ha1, ha2, ha0, hnm, hnn, hse]

theorem lexOperand_name {s : String} {rest : List Char}
    (hw : nameWF s = true)
    (hq : noCoalStep (.nameT s) (s.data ++ rest) = true)
    (hfl : headFail isNameTailC rest) :
    lexOperand (s.data ++ rest) = some (.nameT s, rest) := by
  have hname : nameMatch s.data = some (s.data, []) := by
    simpa [nameWF] using hw
  simp only [noCoalStep, Bool.and_eq_true] at hq
  have ha1n : a1Match (s.data ++ rest) = none := of_decide_eq_true hq.1.1
  have ha2n : a2Match (s.data ++ rest) = none := of_decide_eq_true hq.1.2
  have ha0n : a0Match (s.data ++ rest) = none := of_decide_eq_true hq.2
  have hne : nameMatch (s.data ++ rest) = some (s.data, rest) := by
    simpa using nameMatch_app rest hname (fun _ => hfl)
  unfold lexOperand
  rw [ha1n, ha2n, ha0n, hne]

theorem lexOperand_lpar (rest : List Char) :
    lexOperand ('(' :: rest) = some (.lpar, rest) := by
  unfold lexOperand
  rw [a1Match_none (a0Match_none_head rest (by decide) (by decide)),
      a2Match_none_head rest (by decide) (by decide) (by decide),
      a0Match_none_head rest (by decide) (by decide),
      nameMatch_none_head rest (by decide),
      numMatch_none_head rest (by decide) (by decide),
      strMatch_none_head rest (by decide)]
  rfl

theorem lexOperand_rpar (rest : List Char) :
    lexOperand (')' :: rest) = some (.rpar, rest) := by
  unfold lexOperand
  rw [a1Match_none (a0Match_none_head rest (by decide) (by decide)),
      a2Match_none_head rest (by decide) (by decide) (by decide),
      a0Match_none_head rest (by decide) (by decide),
      nameMatch_none_head rest (by decide),
      numMatch_none_head rest (by decide) (by decide),
      strMatch_none_head rest (by decide)]
  rfl

theorem lexOperand_eq (rest : List Char) :
    lexOperand ('=' :: rest) = some (.opT .eq, rest) := by
  unfold lexOperand
  rw [a1Match_none (a0Match_none_head rest (by decide) (by decide)),
      a2Match_none_head rest (by decide) (by decide) (by decide),
      a0Match_none_head rest (by decide) (by decide),
      nameMatch_none_head rest (by decide),
      numMatch_none_head rest (by decide) (by decide),
      strMatch_none_head rest (by decide)]
  rfl

end XL

namespace XL

theorem lexOperator_lt {c : Char} (rs : List Char) (h1 : c ≠ '=') (h2 : c ≠ '>') :
    lexOperator ('<' :: c :: rs) = some (.opT .lt, c :: rs) := by
  show (match c :: rs with
        | '=' :: r2 => some (Tok.opT .le, r2)
        | '>' :: r2 => some (Tok.opT .ne, r2)
        | _ => some (Tok.opT .lt, c :: rs)) = some (Tok.opT .lt, c :: rs)
  split
  next r2 heq =>
    injection heq with e1 e2
    exact absurd e1 h1
  next r2 heq =>
    injection heq with e1 e2
    exact absurd e1 h2
  next => rfl

theorem lexOperator_gt {c : Char} (rs : List Char) (h1 : c ≠ '=') :
    lexOperator ('>' :: c :: rs) = some (.opT .gt, c :: rs) := by
  show (match c :: rs with
        | '=' :: r2 => some (Tok.opT .ge, r2)
        | _ => some (Tok.opT .gt, c :: rs)) = some (Tok.opT .gt, c :: rs)
  split
  next r2 heq =>
    injection heq with e1 e2
    exact absurd e1 h1
  next => rfl

theorem lexOperator_lit {o : Op} (rs : List Char) (hlt : o ≠ .lt) (hgt : o ≠ .gt) :
    lexOperator ((opStr o).data ++ rs) = some (.opT o, rs) := by
  cases o
  case lt => exact absurd rfl hlt
  case gt => exact absurd rfl hgt
  all_goals rfl

theorem lexOperator_ltEnd : lexOperator ['<'] = some (.opT .lt, []) := rfl

theorem lexOperator_gtEnd : lexOperator ['>'] = some (.opT .gt, []) := rfl

theorem lexOperator_rparStep (rs : List Char) :
    lexOperator (')' :: rs) = some (.rpar, rs) := rfl

theorem lexOperator_semiStep (rs : List Char) :
    lexOperator (';' :: rs) = some (.semi, rs) := rfl

end XL

namespace XL

theorem lexRun_cons_reduce {m : LMode} {t : Tok} {ts' : List Tok} {f : Nat}
    {c : Char} {cs : List Char}
    (hc : tokChars t = c :: cs)
    (hws : isWSC c = false)
    (hstep : lexStep m (c :: (cs ++ charsOf ts')) = some (t, charsOf ts'))
    (hrec : lexRun f (nextMode t) (charsOf ts') = some ts') :
    lexRun (f + 1) m (charsOf (t :: ts')) = some (t :: ts') := by
  have he : charsOf (t :: ts') = c :: (cs ++ charsOf ts') := by
    show tokChars t ++ charsOf ts' = _
    rw [hc, List.cons_append]
  simp only [lexRun]
  rw [he, List.dropWhile_cons_of_neg (by simp [hws])]
  dsimp only
  rw [hstep]
  dsimp only
  rw [hrec]

theorem charsOf_cons_len {t : Tok} {ts' : List Tok} {c : Char} {cs : List Char}
    {f : Nat} (hc : tokChars t = c :: cs)
    (hlt : (charsOf (t :: ts')).length < f + 1) :
    (charsOf ts').length < f := by
  have he : charsOf (t :: ts') = c :: (cs ++ charsOf ts') := by
    show tokChars t ++ charsOf ts' = _
    rw [hc, List.cons_append]
  rw [he] at hlt
  simp only [List.length_cons, List.length_append] at hlt
  omega

/-- The contextual lexer re-tokenizes the character stream of a printed
token list exactly, provided the stream is wellformed, mode-consistent,
and free of cross-token coalescence. -/
theorem lexRun_stream : ∀ (ts : List Tok) (fuel : Nat) (m : LMode),
    streamOK m ts = true → wfToks ts = true → noCoal ts = true →
    (charsOf ts).length < fuel →
    lexRun fuel m (charsOf ts) = some ts := by
  intro ts
  induction ts with
  | nil =>
    intro fuel m _ _ _ hlt
    rcases fuel with _ | f
    · exact absurd hlt (by simp)
    · rfl
  | cons t ts' IH =>
    intro fuel m hOK hwf hnc hlt
    rcases fuel with _ | f
    · exact absurd hlt (by simp)
    have hwt : tokWF t = true ∧ wfToks ts' = true := by
      simp only [wfToks, List.all_cons, Bool.and_eq_true] at hwf
      exact hwf
    have hncs : noCoalStep t (tokChars t ++ charsOf ts') = true ∧
        noCoal ts' = true := by
      simp only [noCoal, Bool.and_eq_true] at hnc
      exact hnc
    rcases m with _ | _
    · -- operand mode
      obtain ⟨hot, hnext⟩ := streamOK_operand_tok hOK
      cases t with
      | numT s =>
        have hw : numWF s = true := by simpa [tokWF] using hwt.1
        obtain ⟨c, cs, hc, hwsp⟩ := operand_head hwt.1 hot
        obtain ⟨hf1, hf2, -, -⟩ := @operatorFollow ts' hnext
        have hcoal : a2Match (s.data ++ charsOf ts') = none := by
          have := hncs.1
          simp only [noCoalStep, tokChars] at this
          exact of_decide_eq_true this
        have hstep0 := @lexOperand_num s (charsOf ts') hw hcoal hf1 hf2
        have he : s.data ++ charsOf ts' = c :: (cs ++ charsOf ts') := by
          have : tokChars (.numT s) = s.data := rfl
          rw [this] at hc
          rw [hc, List.cons_append]
        rw [he] at hstep0
        exact lexRun_cons_reduce hc hwsp.1 hstep0
          (IH f _ hnext hwt.2 hncs.2 (charsOf_cons_len hc hlt))
      | strT s =>
        have hw : strWF s = true := by simpa [tokWF] using hwt.1
        obtain ⟨c, cs, hc, hwsp⟩ := operand_head hwt.1 hot
        have hstep0 := @lexOperand_str s (charsOf ts') hw
        have he : s.data ++ charsOf ts' = c :: (cs ++ charsOf ts') := by
          have : tokChars (.strT s) = s.data := rfl
          rw [this] at hc
          rw [hc, List.cons_append]
        rw [he] at hstep0
        exact lexRun_cons_reduce hc hwsp.1 hstep0
          (IH f _ hnext hwt.2 hncs.2 (charsOf_cons_len hc hlt))
      | cellT s =>
        have hw : cellWF s = true := by simpa [tokWF] using hwt.1
        obtain ⟨c, cs, hc, hwsp⟩ := operand_head hwt.1 hot
        obtain ⟨hf1, -, hf3, -⟩ := @operatorFollow ts' hnext
        have hq : noCoalStep (.cellT s) (s.data ++ charsOf ts') = true := by
          have := hncs.1
          simp only [tokChars] at this
          exact this
        have hstep0 := @lexOperand_cell s (charsOf ts') hw hq hf1 hf3
        have he : s.data ++ charsOf ts' = c :: (cs ++ charsOf ts') := by
          have : tokChars (.cellT s) = s.data := rfl
          rw [this] at hc
          rw [hc, List.cons_append]
        rw [he] at hstep0
        exact lexRun_cons_reduce hc hwsp.1 hstep0
          (IH f _ hnext hwt.2 hncs.2 (charsOf_cons_len hc hlt))
      | nameT s =>
        have hw : nameWF s = true := by simpa [tokWF] using hwt.1
        obtain ⟨c, cs, hc, hwsp⟩ := operand_head hwt.1 hot
        obtain ⟨ts2, hts2⟩ := streamOK_operand_name hOK
        have hfl : headFail isNameTailC (charsOf ts') := by
          rw [hts2]
          show isNameTailC '(' = false
          decide
        have hq : noCoalStep (.nameT s) (s.data ++ charsOf ts') = true := by
          have := hncs.1
          simp only [tokChars] at this
          exact this
        have hstep0 := @lexOperand_name s (charsOf ts') hw hq hfl
        have he : s.data ++ charsOf ts' = c :: (cs ++ charsOf ts') := by
          have : tokChars (.nameT s) = s.data := rfl
          rw [this] at hc
          rw [hc, List.cons_append]
        rw [he] at hstep0
        exact lexRun_cons_reduce hc hwsp.1 hstep0
          (IH f _ hnext hwt.2 hncs.2 (charsOf_cons_len hc hlt))
      | lpar =>
        have hc : tokChars .lpar = '(' :: [] := rfl
        have hstep0 := lexOperand_lpar (charsOf ts')
        have he : '(' :: charsOf ts' = '(' :: ([] ++ charsOf ts') := by simp
        rw [he] at hstep0
        exact lexRun_cons_reduce hc (by decide) hstep0
          (IH f _ hnext hwt.2 hncs.2 (charsOf_cons_len hc hlt))
      | rpar =>
        have hc : tokChars .rpar = ')' :: [] := rfl
        have hstep0 := lexOperand_rpar (charsOf ts')
        have he : ')' :: charsOf ts' = ')' :: ([] ++ charsOf ts') := by simp
        rw [he] at hstep0
        exact lexRun_cons_reduce hc (by decide) hstep0
          (IH f _ hnext hwt.2 hncs.2 (charsOf_cons_len hc hlt))
      | semi => exact absurd hot (by simp [operandTok])
      | opT o => exact absurd hot (by simp [operandTok])
    · -- operator mode
      obtain ⟨hop, hnext⟩ := streamOK_operator_cons hOK
      cases t with
      | opT o =>
        cases o with
        | lt =>
          obtain ⟨hne, hgt⟩ := operandFollow hnext hwt.2
          have hc : tokChars (.opT .lt) = '<' :: [] := by decide
          rcases hcof : charsOf ts' with _ | ⟨c2, cs2⟩
          · have hstep0 : lexStep .operator ('<' :: ([] ++ charsOf ts')) =
                some (.opT .lt, charsOf ts') := by
              rw [hcof]
              exact lexOperator_ltEnd
            exact lexRun_cons_reduce hc (by decide) hstep0
              (IH f _ hnext hwt.2 hncs.2 (charsOf_cons_len hc hlt))
          · rw [hcof] at hne hgt
            have hstep0 : lexStep .operator ('<' :: ([] ++ charsOf ts')) =
                some (.opT .lt, charsOf ts') := by
              rw [hcof]
              exact lexOperator_lt cs2 hne hgt
            exact lexRun_cons_reduce hc (by decide) hstep0
              (IH f _ hnext hwt.2 hncs.2 (charsOf_cons_len hc hlt))
        | gt =>
          obtain ⟨hne, -⟩ := operandFollow hnext hwt.2
          have hc : tokChars (.opT .gt) = '>' :: [] := by decide
          rcases hcof : charsOf ts' with _ | ⟨c2, cs2⟩
          · have hstep0 : lexStep .operator ('>' :: ([] ++ charsOf ts')) =
                some (.opT .gt, charsOf ts') := by
              rw [hcof]
              exact lexOperator_gtEnd
            exact lexRun_cons_reduce hc (by decide) hstep0
              (IH f _ hnext hwt.2 hncs.2 (charsOf_cons_len hc hlt))
          · rw [hcof] at hne
            have hstep0 : lexStep .operator ('>' :: ([] ++ charsOf ts')) =
                some (.opT .gt, charsOf ts') := by
              rw [hcof]
              exact lexOperator_gt cs2 hne
            exact lexRun_cons_reduce hc (by decide) hstep0
              (IH f _ hnext hwt.2 hncs.2 (charsOf_cons_len hc hlt))
        | eq =>
          have hc : tokChars (.opT .eq) = '=' :: [] := by decide
          have hstep0 : lexStep .operator ('=' :: ([] ++ charsOf ts')) =
              some (.opT .eq, charsOf ts') := by
            have := lexOperator_lit (o := .eq) (charsOf ts') (by decide) (by decide)
            simpa using this
          exact lexRun_cons_reduce hc (by decide) hstep0
            (IH f _ hnext hwt.2 hncs.2 (charsOf_cons_len hc hlt))
        | le =>
          have hc : tokChars (.opT .le) = '<' :: ['='] := by decide
          have hstep0 : lexStep .operator ('<' :: (['='] ++ charsOf ts')) =
              some (.opT .le, charsOf ts') := by
            have := lexOperator_lit (o := .le) (charsOf ts') (by decide) (by decide)
            simpa using this
          exact lexRun_cons_reduce hc (by decide) hstep0
            (IH f _ hnext hwt.2 hncs.2 (charsOf_cons_len hc hlt))
        | ge =>
          have hc : tokChars (.opT .ge) = '>' :: ['='] := by decide
          have hstep0 : lexStep .operator ('>' :: (['='] ++ charsOf ts')) =
              some (.opT .ge, charsOf ts') := by
            have := lexOperator_lit (o := .ge) (charsOf ts') (by decide) (by decide)
            simpa using this
          exact lexRun_cons_reduce hc (by decide) hstep0
            (IH f _ hnext hwt.2 hncs.2 (charsOf_cons_len hc hlt))
        | ne =>
          have hc : tokChars (.opT .ne) = '<' :: ['>'] := by decide
          have hstep0 : lexStep .operator ('<' :: (['>'] ++ charsOf ts')) =
              some (.opT .ne, charsOf ts') := by
            have := lexOperator_lit (o := .ne) (charsOf ts') (by decide) (by decide)
            simpa using this
          exact lexRun_cons_reduce hc (by decide) hstep0
            (IH f _ hnext hwt.2 hncs.2 (charsOf_cons_len hc hlt))
        | add =>
          have hc : tokChars (.opT .add) = '+' :: [] := by decide
          have hstep0 : lexStep .operator ('+' :: ([] ++ charsOf ts')) =
              some (.opT .add, charsOf ts') := by
            have := lexOperator_lit (o := .add) (charsOf ts') (by decide) (by decide)
            simpa using this
          exact lexRun_cons_reduce hc (by decide) hstep0
            (IH f _ hnext hwt.2 hncs.2 (charsOf_cons_len hc hlt))
        | sub =>
          have hc : tokChars (.opT .sub) = '-' :: [] := by decide
          have hstep0 : lexStep .operator ('-' :: ([] ++ charsOf ts')) =
              some (.opT .sub, charsOf ts') := by
            have := lexOperator_lit (o := .sub) (charsOf ts') (by decide) (by decide)
            simpa using this
          exact lexRun_cons_reduce hc (by decide) hstep0
            (IH f _ hnext hwt.2 hncs.2 (charsOf_cons_len hc hlt))
        | mul =>
          have hc : tokChars (.opT .mul) = '*' :: [] := by decide
          have hstep0 : lexStep .operator ('*' :: ([] ++ charsOf ts')) =
              some (.opT .mul, charsOf ts') := by
            have := lexOperator_lit (o := .mul) (charsOf ts') (by decide) (by decide)
            simpa using this
          exact lexRun_cons_reduce hc (by decide) hstep0
            (IH f _ hnext hwt.2 hncs.2 (charsOf_cons_len hc hlt))
        | div =>
          have hc : tokChars (.opT .div) = '/' :: [] := by decide
          have hstep0 : lexStep .operator ('/' :: ([] ++ charsOf ts')) =
              some (.opT .div, charsOf ts') := by
            have := lexOperator_lit (o := .div) (charsOf ts') (by decide) (by decide)
            simpa using this
          exact lexRun_cons_reduce hc (by decide) hstep0
            (IH f _ hnext hwt.2 hncs.2 (charsOf_cons_len hc hlt))
        | pow =>
          have hc : tokChars (.opT .pow) = '^' :: [] := by decide
          have hstep0 : lexStep .operator ('^' :: ([] ++ charsOf ts')) =
              some (.opT .pow, charsOf ts') := by
            have := lexOperator_lit (o := .pow) (charsOf ts') (by decide) (by decide)
            simpa using this
          exact lexRun_cons_reduce hc (by decide) hstep0
            (IH f _ hnext hwt.2 hncs.2 (charsOf_cons_len hc hlt))
        | concat =>
          have hc : tokChars (.opT .concat) = '&' :: [] := by decide
          have hstep0 : lexStep .operator ('&' :: ([] ++ charsOf ts')) =
              some (.opT .concat, charsOf ts') := by
            have := lexOperator_lit (o := .concat) (charsOf ts') (by decide) (by decide)
            simpa using this
          exact lexRun_cons_reduce hc (by decide) hstep0
            (IH f _ hnext hwt.2 hncs.2 (charsOf_cons_len hc hlt))
      | rpar =>
        have hc : tokChars .rpar = ')' :: [] := rfl
        have hstep0 : lexStep .operator (')' :: ([] ++ charsOf ts')) =
            some (.rpar, charsOf ts') := by
          simpa using lexOperator_rparStep (charsOf ts')
        exact lexRun_cons_reduce hc (by decide) hstep0
          (IH f _ hnext hwt.2 hncs.2 (charsOf_cons_len hc hlt))
      | semi =>
        have hc : tokChars .semi = ';' :: [] := rfl
        have hstep0 : lexStep .operator (';' :: ([] ++ charsOf ts')) =
            some (.semi, charsOf ts') := by
          simpa using lexOperator_semiStep (charsOf ts')
        exact lexRun_cons_reduce hc (by decide) hstep0
          (IH f _ hnext hwt.2 hncs.2 (charsOf_cons_len hc hlt))
      | numT s => exact absurd hop (by simp [operatorTok])
      | strT s => exact absurd hop (by simp [operatorTok])
      | cellT s => exact absurd hop (by simp [operatorTok])
      | nameT s => exact absurd hop (by simp [operatorTok])
      | lpar => exact absurd hop (by simp [operatorTok])

end XL

namespace XL

/-! ### Parser completeness for re-association-safe trees

The grammar's three left-associative tiers re-associate any
unparenthesized same-tier right operand, so completeness is proved for
`good` trees.  Each tier lemma decomposes the printed token segment
into the leftmost operand and the spine of `(operator, operand)`
continuations that the corresponding parse loop folds back. -/

mutual

def sizeA : Ast → Nat
  | .num _ | .str _ | .cell _ => 1
  | .call _ args => 1 + sizeArgs args
  | .bin _ l r => 1 + sizeA l + sizeA r

def sizeArgs : Args → Nat
  | .nil => 0
  | .cons a t => 1 + sizeA a + sizeArgs t

end

def listOf : Args → List Ast
  | .nil => []
  | .cons a t => a :: listOf t

theorem argsOf_listOf : ∀ (args : Args), argsOf (listOf args) = args
  | .nil => rfl
  | .cons a t => by
    simp [listOf, argsOf, argsOf_listOf t]

/-- Tokens of all arguments after the first, each with its leading
separator. -/
def toksSep : Args → List Tok
  | .nil => []
  | .cons a t => .semi :: toksE a 0 ++ toksSep t

theorem toksArgs_decomp : ∀ (a : Ast) (t : Args),
    toksArgs (.cons a t) = toksE a 0 ++ toksSep t
  | a, .nil => by simp [toksArgs, toksSep]
  | a, .cons b r => by
    simp [toksArgs, toksSep, toksArgs_decomp b r]

/-- Shape conditions: at print precedence `pp`, the parse of the
segment lands at the given tier. -/
def atomOK : Ast → Nat → Bool
  | .bin o _ _, pp => decide (pprec o < pp)
  | _, _ => true

def powOK : Ast → Nat → Bool
  | .bin o _ _, pp => decide (pprec o < pp) || decide (o = .pow)
  | _, _ => true

def facOK : Ast → Nat → Bool
  | .bin o _ _, pp => decide (pprec o < pp) || decide (o = .pow) || isFacOp o
  | _, _ => true

def termOK : Ast → Nat → Bool
  | .bin o _ _, pp =>
    decide (pprec o < pp) || decide (o = .pow) || isFacOp o || isTermOp o
  | _, _ => true

/-- `rest` begins with no operator token of printer precedence `≥ k`. -/
def restLT (k : Nat) (rest : List Tok) : Prop :=
  ∀ o r', rest = .opT o :: r' → pprec o < k

/-! Left spines per tier.  The spine descends into the left child only
while that child is a same-tier node printed without parentheses. -/

def contC : Ast → Bool
  | .bin o2 _ _ => isCmpOp o2
  | _ => false

def headC : Ast → Ast
  | .bin o l r => if isCmpOp o then (if contC l then headC l else l) else .bin o l r
  | t => t

def afterC : Ast → List Tok
  | .bin o l r =>
    if isCmpOp o then
      (if contC l then afterC l else []) ++ .opT o :: toksE r (pprec o)
    else []
  | _ => []

def lenC : Ast → Nat
  | .bin o l r => if isCmpOp o then (if contC l then lenC l else 0) + 1 else 0
  | _ => 0

def graftC (acc : Ast) : Ast → Ast
  | .bin o l r =>
    if isCmpOp o then .bin o (if contC l then graftC acc l else acc) r else acc
  | _ => acc

def contT (pp : Nat) : Ast → Bool
  | .bin o2 _ _ => isTermOp o2 && !(decide (pprec o2 < pp))
  | _ => false

def headT : Ast → Ast
  | .bin o l r =>
    if isTermOp o then (if contT (pprec o) l then headT l else l) else .bin o l r
  | t => t

def headTpp : Ast → Nat → Nat
  | .bin o l r, pp =>
    if isTermOp o then (if contT (pprec o) l then headTpp l (pprec o) else pprec o)
    else pp
  | _, pp => pp

def afterT : Ast → List Tok
  | .bin o l r =>
    if isTermOp o then
      (if contT (pprec o) l then afterT l else []) ++ .opT o :: toksE r (pprec o)
    else []
  | _ => []

def lenT : Ast → Nat
  | .bin o l r => if isTermOp o then (if contT (pprec o) l then lenT l else 0) + 1 else 0
  | _ => 0

def graftT (acc : Ast) : Ast → Ast
  | .bin o l r =>
    if isTermOp o then .bin o (if contT (pprec o) l then graftT acc l else acc) r
    else acc
  | _ => acc

def contF : Ast → Bool
  | .bin o2 _ _ => isFacOp o2
  | _ => false

def headF : Ast → Ast
  | .bin o l r => if isFacOp o then (if contF l then headF l else l) else .bin o l r
  | t => t

def afterF : Ast → List Tok
  | .bin o l r =>
    if isFacOp o then
      (if contF l then afterF l else []) ++ .opT o :: toksE r (pprec o)
    else []
  | _ => []

def lenF : Ast → Nat
  | .bin o l r => if isFacOp o then (if contF l then lenF l else 0) + 1 else 0
  | _ => 0

def graftF (acc : Ast) : Ast → Ast
  | .bin o l r =>
    if isFacOp o then .bin o (if contF l then graftF acc l else acc) r else acc
  | _ => acc

end XL

namespace XL

theorem pprec_ge1 (o : Op) : 1 ≤ pprec o := by
  cases o <;> simp [pprec]

theorem cmpPrec {o : Op} (h : isCmpOp o = true) : pprec o = 1 := by
  cases o <;> first | rfl | exact absurd h (by simp [isCmpOp])

theorem facPrec {o : Op} (h : isFacOp o = true) : pprec o = 4 := by
  cases o <;> first | rfl | exact absurd h (by simp [isFacOp])

theorem termPrec {o : Op} (h : isTermOp o = true) :
    pprec o = 2 ∨ pprec o = 3 := by
  cases o <;> first
    | exact Or.inl rfl
    | exact Or.inr rfl
    | exact absurd h (by simp [isTermOp])

theorem pprec_lt2_notTerm {o : Op} (h : pprec o < 2) : isTermOp o = false := by
  cases o <;> first | rfl | (simp [pprec] at h)

theorem pprec_lt4_notFac {o : Op} (h : pprec o < 4) : isFacOp o = false := by
  cases o <;> first | rfl | (simp [pprec] at h)

theorem pprec_lt5_notPow {o : Op} (h : pprec o < 5) : o ≠ .pow := by
  intro he
  subst he
  simp [pprec] at h

theorem restLT_mono {j k : Nat} (hjk : j ≤ k) {rest : List Tok}
    (h : restLT j rest) : restLT k rest :=
  fun o r' he => Nat.lt_of_lt_of_le (h o r' he) hjk

theorem good_bin {o : Op} {l r : Ast} (h : good (.bin o l r) = true) :
    good l = true ∧ good r = true := by
  simp only [good, Bool.and_eq_true] at h
  exact h.1

theorem good_call {n : String} {args : Args} (h : good (.call n args) = true) :
    goodArgs args = true := by
  simpa [good] using h

theorem goodArgs_cons {a : Ast} {t : Args} (h : goodArgs (.cons a t) = true) :
    good a = true ∧ goodArgs t = true := by
  simpa [goodArgs, Bool.and_eq_true] using h

/-- The printed token segment of a tree is nonempty and never begins
with `)` or `;` or an operator token. -/
theorem toksE_head : ∀ (t : Ast) (pp : Nat),
    ∃ tk r, toksE t pp = tk :: r ∧ tk ≠ .rpar ∧ tk ≠ .semi ∧ ∀ o, tk ≠ .opT o
  | .num s, _ => ⟨.numT s, [], rfl, by simp, by simp, by simp⟩
  | .str s, _ => ⟨.strT s, [], rfl, by simp, by simp, by simp⟩
  | .cell s, _ => ⟨.cellT s, [], rfl, by simp, by simp, by simp⟩
  | .call n args, _ =>
    ⟨.nameT n, _, rfl, by simp, by simp, by simp⟩
  | .bin o l r, pp => by
    by_cases hc : pprec o < pp
    · refine ⟨.lpar, (toksE l (pprec o) ++ .opT o :: toksE r (pprec o)) ++ [.rpar],
        ?_, by simp, by simp, by simp⟩
      simp [toksE, hc]
    · obtain ⟨tk, rl, hl, h1, h2, h3⟩ := toksE_head l (pprec o)
      refine ⟨tk, rl ++ (.opT o :: toksE r (pprec o)), ?_, h1, h2, h3⟩
      simp [toksE, hc, hl]

theorem toksE_len_pos (t : Ast) (pp : Nat) : 1 ≤ (toksE t pp).length := by
  obtain ⟨tk, r, he, -⟩ := toksE_head t pp
  simp [he]

/-- The unparenthesized body of a binary node equals its print at
precedence 0. -/
theorem toksE_bin_zero {o : Op} {l r : Ast} :
    toksE (.bin o l r) 0 =
      toksE l (pprec o) ++ .opT o :: toksE r (pprec o) := by
  simp [toksE]

/-! Spine decomposition lemmas. -/

theorem cmp_decomp : ∀ (t : Ast), contC t = true → ∀ pp, pp ≤ 1 →
    toksE t pp = toksE (headC t) 1 ++ afterC t
  | .bin o l r, hc, pp, hpp => by
    have ho : isCmpOp o = true := by simpa [contC] using hc
    have hprec := cmpPrec ho
    have hnp : ¬ pprec o < pp := by omega
    by_cases hl : contC l
    · have ih := cmp_decomp l hl (pprec o) (by omega)
      simp only [toksE, if_neg hnp, headC, afterC, ho, if_pos hl, if_true]
      rw [ih]
      simp [List.append_assoc]
    · simp only [toksE, if_neg hnp, headC, afterC, ho, if_neg hl, if_true]
      rw [hprec]
      simp
  | .num _, hc, _, _ => by simp [contC] at hc
  | .str _, hc, _, _ => by simp [contC] at hc
  | .cell _, hc, _, _ => by simp [contC] at hc
  | .call _ _, hc, _, _ => by simp [contC] at hc

theorem term_decomp : ∀ (t : Ast) (pp : Nat), contT pp t = true →
    toksE t pp = toksE (headT t) (headTpp t pp) ++ afterT t
  | .bin o l r, pp, hc => by
    have ho : isTermOp o = true ∧ ¬ (pprec o < pp) := by
      simpa [contT, Bool.and_eq_true] using hc
    by_cases hl : contT (pprec o) l
    · have ih := term_decomp l (pprec o) hl
      simp only [toksE, if_neg ho.2, headT, headTpp, afterT, ho.1, if_pos hl,
        if_true]
      rw [ih]
      simp [List.append_assoc]
    · simp only [toksE, if_neg ho.2, headT, headTpp, afterT, ho.1, if_neg hl,
        if_true]
      simp
  | .num _, _, hc => by simp [contT] at hc
  | .str _, _, hc => by simp [contT] at hc
  | .cell _, _, hc => by simp [contT] at hc
  | .call _ _, _, hc => by simp [contT] at hc

theorem fac_decomp : ∀ (t : Ast), contF t = true → ∀ pp, pp ≤ 4 →
    toksE t pp = toksE (headF t) 4 ++ afterF t
  | .bin o l r, hc, pp, hpp => by
    have ho : isFacOp o = true := by simpa [contF] using hc
    have hprec := facPrec ho
    have hnp : ¬ pprec o < pp := by omega
    by_cases hl : contF l
    · have ih := fac_decomp l hl (pprec o) (by omega)
      simp only [toksE, if_neg hnp, headF, afterF, ho, if_pos hl, if_true]
      rw [ih]
      simp [List.append_assoc]
    · simp only [toksE, if_neg hnp, headF, afterF, ho, if_neg hl, if_true]
      rw [hprec]
      simp
  | .num _, hc, _, _ => by simp [contF] at hc
  | .str _, hc, _, _ => by simp [contF] at hc
  | .cell _, hc, _, _ => by simp [contF] at hc
  | .call _ _, hc, _, _ => by simp [contF] at hc

end XL

namespace XL

theorem headC_shape : ∀ (t : Ast), contC t = true → termOK (headC t) 1 = true
  | .bin o l r, hc => by
    have ho : isCmpOp o = true := by simpa [contC] using hc
    by_cases hl : contC l
    · simp only [headC, ho, if_pos hl, if_true]
      exact headC_shape l hl
    · simp only [headC, ho, if_neg hl, if_true]
      rcases l with _ | _ | _ | _ | ⟨o2, l2, r2⟩ <;> try rfl
      have ho2 : isCmpOp o2 = false := by simpa [contC] using hl
      simp only [termOK, Bool.or_eq_true]
      cases o2 <;> first
        | (right; rfl)
        | (left; right; rfl)
        | (left; left; right; rfl)
        | (simp [isCmpOp] at ho2)
  | .num _, hc => by simp [contC] at hc
  | .str _, hc => by simp [contC] at hc
  | .cell _, hc => by simp [contC] at hc
  | .call _ _, hc => by simp [contC] at hc

theorem headC_good : ∀ (t : Ast), contC t = true → good t = true →
    good (headC t) = true
  | .bin o l r, hc, hg => by
    have ho : isCmpOp o = true := by simpa [contC] using hc
    obtain ⟨hgl, -⟩ := good_bin hg
    by_cases hl : contC l
    · simp only [headC, ho, if_pos hl, if_true]
      exact headC_good l hl hgl
    · simpa only [headC, ho, if_neg hl, if_true] using hgl
  | .num _, hc, _ => by simp [contC] at hc
  | .str _, hc, _ => by simp [contC] at hc
  | .cell _, hc, _ => by simp [contC] at hc
  | .call _ _, hc, _ => by simp [contC] at hc

theorem headT_shape : ∀ (t : Ast) (pp : Nat), contT pp t = true →
    facOK (headT t) (headTpp t pp) = true
  | .bin o l r, pp, hc => by
    have ho : isTermOp o = true ∧ ¬ (pprec o < pp) := by
      simpa [contT, Bool.and_eq_true] using hc
    by_cases hl : contT (pprec o) l
    · simp only [headT, headTpp, ho.1, if_pos hl, if_true]
      exact headT_shape l (pprec o) hl
    · simp only [headT, headTpp, ho.1, if_neg hl, if_true]
      rcases l with _ | _ | _ | _ | ⟨o2, l2, r2⟩ <;> try rfl
      have hl' : isTermOp o2 = false ∨ pprec o2 < pprec o := by
        by_cases h2 : isTermOp o2
        · right
          by_contra hno
          exact hl (by simp [contT, h2, hno])
        · exact Or.inl (Bool.eq_false_iff.mpr h2)
      simp only [facOK, Bool.or_eq_true, decide_eq_true_eq]
      rcases hl' with h2 | h2
      · cases o2 <;> first
          | (right; rfl)
          | (left; right; rfl)
          | (left; left
             rcases termPrec ho.1 with hp | hp <;> rw [hp] <;> decide)
          | (simp [isTermOp] at h2)
      · exact Or.inl (Or.inl h2)
  | .num _, _, hc => by simp [contT] at hc
  | .str _, _, hc => by simp [contT] at hc
  | .cell _, _, hc => by simp [contT] at hc
  | .call _ _, _, hc => by simp [contT] at hc

theorem headT_good : ∀ (t : Ast) (pp : Nat), contT pp t = true →
    good t = true → good (headT t) = true
  | .bin o l r, pp, hc, hg => by
    have ho : isTermOp o = true ∧ ¬ (pprec o < pp) := by
      simpa [contT, Bool.and_eq_true] using hc
    obtain ⟨hgl, -⟩ := good_bin hg
    by_cases hl : contT (pprec o) l
    · simp only [headT, ho.1, if_pos hl, if_true]
      exact headT_good l (pprec o) hl hgl
    · simpa only [headT, ho.1, if_neg hl, if_true] using hgl
  | .num _, _, hc, _ => by simp [contT] at hc
  | .str _, _, hc, _ => by simp [contT] at hc
  | .cell _, _, hc, _ => by simp [contT] at hc
  | .call _ _, _, hc, _ => by simp [contT] at hc

theorem headF_shape : ∀ (t : Ast), contF t = true →
    powOK (headF t) 4 = true
  | .bin o l r, hc => by
    have ho : isFacOp o = true := by simpa [contF] using hc
    by_cases hl : contF l
    · simp only [headF, ho, if_pos hl, if_true]
      exact headF_shape l hl
    · simp only [headF, ho, if_neg hl, if_true]
      rcases l with _ | _ | _ | _ | ⟨o2, l2, r2⟩ <;> try rfl
      have ho2 : isFacOp o2 = false := by simpa [contF] using hl
      simp only [powOK, Bool.or_eq_true, decide_eq_true_eq]
      cases o2 <;> first
        | (right; rfl)
        | (left; decide)
        | (simp [isFacOp] at ho2)
  | .num _, hc => by simp [contF] at hc
  | .str _, hc => by simp [contF] at hc
  | .cell _, hc => by simp [contF] at hc
  | .call _ _, hc => by simp [contF] at hc

theorem headF_good : ∀ (t : Ast), contF t = true → good t = true →
    good (headF t) = true
  | .bin o l r, hc, hg => by
    have ho : isFacOp o = true := by simpa [contF] using hc
    obtain ⟨hgl, -⟩ := good_bin hg
    by_cases hl : contF l
    · simp only [headF, ho, if_pos hl, if_true]
      exact headF_good l hl hgl
    · simpa only [headF, ho, if_neg hl, if_true] using hgl
  | .num _, hc, _ => by simp [contF] at hc
  | .str _, hc, _ => by simp [contF] at hc
  | .cell _, hc, _ => by simp [contF] at hc
  | .call _ _, hc, _ => by simp [contF] at hc

end XL

namespace XL

theorem graftC_headC : ∀ (t : Ast), contC t = true → graftC (headC t) t = t
  | .bin o l r, hc => by
    have ho : isCmpOp o = true := by simpa [contC] using hc
    by_cases hl : contC l
    · simp only [headC, graftC, ho, if_pos hl, if_true]
      rw [graftC_headC l hl]
    · simp only [headC, graftC, ho, if_neg hl, if_true]
  | .num _, hc => by simp [contC] at hc
  | .str _, hc => by simp [contC] at hc
  | .cell _, hc => by simp [contC] at hc
  | .call _ _, hc => by simp [contC] at hc

theorem graftT_headT : ∀ (t : Ast) (pp : Nat), contT pp t = true →
    graftT (headT t) t = t
  | .bin o l r, pp, hc => by
    have ho : isTermOp o = true ∧ ¬ (pprec o < pp) := by
      simpa [contT, Bool.and_eq_true] using hc
    by_cases hl : contT (pprec o) l
    · simp only [headT, graftT, ho.1, if_pos hl, if_true]
      rw [graftT_headT l (pprec o) hl]
    · simp only [headT, graftT, ho.1, if_neg hl, if_true]
  | .num _, _, hc => by simp [contT] at hc
  | .str _, _, hc => by simp [contT] at hc
  | .cell _, _, hc => by simp [contT] at hc
  | .call _ _, _, hc => by simp [contT] at hc

theorem graftF_headF : ∀ (t : Ast), contF t = true → graftF (headF t) t = t
  | .bin o l r, hc => by
    have ho : isFacOp o = true := by simpa [contF] using hc
    by_cases hl : contF l
    · simp only [headF, graftF, ho, if_pos hl, if_true]
      rw [graftF_headF l hl]
    · simp only [headF, graftF, ho, if_neg hl, if_true]
  | .num _, hc => by simp [contF] at hc
  | .str _, hc => by simp [contF] at hc
  | .cell _, hc => by simp [contF] at hc
  | .call _ _, hc => by simp [contF] at hc

theorem afterC_head : ∀ (t : Ast), contC t = true →
    ∃ o r', afterC t = .opT o :: r' ∧ isCmpOp o = true
  | .bin o l r, hc => by
    have ho : isCmpOp o = true := by simpa [contC] using hc
    by_cases hl : contC l
    · obtain ⟨o2, r', he, h2⟩ := afterC_head l hl
      exact ⟨o2, r' ++ .opT o :: toksE r (pprec o),
        by simp [afterC, ho, hl, he], h2⟩
    · exact ⟨o, toksE r (pprec o), by simp [afterC, ho, hl], ho⟩
  | .num _, hc => by simp [contC] at hc
  | .str _, hc => by simp [contC] at hc
  | .cell _, hc => by simp [contC] at hc
  | .call _ _, hc => by simp [contC] at hc

theorem afterT_head : ∀ (t : Ast) (pp : Nat), contT pp t = true →
    ∃ o r', afterT t = .opT o :: r' ∧ isTermOp o = true
  | .bin o l r, pp, hc => by
    have ho : isTermOp o = true ∧ ¬ (pprec o < pp) := by
      simpa [contT, Bool.and_eq_true] using hc
    by_cases hl : contT (pprec o) l
    · obtain ⟨o2, r', he, h2⟩ := afterT_head l (pprec o) hl
      exact ⟨o2, r' ++ .opT o :: toksE r (pprec o),
        by simp [afterT, ho.1, hl, he], h2⟩
    · exact ⟨o, toksE r (pprec o), by simp [afterT, ho.1, hl], ho.1⟩
  | .num _, _, hc => by simp [contT] at hc
  | .str _, _, hc => by simp [contT] at hc
  | .cell _, _, hc => by simp [contT] at hc
  | .call _ _, _, hc => by simp [contT] at hc

theorem afterF_head : ∀ (t : Ast), contF t = true →
    ∃ o r', afterF t = .opT o :: r' ∧ isFacOp o = true
  | .bin o l r, hc => by
    have ho : isFacOp o = true := by simpa [contF] using hc
    by_cases hl : contF l
    · obtain ⟨o2, r', he, h2⟩ := afterF_head l hl
      exact ⟨o2, r' ++ .opT o :: toksE r (pprec o),
        by simp [afterF, ho, hl, he], h2⟩
    · exact ⟨o, toksE r (pprec o), by simp [afterF, ho, hl], ho⟩
  | .num _, hc => by simp [contF] at hc
  | .str _, hc => by simp [contF] at hc
  | .cell _, hc => by simp [contF] at hc
  | .call _ _, hc => by simp [contF] at hc

theorem lenC_le : ∀ (t : Ast), lenC t ≤ (afterC t).length
  | .bin o l r => by
    by_cases ho : isCmpOp o
    · by_cases hl : contC l
      · have := lenC_le l
        simp [lenC, afterC, ho, hl, List.length_append]
        omega
      · simp [lenC, afterC, ho, hl]
    · simp [lenC, afterC, ho]
  | .num _ => by simp [lenC, afterC]
  | .str _ => by simp [lenC, afterC]
  | .cell _ => by simp [lenC, afterC]
  | .call _ _ => by simp [lenC, afterC]

theorem lenT_le : ∀ (t : Ast), lenT t ≤ (afterT t).length
  | .bin o l r => by
    by_cases ho : isTermOp o
    · by_cases hl : contT (pprec o) l
      · have := lenT_le l
        simp [lenT, afterT, ho, hl, List.length_append]
        omega
      · simp [lenT, afterT, ho, hl]
    · simp [lenT, afterT, ho]
  | .num _ => by simp [lenT, afterT]
  | .str _ => by simp [lenT, afterT]
  | .cell _ => by simp [lenT, afterT]
  | .call _ _ => by simp [lenT, afterT]

theorem lenF_le : ∀ (t : Ast), lenF t ≤ (afterF t).length
  | .bin o l r => by
    by_cases ho : isFacOp o
    · by_cases hl : contF l
      · have := lenF_le l
        simp [lenF, afterF, ho, hl, List.length_append]
        omega
      · simp [lenF, afterF, ho, hl]
    · simp [lenF, afterF, ho]
  | .num _ => by simp [lenF, afterF]
  | .str _ => by simp [lenF, afterF]
  | .cell _ => by simp [lenF, afterF]
  | .call _ _ => by simp [lenF, afterF]

/-! Right-operand shapes from `good`. -/

theorem cmp_right_termOK {o : Op} {l r : Ast} (ho : isCmpOp o = true)
    (hg : good (.bin o l r) = true) : termOK r 1 = true := by
  simp only [good, Bool.and_eq_true] at hg
  have hne : o ≠ .pow := by
    intro he
    rw [he] at ho
    exact absurd ho (by simp [isCmpOp])
  rw [if_neg hne] at hg
  rcases r with _ | _ | _ | _ | ⟨o2, l2, r2⟩ <;> try rfl
  have h2 := hg.2
  simp only [Bool.or_eq_true, decide_eq_true_eq] at h2
  simp only [termOK, Bool.or_eq_true, decide_eq_true_eq]
  rcases h2 with h2 | h2
  · rw [cmpPrec ho] at h2
    omega
  · have hg1 : gtier o = 1 := by
      cases o <;> first | rfl | (simp [isCmpOp] at ho)
    rw [hg1] at h2
    cases o2 <;> first
      | (left; left; right; rfl)
      | (left; right; rfl)
      | (right; rfl)
      | (simp [gtier] at h2)

theorem term_right_facOK {o : Op} {l r : Ast} (ho : isTermOp o = true)
    (hg : good (.bin o l r) = true) : facOK r (pprec o) = true := by
  simp only [good, Bool.and_eq_true] at hg
  have hne : o ≠ .pow := by
    intro he
    rw [he] at ho
    exact absurd ho (by simp [isTermOp])
  rw [if_neg hne] at hg
  rcases r with _ | _ | _ | _ | ⟨o2, l2, r2⟩ <;> try rfl
  have h2 := hg.2
  simp only [Bool.or_eq_true, decide_eq_true_eq] at h2
  simp only [facOK, Bool.or_eq_true, decide_eq_true_eq]
  rcases h2 with h2 | h2
  · exact Or.inl (Or.inl h2)
  · have hg2 : gtier o = 2 := by
      cases o <;> first | rfl | (simp [isTermOp] at ho)
    rw [hg2] at h2
    cases o2 <;> first
      | (right; rfl)
      | (left; right; rfl)
      | (left; left
         rcases termPrec ho with hp | hp <;> rw [hp] <;> decide)
      | (simp [gtier] at h2)

theorem fac_right_powOK {o : Op} {l r : Ast} (ho : isFacOp o = true)
    (hg : good (.bin o l r) = true) : powOK r (pprec o) = true := by
  simp only [good, Bool.and_eq_true] at hg
  have hne : o ≠ .pow := by
    intro he
    rw [he] at ho
    exact absurd ho (by simp [isFacOp])
  rw [if_neg hne] at hg
  rcases r with _ | _ | _ | _ | ⟨o2, l2, r2⟩ <;> try rfl
  have h2 := hg.2
  simp only [Bool.or_eq_true, decide_eq_true_eq] at h2
  simp only [powOK, Bool.or_eq_true, decide_eq_true_eq]
  rcases h2 with h2 | h2
  · exact Or.inl h2
  · have hg3 : gtier o = 3 := by
      cases o <;> first | rfl | (simp [isFacOp] at ho)
    rw [hg3] at h2
    rw [facPrec ho]
    cases o2 <;> first
      | (right; rfl)
      | (left; decide)
      | (simp [gtier] at h2)

theorem powOK5 (r : Ast) : powOK r 5 = true := by
  rcases r with _ | _ | _ | _ | ⟨o2, l2, r2⟩ <;> try rfl
  simp only [powOK, Bool.or_eq_true, decide_eq_true_eq]
  cases o2 <;> first
    | (right; rfl)
    | (left; decide)

theorem pow_left_atomOK {l r : Ast} (hg : good (.bin .pow l r) = true) :
    atomOK l 5 = true := by
  simp only [good, Bool.and_eq_true] at hg
  rw [if_pos trivial] at hg
  have h2 := hg.2
  rcases l with _ | _ | _ | _ | ⟨o2, l2, r2⟩ <;> try rfl
  simp only [atomOK, decide_eq_true_eq]
  cases o2 <;> first
    | (decide)
    | (simp at h2)

/-! Loop stopping lemmas. -/

theorem cmpLoop_stop {fuel : Nat} {acc : Ast} {rest : List Tok}
    (hf : 1 ≤ fuel) (hr : restLT 1 rest) :
    parseCmpLoop fuel acc rest = some (acc, rest) := by
  rcases fuel with _ | g
  · omega
  rcases rest with _ | ⟨tk, r'⟩
  · rfl
  cases tk with
  | opT o =>
    have := hr o r' rfl
    have := pprec_ge1 o
    omega
  | lpar => rfl
  | rpar => rfl
  | semi => rfl
  | numT s => rfl
  | strT s => rfl
  | cellT s => rfl
  | nameT s => rfl

theorem termLoop_stop {fuel : Nat} {acc : Ast} {rest : List Tok}
    (hf : 1 ≤ fuel) (hr : restLT 2 rest) :
    parseTermLoop fuel acc rest = some (acc, rest) := by
  rcases fuel with _ | g
  · omega
  rcases rest with _ | ⟨tk, r'⟩
  · rfl
  cases tk with
  | opT o =>
    have h1 := hr o r' rfl
    have h2 := pprec_lt2_notTerm h1
    simp [parseTermLoop, h2]
  | lpar => rfl
  | rpar => rfl
  | semi => rfl
  | numT s => rfl
  | strT s => rfl
  | cellT s => rfl
  | nameT s => rfl

theorem facLoop_stop {fuel : Nat} {acc : Ast} {rest : List Tok}
    (hf : 1 ≤ fuel) (hr : restLT 4 rest) :
    parseFacLoop fuel acc rest = some (acc, rest) := by
  rcases fuel with _ | g
  · omega
  rcases rest with _ | ⟨tk, r'⟩
  · rfl
  cases tk with
  | opT o =>
    have h1 := hr o r' rfl
    have h2 := pprec_lt4_notFac h1
    simp [parseFacLoop, h2]
  | lpar => rfl
  | rpar => rfl
  | semi => rfl
  | numT s => rfl
  | strT s => rfl
  | cellT s => rfl
  | nameT s => rfl

end XL

namespace XL

theorem contC_false_nil {t : Ast} (h : contC t = false) :
    afterC t = [] ∧ lenC t = 0 ∧ ∀ acc, graftC acc t = acc := by
  rcases t with _ | _ | _ | _ | ⟨o, l, r⟩ <;>
    try exact ⟨rfl, rfl, fun _ => rfl⟩
  have ho : isCmpOp o = false := by simpa [contC] using h
  refine ⟨?_, ?_, fun acc => ?_⟩ <;> simp [afterC, lenC, graftC, ho]

theorem contT_false_nil {t : Ast} {pp : Nat} (h : contT pp t = false)
    (hun : ∀ o l r, t = .bin o l r → ¬ (pprec o < pp)) :
    afterT t = [] ∧ lenT t = 0 ∧ ∀ acc, graftT acc t = acc := by
  rcases t with _ | _ | _ | _ | ⟨o, l, r⟩ <;>
    try exact ⟨rfl, rfl, fun _ => rfl⟩
  have ho : isTermOp o = false := by
    have h2 := hun o l r rfl
    rcases hb : isTermOp o
    · rfl
    · exfalso
      apply absurd h
      simp [contT, hb, h2]
  refine ⟨?_, ?_, fun acc => ?_⟩ <;> simp [afterT, lenT, graftT, ho]

theorem contF_false_nil {t : Ast} (h : contF t = false) :
    afterF t = [] ∧ lenF t = 0 ∧ ∀ acc, graftF acc t = acc := by
  rcases t with _ | _ | _ | _ | ⟨o, l, r⟩ <;>
    try exact ⟨rfl, rfl, fun _ => rfl⟩
  have ho : isFacOp o = false := by simpa [contF] using h
  refine ⟨?_, ?_, fun acc => ?_⟩ <;> simp [afterF, lenF, graftF, ho]

theorem headC_size : ∀ (t : Ast), contC t = true → sizeA (headC t) < sizeA t
  | .bin o l r, hc => by
    have ho : isCmpOp o = true := by simpa [contC] using hc
    by_cases hl : contC l
    · have := headC_size l hl
      simp only [headC, ho, if_pos hl, if_true, sizeA]
      omega
    · simp only [headC, ho, if_neg hl, if_true, sizeA]
      omega
  | .num _, hc => by simp [contC] at hc
  | .str _, hc => by simp [contC] at hc
  | .cell _, hc => by simp [contC] at hc
  | .call _ _, hc => by simp [contC] at hc

theorem headT_size : ∀ (t : Ast) (pp : Nat), contT pp t = true →
    sizeA (headT t) < sizeA t
  | .bin o l r, pp, hc => by
    have ho : isTermOp o = true ∧ ¬ (pprec o < pp) := by
      simpa [contT, Bool.and_eq_true] using hc
    by_cases hl : contT (pprec o) l
    · have := headT_size l (pprec o) hl
      simp only [headT, ho.1, if_pos hl, if_true, sizeA]
      omega
    · simp only [headT, ho.1, if_neg hl, if_true, sizeA]
      omega
  | .num _, _, hc => by simp [contT] at hc
  | .str _, _, hc => by simp [contT] at hc
  | .cell _, _, hc => by simp [contT] at hc
  | .call _ _, _, hc => by simp [contT] at hc

theorem headF_size : ∀ (t : Ast), contF t = true → sizeA (headF t) < sizeA t
  | .bin o l r, hc => by
    have ho : isFacOp o = true := by simpa [contF] using hc
    by_cases hl : contF l
    · have := headF_size l hl
      simp only [headF, ho, if_pos hl, if_true, sizeA]
      omega
    · simp only [headF, ho, if_neg hl, if_true, sizeA]
      omega
  | .num _, hc => by simp [contF] at hc
  | .str _, hc => by simp [contF] at hc
  | .cell _, hc => by simp [contF] at hc
  | .call _ _, hc => by simp [contF] at hc

theorem restLT1_sep (args : Args) (rest : List Tok) :
    restLT 1 (toksSep args ++ .rpar :: rest) := by
  intro o r' he
  rcases args with _ | ⟨a, t⟩
  · simp [toksSep] at he
  · simp [toksSep] at he

theorem restLT2_afterC {t : Ast} (hc : contC t = true) (rest : List Tok)
    (hrest : restLT 2 rest) : restLT 2 (afterC t ++ rest) := by
  obtain ⟨o0, r0, he, h0⟩ := afterC_head t hc
  intro o r' heq
  rw [he] at heq
  simp only [List.cons_append] at heq
  injection heq with e1 e2
  injection e1 with e3
  rw [← e3, cmpPrec h0]
  omega

theorem restLT4_afterT {t : Ast} {pp : Nat} (hc : contT pp t = true)
    (rest : List Tok) : restLT 4 (afterT t ++ rest) := by
  obtain ⟨o0, r0, he, h0⟩ := afterT_head t pp hc
  intro o r' heq
  rw [he] at heq
  simp only [List.cons_append] at heq
  injection heq with e1 e2
  injection e1 with e3
  rw [← e3]
  rcases termPrec h0 with hp | hp <;> omega

theorem restLT5_afterF {t : Ast} (hc : contF t = true)
    (rest : List Tok) : restLT 5 (afterF t ++ rest) := by
  obtain ⟨o0, r0, he, h0⟩ := afterF_head t hc
  intro o r' heq
  rw [he] at heq
  simp only [List.cons_append] at heq
  injection heq with e1 e2
  injection e1 with e3
  rw [← e3, facPrec h0]
  omega

end XL

namespace XL

theorem sizeA_pos : ∀ (t : Ast), 1 ≤ sizeA t
  | .num _ | .str _ | .cell _ => le_refl 1
  | .call _ _ => by simp [sizeA]
  | .bin _ _ _ => by simp only [sizeA]; omega

/-- Completeness claims, per grammar tier, at a fixed print context. -/
def ClaimAat (t : Ast) (pp : Nat) : Prop :=
  ∀ (fuel : Nat) (rest : List Tok), good t = true → atomOK t pp = true →
    5 * (toksE t pp).length + 1 ≤ fuel →
    parseAtom fuel (toksE t pp ++ rest) = some (t, rest)

def ClaimPat (t : Ast) (pp : Nat) : Prop :=
  ∀ (fuel : Nat) (rest : List Tok), good t = true → powOK t pp = true →
    5 * (toksE t pp).length + 2 ≤ fuel → restLT 5 rest →
    parsePow fuel (toksE t pp ++ rest) = some (t, rest)

def ClaimFat (t : Ast) (pp : Nat) : Prop :=
  ∀ (fuel : Nat) (rest : List Tok), good t = true → facOK t pp = true →
    5 * (toksE t pp).length + 3 ≤ fuel → restLT 4 rest →
    parseFac fuel (toksE t pp ++ rest) = some (t, rest)

def ClaimTat (t : Ast) (pp : Nat) : Prop :=
  ∀ (fuel : Nat) (rest : List Tok), good t = true → termOK t pp = true →
    5 * (toksE t pp).length + 4 ≤ fuel → restLT 2 rest →
    parseTerm fuel (toksE t pp ++ rest) = some (t, rest)

def ClaimCat (t : Ast) (pp : Nat) : Prop :=
  ∀ (fuel : Nat) (rest : List Tok), good t = true →
    5 * (toksE t pp).length + 5 ≤ fuel → restLT 1 rest →
    parseCmp fuel (toksE t pp ++ rest) = some (t, rest)

def ClaimArgs (args : Args) : Prop :=
  ∀ (n : String) (acc : List Ast) (fuel : Nat) (rest : List Tok),
    goodArgs args = true →
    5 * (toksSep args).length + 6 ≤ fuel →
    parseArgs fuel n acc (toksSep args ++ .rpar :: rest) =
      some (.call n (argsOf (acc.reverse ++ listOf args)), rest)

def TreeClaims (t : Ast) : Prop :=
  (∀ pp, ClaimAat t pp) ∧ (∀ pp, ClaimPat t pp) ∧ (∀ pp, ClaimFat t pp) ∧
    (∀ pp, ClaimTat t pp) ∧ (∀ pp, ClaimCat t pp)

theorem loopC_trans : ∀ (t : Ast),
    (∀ u, sizeA u < sizeA t → ∀ pp, ClaimTat u pp) →
    ∀ (fuel : Nat) (acc : Ast) (rest : List Tok), good t = true →
    5 * (afterC t).length + 1 ≤ fuel → restLT 2 rest →
    parseCmpLoop fuel acc (afterC t ++ rest) =
      parseCmpLoop (fuel - lenC t) (graftC acc t) rest
  | .num s, _, fuel, acc, rest, _, _, _ => by simp [afterC, lenC, graftC]
  | .str s, _, fuel, acc, rest, _, _, _ => by simp [afterC, lenC, graftC]
  | .cell s, _, fuel, acc, rest, _, _, _ => by simp [afterC, lenC, graftC]
  | .call n args, _, fuel, acc, rest, _, _, _ => by simp [afterC, lenC, graftC]
  | .bin o l r, hT, fuel, acc, rest, hg, hfuel, hrest => by
    by_cases ho : isCmpOp o = true
    · obtain ⟨hgl, hgr⟩ := good_bin hg
      have hafter : afterC (.bin o l r) =
          afterC l ++ .opT o :: toksE r (pprec o) := by
        by_cases hl : contC l
        · simp [afterC, ho, hl]
        · obtain ⟨h1, -, -⟩ := contC_false_nil (Bool.eq_false_iff.mpr hl)
          simp [afterC, ho, hl, h1]
      have hlen : lenC (.bin o l r) = lenC l + 1 := by
        by_cases hl : contC l
        · simp [lenC, ho, hl]
        · obtain ⟨-, h2, -⟩ := contC_false_nil (Bool.eq_false_iff.mpr hl)
          simp [lenC, ho, hl, h2]
      have hgraft : graftC acc (.bin o l r) = .bin o (graftC acc l) r := by
        by_cases hl : contC l
        · simp [graftC, ho, hl]
        · obtain ⟨-, -, h3⟩ := contC_false_nil (Bool.eq_false_iff.mpr hl)
          simp [graftC, ho, hl, h3 acc]
      have hlsz : sizeA l < sizeA (.bin o l r) := by
        have := sizeA_pos r
        simp only [sizeA]
        omega
      have hrsz : sizeA r < sizeA (.bin o l r) := by
        have := sizeA_pos l
        simp only [sizeA]
        omega
      have hlenA : (afterC (.bin o l r)).length =
          (afterC l).length + 1 + (toksE r (pprec o)).length := by
        rw [hafter]
        simp only [List.length_append, List.length_cons]
        omega
      have hT' : ∀ u, sizeA u < sizeA l → ∀ pp, ClaimTat u pp :=
        fun u hu pp => hT u (by omega) pp
      have hr1 : restLT 2 (.opT o :: (toksE r (pprec o) ++ rest)) := by
        intro o' r' he
        injection he with e1 e2
        injection e1 with e3
        rw [← e3, cmpPrec ho]
        omega
      have ihl := loopC_trans l hT' fuel acc
        (.opT o :: (toksE r (pprec o) ++ rest)) hgl (by omega) hr1
      rw [hafter, List.append_assoc, List.cons_append, ihl]
      have hfl2 : lenC l ≤ (afterC l).length := lenC_le l
      rcases hg2 : fuel - lenC l with _ | g
      · omega
      simp only [parseCmpLoop]
      rw [if_pos ho]
      have hTr := hT r hrsz (pprec o)
      have htermok : termOK r (pprec o) = true := by
        rw [cmpPrec ho]
        exact cmp_right_termOK ho hg
      rw [hTr g rest hgr htermok (by omega) hrest]
      dsimp only
      rw [hlen, hgraft]
      have : fuel - (lenC l + 1) = g := by omega
      rw [this]
    · have hcf : contC (.bin o l r) = false := by
        simp [contC, Bool.eq_false_iff, ho]
      obtain ⟨h1, h2, h3⟩ := contC_false_nil hcf
      rw [h1, h2, h3 acc]
      simp

end XL

namespace XL

theorem loopT_trans : ∀ (t : Ast),
    (∀ u, sizeA u < sizeA t → ∀ pp, ClaimFat u pp) →
    ∀ (fuel : Nat) (acc : Ast) (rest : List Tok), good t = true →
    5 * (afterT t).length + 1 ≤ fuel → restLT 4 rest →
    parseTermLoop fuel acc (afterT t ++ rest) =
      parseTermLoop (fuel - lenT t) (graftT acc t) rest
  | .num s, _, fuel, acc, rest, _, _, _ => by simp [afterT, lenT, graftT]
  | .str s, _, fuel, acc, rest, _, _, _ => by simp [afterT, lenT, graftT]
  | .cell s, _, fuel, acc, rest, _, _, _ => by simp [afterT, lenT, graftT]
  | .call n args, _, fuel, acc, rest, _, _, _ => by simp [afterT, lenT, graftT]
  | .bin o l r, hF, fuel, acc, rest, hg, hfuel, hrest => by
    by_cases ho : isTermOp o = true
    · obtain ⟨hgl, hgr⟩ := good_bin hg
      have hrsz : sizeA r < sizeA (.bin o l r) := by
        have := sizeA_pos l
        simp only [sizeA]
        omega
      have hfacok : facOK r (pprec o) = true := term_right_facOK ho hg
      have hFr := hF r hrsz (pprec o)
      by_cases hl : contT (pprec o) l
      · have hafter : afterT (.bin o l r) =
            afterT l ++ .opT o :: toksE r (pprec o) := by
          simp [afterT, ho, hl]
        have hlen : lenT (.bin o l r) = lenT l + 1 := by
          simp [lenT, ho, hl]
        have hgraft : graftT acc (.bin o l r) = .bin o (graftT acc l) r := by
          simp [graftT, ho, hl]
        have hlsz : sizeA l < sizeA (.bin o l r) := by
          have := sizeA_pos r
          simp only [sizeA]
          omega
        have hlenA : (afterT (.bin o l r)).length =
            (afterT l).length + 1 + (toksE r (pprec o)).length := by
          rw [hafter]
          simp only [List.length_append, List.length_cons]
          omega
        have hF' : ∀ u, sizeA u < sizeA l → ∀ pp, ClaimFat u pp :=
          fun u hu pp => hF u (by omega) pp
        have hr1 : restLT 4 (.opT o :: (toksE r (pprec o) ++ rest)) := by
          intro o' r' he
          injection he with e1 e2
          injection e1 with e3
          rw [← e3]
          rcases termPrec ho with hp | hp <;> omega
        have ihl := loopT_trans l hF' fuel acc
          (.opT o :: (toksE r (pprec o) ++ rest)) hgl (by omega) hr1
        rw [hafter, List.append_assoc, List.cons_append, ihl]
        have hfl2 : lenT l ≤ (afterT l).length := lenT_le l
        rcases hg2 : fuel - lenT l with _ | g
        · omega
        simp only [parseTermLoop]
        rw [if_pos ho]
        rw [hFr g rest hgr hfacok (by omega) hrest]
        dsimp only
        rw [hlen, hgraft]
        have : fuel - (lenT l + 1) = g := by omega
        rw [this]
      · have hafter : afterT (.bin o l r) = .opT o :: toksE r (pprec o) := by
          simp [afterT, ho, hl]
        have hlen : lenT (.bin o l r) = 1 := by
          simp [lenT, ho, hl]
        have hgraft : graftT acc (.bin o l r) = .bin o acc r := by
          simp [graftT, ho, hl]
        have hlenA : (afterT (.bin o l r)).length =
            1 + (toksE r (pprec o)).length := by
          rw [hafter]
          simp only [List.length_cons]
          omega
        rw [hafter, List.cons_append]
        rcases hg2 : fuel with _ | g
        · omega
        simp only [parseTermLoop]
        rw [if_pos ho]
        rw [hFr g rest hgr hfacok (by omega) hrest]
        dsimp only
        rw [hlen, hgraft]
        norm_num
    · have hafter : afterT (.bin o l r) = [] := by
        simp [afterT, ho]
      have hlen : lenT (.bin o l r) = 0 := by
        simp [lenT, ho]
      have hgraft : graftT acc (.bin o l r) = acc := by
        simp [graftT, ho]
      rw [hafter, hlen, hgraft]
      simp

theorem loopF_trans : ∀ (t : Ast),
    (∀ u, sizeA u < sizeA t → ∀ pp, ClaimPat u pp) →
    ∀ (fuel : Nat) (acc : Ast) (rest : List Tok), good t = true →
    5 * (afterF t).length + 1 ≤ fuel → restLT 5 rest →
    parseFacLoop fuel acc (afterF t ++ rest) =
      parseFacLoop (fuel - lenF t) (graftF acc t) rest
  | .num s, _, fuel, acc, rest, _, _, _ => by simp [afterF, lenF, graftF]
  | .str s, _, fuel, acc, rest, _, _, _ => by simp [afterF, lenF, graftF]
  | .cell s, _, fuel, acc, rest, _, _, _ => by simp [afterF, lenF, graftF]
  | .call n args, _, fuel, acc, rest, _, _, _ => by simp [afterF, lenF, graftF]
  | .bin o l r, hP, fuel, acc, rest, hg, hfuel, hrest => by
    by_cases ho : isFacOp o = true
    · obtain ⟨hgl, hgr⟩ := good_bin hg
      have hafter : afterF (.bin o l r) =
          afterF l ++ .opT o :: toksE r (pprec o) := by
        by_cases hl : contF l
        · simp [afterF, ho, hl]
        · obtain ⟨h1, -, -⟩ := contF_false_nil (Bool.eq_false_iff.mpr hl)
          simp [afterF, ho, hl, h1]
      have hlen : lenF (.bin o l r) = lenF l + 1 := by
        by_cases hl : contF l
        · simp [lenF, ho, hl]
        · obtain ⟨-, h2, -⟩ := contF_false_nil (Bool.eq_false_iff.mpr hl)
          simp [lenF, ho, hl, h2]
      have hgraft : graftF acc (.bin o l r) = .bin o (graftF acc l) r := by
        by_cases hl : contF l
        · simp [graftF, ho, hl]
        · obtain ⟨-, -, h3⟩ := contF_false_nil (Bool.eq_false_iff.mpr hl)
          simp [graftF, ho, hl, h3 acc]
      have hlsz : sizeA l < sizeA (.bin o l r) := by
        have := sizeA_pos r
        simp only [sizeA]
        omega
      have hrsz : sizeA r < sizeA (.bin o l r) := by
        have := sizeA_pos l
        simp only [sizeA]
        omega
      have hlenA : (afterF (.bin o l r)).length =
          (afterF l).length + 1 + (toksE r (pprec o)).length := by
        rw [hafter]
        simp only [List.length_append, List.length_cons]
        omega
      have hP' : ∀ u, sizeA u < sizeA l → ∀ pp, ClaimPat u pp :=
        fun u hu pp => hP u (by omega) pp
      have hr1 : restLT 5 (.opT o :: (toksE r (pprec o) ++ rest)) := by
        intro o' r' he
        injection he with e1 e2
        injection e1 with e3
        rw [← e3, facPrec ho]
        omega
      have ihl := loopF_trans l hP' fuel acc
        (.opT o :: (toksE r (pprec o) ++ rest)) hgl (by omega) hr1
      rw [hafter, List.append_assoc, List.cons_append, ihl]
      have hfl2 : lenF l ≤ (afterF l).length := lenF_le l
      rcases hg2 : fuel - lenF l with _ | g
      · omega
      simp only [parseFacLoop]
      rw [if_pos ho]
      have hPr := hP r hrsz (pprec o)
      have hpowok : powOK r (pprec o) = true := fac_right_powOK ho hg
      rw [hPr g rest hgr hpowok (by omega) hrest]
      dsimp only
      rw [hlen, hgraft]
      have : fuel - (lenF l + 1) = g := by omega
      rw [this]
    · have hcf : contF (.bin o l r) = false := by
        simp [contF, Bool.eq_false_iff, ho]
      obtain ⟨h1, h2, h3⟩ := contF_false_nil hcf
      rw [h1, h2, h3 acc]
      simp

end XL

namespace XL

theorem genP (t : Ast) (pp : Nat)
    (hIH : ∀ u, sizeA u < sizeA t → TreeClaims u)
    (hA : ClaimAat t pp) : ClaimPat t pp := by
  intro fuel rest hg hpw hfuel hrest
  have hlp := toksE_len_pos t pp
  rcases fuel with _ | g
  · omega
  simp only [parsePow]
  by_cases hat : atomOK t pp = true
  · rw [hA g rest hg hat (by omega)]
    dsimp only
    rcases rest with _ | ⟨tk, r'⟩
    · rfl
    · cases tk with
      | opT o' =>
        have h5 := hrest o' r' rfl
        have hne := pprec_lt5_notPow h5
        split
        next r2 heq =>
          injection heq with e1 e2
          injection e1 with e3
          exact absurd e3 hne
        next => rfl
      | lpar => rfl
      | rpar => rfl
      | semi => rfl
      | numT s => rfl
      | strT s => rfl
      | cellT s => rfl
      | nameT s => rfl
  · rcases t with _ | _ | _ | _ | ⟨o, l, r⟩ <;>
      try exact absurd rfl hat
    have hnp : ¬ (pprec o < pp) := by
      intro hlt
      exact hat (by simp [atomOK, hlt])
    have hop : o = .pow := by
      simp only [powOK, Bool.or_eq_true, decide_eq_true_eq] at hpw
      rcases hpw with h | h
      · exact absurd h hnp
      · exact h
    subst hop
    obtain ⟨hgl, hgr⟩ := good_bin hg
    have hlsz : sizeA l < sizeA (.bin .pow l r) := by
      have := sizeA_pos r
      simp only [sizeA]
      omega
    have hrsz : sizeA r < sizeA (.bin .pow l r) := by
      have := sizeA_pos l
      simp only [sizeA]
      omega
    have hAl := (hIH l hlsz).1 5
    have hPr := (hIH r hrsz).2.1 5
    have hnp5 : ¬ (5 < pp) := by simpa [pprec] using hnp
    have htok : toksE (.bin .pow l r) pp =
        toksE l 5 ++ .opT .pow :: toksE r 5 := by
      simp [toksE, pprec, hnp5]
    have hlen : (toksE (.bin .pow l r) pp).length =
        (toksE l 5).length + 1 + (toksE r 5).length := by
      rw [htok]
      simp only [List.length_append, List.length_cons]
      omega
    rw [htok, List.append_assoc, List.cons_append]
    rw [hAl g _ hgl (pow_left_atomOK hg) (by omega)]
    dsimp only
    rw [hPr g rest hgr (powOK5 r) (by omega) hrest]

end XL

namespace XL

theorem genF (t : Ast) (pp : Nat)
    (hIH : ∀ u, sizeA u < sizeA t → TreeClaims u)
    (hP : ClaimPat t pp) : ClaimFat t pp := by
  intro fuel rest hg hfo hfuel hrest
  have hlp := toksE_len_pos t pp
  rcases fuel with _ | g
  · omega
  simp only [parseFac]
  by_cases hsp : contF t = true ∧ pp ≤ 4
  · obtain ⟨hct, hpp⟩ := hsp
    have hdec := fac_decomp t hct pp hpp
    have hlen : (toksE t pp).length =
        (toksE (headF t) 4).length + (afterF t).length := by
      rw [hdec]
      simp
    have hPh := (hIH (headF t) (headF_size t hct)).2.1 4
    rw [hdec, List.append_assoc]
    rw [hPh g _ (headF_good t hct hg) (headF_shape t hct) (by omega)
      (restLT5_afterF hct rest)]
    dsimp only
    have hFL := loopF_trans t (fun u hu pp' => (hIH u hu).2.1 pp') g (headF t)
      rest hg (by omega) (restLT_mono (by omega) hrest)
    rw [hFL, graftF_headF t hct]
    have hle := lenF_le t
    exact facLoop_stop (by omega) hrest
  · have hpw : powOK t pp = true := by
      rcases t with _ | _ | _ | _ | ⟨o, l, r⟩ <;> try rfl
      simp only [facOK, Bool.or_eq_true, decide_eq_true_eq] at hfo
      simp only [powOK, Bool.or_eq_true, decide_eq_true_eq]
      rcases hfo with (h | h) | h
      · exact Or.inl h
      · exact Or.inr h
      · left
        rw [facPrec h]
        by_contra hno
        exact hsp ⟨by simp [contF, h], by omega⟩
    rw [hP g rest hg hpw (by omega) (restLT_mono (by omega) hrest)]
    dsimp only
    exact facLoop_stop (by omega) hrest

theorem genT (t : Ast) (pp : Nat)
    (hIH : ∀ u, sizeA u < sizeA t → TreeClaims u)
    (hF : ClaimFat t pp) : ClaimTat t pp := by
  intro fuel rest hg hto hfuel hrest
  have hlp := toksE_len_pos t pp
  rcases fuel with _ | g
  · omega
  simp only [parseTerm]
  by_cases hsp : contT pp t = true
  · have hdec := term_decomp t pp hsp
    have hlen : (toksE t pp).length =
        (toksE (headT t) (headTpp t pp)).length + (afterT t).length := by
      rw [hdec]
      simp
    have hFh := (hIH (headT t) (headT_size t pp hsp)).2.2.1 (headTpp t pp)
    rw [hdec, List.append_assoc]
    rw [hFh g _ (headT_good t pp hsp hg) (headT_shape t pp hsp) (by omega)
      (restLT4_afterT hsp rest)]
    dsimp only
    have hTL := loopT_trans t (fun u hu pp' => (hIH u hu).2.2.1 pp') g (headT t)
      rest hg (by omega) (restLT_mono (by omega) hrest)
    rw [hTL, graftT_headT t pp hsp]
    have hle := lenT_le t
    exact termLoop_stop (by omega) hrest
  · have hfo : facOK t pp = true := by
      rcases t with _ | _ | _ | _ | ⟨o, l, r⟩ <;> try rfl
      simp only [termOK, Bool.or_eq_true, decide_eq_true_eq] at hto
      simp only [facOK, Bool.or_eq_true, decide_eq_true_eq]
      rcases hto with ((h | h) | h) | h
      · exact Or.inl (Or.inl h)
      · exact Or.inl (Or.inr h)
      · exact Or.inr h
      · left
        left
        by_contra hno
        exact hsp (by simp [contT, h, hno])
    rw [hF g rest hg hfo (by omega) (restLT_mono (by omega) hrest)]
    dsimp only
    exact termLoop_stop (by omega) hrest

theorem genC (t : Ast) (pp : Nat)
    (hIH : ∀ u, sizeA u < sizeA t → TreeClaims u)
    (hT : ClaimTat t pp) : ClaimCat t pp := by
  intro fuel rest hg hfuel hrest
  have hlp := toksE_len_pos t pp
  rcases fuel with _ | g
  · omega
  simp only [parseCmp]
  by_cases hsp : contC t = true ∧ pp ≤ 1
  · obtain ⟨hct, hpp⟩ := hsp
    have hdec := cmp_decomp t hct pp hpp
    have hlen : (toksE t pp).length =
        (toksE (headC t) 1).length + (afterC t).length := by
      rw [hdec]
      simp
    have hTh := (hIH (headC t) (headC_size t hct)).2.2.2.1 1
    rw [hdec, List.append_assoc]
    rw [hTh g _ (headC_good t hct hg) (headC_shape t hct) (by omega)
      (restLT2_afterC hct rest (restLT_mono (by omega) hrest))]
    dsimp only
    have hCL := loopC_trans t (fun u hu pp' => (hIH u hu).2.2.2.1 pp') g
      (headC t) rest hg (by omega) (restLT_mono (by omega) hrest)
    rw [hCL, graftC_headC t hct]
    have hle := lenC_le t
    exact cmpLoop_stop (by omega) hrest
  · have hto : termOK t pp = true := by
      rcases t with _ | _ | _ | _ | ⟨o, l, r⟩ <;> try rfl
      simp only [termOK, Bool.or_eq_true, decide_eq_true_eq]
      by_cases hco : isCmpOp o = true
      · left
        left
        left
        rw [cmpPrec hco]
        by_contra hno
        exact hsp ⟨by simp [contC, hco], by omega⟩
      · cases o <;> first
          | (right; rfl)
          | (left; right; rfl)
          | (left; left; right; rfl)
          | (simp [isCmpOp] at hco)
    rw [hT g rest hg hto (by omega) (restLT_mono (by omega) hrest)]
    dsimp only
    exact cmpLoop_stop (by omega) hrest

end XL

namespace XL

theorem claimArgs_nil : ClaimArgs .nil := by
  intro n acc fuel rest hg hfuel
  rcases fuel with _ | g
  · simp [toksSep] at hfuel
  · show parseArgs (g + 1) n acc (toksSep .nil ++ .rpar :: rest) = _
    simp only [toksSep, List.nil_append, parseArgs]
    simp [listOf]

theorem genArgs : ∀ (args : Args),
    (∀ u, sizeA u < 1 + sizeArgs args → ∀ pp, ClaimCat u pp) →
    ClaimArgs args
  | .nil, _ => claimArgs_nil
  | .cons a t', hC => by
    intro n acc fuel rest hg hfuel
    obtain ⟨hga, hgt⟩ := goodArgs_cons hg
    have hlen : (toksSep (.cons a t')).length =
        1 + (toksE a 0).length + (toksSep t').length := by
      simp [toksSep]
      omega
    rcases fuel with _ | g
    · omega
    have hCa := hC a (by simp only [sizeArgs]; omega) 0
    have hrec := genArgs t' (fun u hu pp =>
      hC u (by simp only [sizeArgs] at hu ⊢; omega) pp)
    have he : toksSep (.cons a t') ++ .rpar :: rest =
        .semi :: (toksE a 0 ++ (toksSep t' ++ .rpar :: rest)) := by
      simp [toksSep, List.append_assoc]
    rw [he]
    simp only [parseArgs]
    rw [hCa g _ hga (by omega) (restLT1_sep t' rest)]
    dsimp only
    rw [hrec n (a :: acc) g rest hgt (by omega)]
    simp [listOf, List.append_assoc]

theorem genA (t : Ast) (pp : Nat)
    (hIH : ∀ u, sizeA u < sizeA t → TreeClaims u)
    (hArgs : ∀ args, sizeArgs args < sizeA t → ClaimArgs args)
    (hC0 : ∀ (o : Op) (l r : Ast), t = .bin o l r → pprec o < pp →
      ClaimCat t 0) :
    ClaimAat t pp := by
  intro fuel rest hg hat hfuel
  have hlp := toksE_len_pos t pp
  rcases fuel with _ | g
  · omega
  rcases ht : t with s | s | s | ⟨n, args⟩ | ⟨o, l, r⟩
  · rfl
  · rfl
  · rfl
  · rcases args with _ | ⟨a, t'⟩
    · have he : toksE (.call n .nil) pp ++ rest =
          .nameT n :: .lpar :: .rpar :: rest := by
        simp [toksE, toksArgs]
      rw [he]
      rfl
    · subst ht
      have hga := good_call hg
      obtain ⟨hgaa, hgat⟩ := goodArgs_cons hga
      have hasz : sizeA a < sizeA (.call n (.cons a t')) := by
        simp only [sizeA, sizeArgs]
        omega
      have htsz : sizeArgs t' < sizeA (.call n (.cons a t')) := by
        have := sizeA_pos a
        simp only [sizeA, sizeArgs]
        omega
      have hCa := (hIH a hasz).2.2.2.2 0
      have hAt := hArgs t' htsz
      have he : toksE (.call n (.cons a t')) pp ++ rest =
          .nameT n :: .lpar :: (toksE a 0 ++ (toksSep t' ++ .rpar :: rest)) := by
        simp [toksE, toksArgs_decomp, List.append_assoc]
      have hlen : (toksE (.call n (.cons a t')) pp).length =
          3 + ((toksE a 0).length + (toksSep t').length) := by
        simp [toksE, toksArgs_decomp]
        omega
      rw [he]
      simp only [parseAtom]
      split
      next r2 heq =>
        obtain ⟨tk, rs, hetk, hne, -, -⟩ := toksE_head a 0
        rw [hetk, List.cons_append] at heq
        injection heq with e1 e2
        exact absurd e1 hne
      next =>
        rw [hCa g _ hgaa (by omega) (restLT1_sep t' rest)]
        dsimp only
        rw [hAt n [a] g rest hgat (by omega)]
        simp [listOf, argsOf, argsOf_listOf]
  · subst ht
    have hlt : pprec o < pp := by simpa [atomOK] using hat
    have hCt0 := hC0 o l r rfl hlt
    have hinner := toksE_bin_zero (o := o) (l := l) (r := r)
    have he : toksE (.bin o l r) pp ++ rest =
        .lpar :: (toksE (.bin o l r) 0 ++ (.rpar :: rest)) := by
      rw [hinner]
      simp [toksE, hlt, List.append_assoc]
    have hlen : (toksE (.bin o l r) pp).length =
        (toksE (.bin o l r) 0).length + 2 := by
      rw [hinner]
      simp [toksE, hlt]
      omega
    rw [he]
    simp only [parseAtom]
    rw [hCt0 g _ hg (by omega) (by
      intro o' r' heq
      injection heq with e1 e2
      exact absurd e1 (by simp))]

end XL

namespace XL

/-- Parser completeness: every `good` tree is re-parsed exactly from its
printed token segment, at every tier and print context. -/
theorem parseComp : ∀ (N : Nat),
    (∀ t, sizeA t ≤ N → TreeClaims t) ∧
    (∀ args, sizeArgs args ≤ N → ClaimArgs args) := by
  intro N
  induction N with
  | zero =>
    constructor
    · intro t ht
      have := sizeA_pos t
      omega
    · intro args ha
      rcases args with _ | ⟨a, t'⟩
      · exact claimArgs_nil
      · exfalso
        have := sizeA_pos a
        simp only [sizeArgs] at ha
        omega
  | succ N IH =>
    have hPart1 : ∀ t, sizeA t ≤ N + 1 → TreeClaims t := by
      intro t ht
      have hIH : ∀ u, sizeA u < sizeA t → TreeClaims u := fun u hu =>
        IH.1 u (by omega)
      have hArgs : ∀ args, sizeArgs args < sizeA t → ClaimArgs args :=
        fun args ha => IH.2 args (by omega)
      have hA0 : ClaimAat t 0 :=
        genA t 0 hIH hArgs (fun o l r he hlt => absurd hlt (by omega))
      have hC0 : ClaimCat t 0 :=
        genC t 0 hIH (genT t 0 hIH (genF t 0 hIH (genP t 0 hIH hA0)))
      have hA : ∀ pp, ClaimAat t pp := fun pp =>
        genA t pp hIH hArgs (fun o l r he hlt => hC0)
      have hP : ∀ pp, ClaimPat t pp := fun pp => genP t pp hIH (hA pp)
      have hF : ∀ pp, ClaimFat t pp := fun pp => genF t pp hIH (hP pp)
      have hT : ∀ pp, ClaimTat t pp := fun pp => genT t pp hIH (hF pp)
      have hC : ∀ pp, ClaimCat t pp := fun pp => genC t pp hIH (hT pp)
      exact ⟨hA, hP, hF, hT, hC⟩
    refine ⟨hPart1, ?_⟩
    intro args ha
    exact genArgs args (fun u hu pp => (hPart1 u (by omega)).2.2.2.2 pp)

/-- Full-stream parser completeness at the source's fuel budget. -/
theorem parseToks_complete (t : Ast) (hg : good t = true) :
    parseToks (.opT .eq :: toksE t 0) = some t := by
  have hC := ((parseComp (sizeA t)).1 t le_rfl).2.2.2.2 0
  unfold parseToks
  have h2 := hC (5 * (toksE t 0).length + 5) [] hg le_rfl
    (by intro o r' he; simp at he)
  rw [List.append_nil] at h2
  dsimp only
  rw [h2]

end XL

namespace XL

/-- The printed formula re-lexes to exactly the printed token stream. -/
theorem lexF_printTop (t : Ast) (hw : wfT t = true)
    (hnc : noCoal (toksE t 0) = true) :
    lexF (printTop t) = some (.opT .eq :: toksE t 0) := by
  unfold lexF
  rw [printTop_chars]
  have hs : streamOK .operand (toksE t 0) = true := by
    have := streamOK_toksE t 0 [] rfl
    simpa using this
  have hrec := lexRun_stream (toksE t 0) ((charsOf (toksE t 0)).length + 1)
    .operand hs (wfToks_toksE t 0 hw) hnc (Nat.lt_succ_self _)
  have hstep : lexStep LMode.operand ('=' :: ([] ++ charsOf (toksE t 0))) =
      some (.opT .eq, charsOf (toksE t 0)) := by
    simpa using lexOperand_eq (charsOf (toksE t 0))
  have hmain := @lexRun_cons_reduce .operand (Tok.opT .eq) (toksE t 0)
    ((charsOf (toksE t 0)).length + 1) '=' [] rfl (by decide) hstep hrec
  have hlen : (charsOf (Tok.opT .eq :: toksE t 0)).length =
      (charsOf (toksE t 0)).length + 1 := by
    have he : charsOf (Tok.opT .eq :: toksE t 0) =
        '=' :: charsOf (toksE t 0) := rfl
    rw [he, List.length_cons]
  rw [hlen]
  exact hmain

/-- Round-trip: printing a wellformed, re-association-safe,
coalescence-free tree and re-parsing recovers it exactly. -/
theorem print_parse_roundtrip (t : Ast) (hw : wfT t = true)
    (hg : good t = true) (hnc : noCoal (toksE t 0) = true) :
    parseF (printTop t) = some t := by
  unfold parseF
  rw [lexF_printTop t hw hnc]
  exact parseToks_complete t hg

end XL

namespace XL

/-- C3 (amended): the round-trip law `parse (print (parse f)) = parse f`
does not hold for every accepted formula (see the counterexample
`=A1-(B1+C1)`, whose reprint re-associates, and the token-coalescence
hazard of the sheet-qualified cell terminal); it holds exactly under the
two repairs: the parse tree must be re-association-safe (`good`: no
unparenthesized same-tier right operand and no `^` nested as the left
child of `^`, the trees the printer's precedence-only `needs_parens`
loses), its leaf tokens wellformed (`wfT`, automatic for parser output),
and its printed token stream free of cross-token coalescence (`noCoal`).
Under those conditions the printed formula re-lexes and re-parses to
exactly the same tree. -/
theorem c3_roundtrip_amended (f : String) (t : Ast)
    (hp : parseF f = some t) (hw : wfT t = true) (hg : good t = true)
    (hnc : noCoal (toksE t 0) = true) :
    parseF (printTop t) = some t :=
  print_parse_roundtrip t hw hg hnc

theorem c3_roundtrip_amended_witness :
    parseF "=A1+B1*2" =
      some (.bin .add (.cell "A1") (.bin .mul (.cell "B1") (.num "2"))) ∧
    wfT (.bin .add (.cell "A1") (.bin .mul (.cell "B1") (.num "2"))) = true ∧
    good (.bin .add (.cell "A1") (.bin .mul (.cell "B1") (.num "2"))) = true ∧
    noCoal (toksE (.bin .add (.cell "A1")
      (.bin .mul (.cell "B1") (.num "2"))) 0) = true ∧
    parseF (printTop (.bin .add (.cell "A1")
        (.bin .mul (.cell "B1") (.num "2")))) =
      some (.bin .add (.cell "A1") (.bin .mul (.cell "B1") (.num "2"))) :=
  ⟨rfl, rfl, rfl, rfl,
   c3_roundtrip_amended "=A1+B1*2"
     (.bin .add (.cell "A1") (.bin .mul (.cell "B1") (.num "2")))
     rfl rfl rfl rfl⟩

end XL

namespace XL

/-! ## Stability of the transformer

Every output of `transformAst` is a fixpoint of `transformAst`: the
`OFFSET` trees it builds contain no `INDIRECT(ADDRESS(...))` pattern,
and the guard path rebuilds a tree that the guard rejects again in the
same way. -/

theorem transformCall_other (m : List (String × String)) (n : String)
    (args : Args) (hne : ¬ upperStr n = "INDIRECT") :
    transformCall m n args = some (.call n args, 0) := by
  simp [transformCall, hne]

theorem transformCall_indirect_addr (m : List (String × String))
    (an : String) (aargs : Args) (han : upperStr an = "ADDRESS") :
    transformCall m "INDIRECT" (.cons (.call an aargs) .nil) =
      transformIA m an aargs := by
  have hI : upperStr "INDIRECT" = "INDIRECT" := by decide
  simp [transformCall, alen, han, hI]

theorem transformCall_cases (m : List (String × String)) (n : String)
    (args : Args) (t2 : Ast) (w : Nat)
    (h : transformCall m n args = some (t2, w)) :
    (t2 = .call n args ∧ w = 0) ∨
    ∃ an aargs, args = .cons (.call an aargs) .nil ∧
      upperStr an = "ADDRESS" ∧ transformIA m an aargs = some (t2, w) := by
  unfold transformCall at h
  split at h
  next hcond =>
    split at h
    next an aargs =>
      split at h
      next h3 => exact Or.inr ⟨an, aargs, rfl, h3, h⟩
      next h3 =>
        injection h with h1
        injection h1 with ht hw
        exact Or.inl ⟨ht.symm, hw.symm⟩
    next =>
      injection h with h1
      injection h1 with ht hw
      exact Or.inl ⟨ht.symm, hw.symm⟩
  next =>
    injection h with h1
    injection h1 with ht hw
    exact Or.inl ⟨ht.symm, hw.symm⟩

theorem transformArgs_cons_fix (m : List (String × String)) (a : Ast)
    (rest : Args) (w : Nat)
    (h : transformArgs m (.cons a rest) = some (.cons a rest, w)) :
    (∃ w1, transformAst m a = some (a, w1)) ∧
    (∃ w2, transformArgs m rest = some (rest, w2)) := by
  simp only [transformArgs] at h
  rcases he : transformAst m a with _ | ⟨a', w1⟩
  · rw [he] at h; exact absurd h (by simp)
  rw [he] at h; dsimp only at h
  rcases hr : transformArgs m rest with _ | ⟨rest', w2⟩
  · rw [hr] at h; exact absurd h (by simp)
  rw [hr] at h; dsimp only at h
  injection h with h1
  injection h1 with hc hw
  injection hc with ha hrest
  subst ha; subst hrest
  exact ⟨⟨w1, rfl⟩, ⟨w2, rfl⟩⟩

theorem call_fix_args (m : List (String × String)) (nm : String)
    (args : Args) (w : Nat) (hne : ¬ upperStr nm = "INDIRECT")
    (h : transformAst m (.call nm args) = some (.call nm args, w)) :
    ∃ wa, transformArgs m args = some (args, wa) := by
  simp only [transformAst] at h
  rcases hA : transformArgs m args with _ | ⟨args', wq⟩
  · rw [hA] at h; exact absurd h (by simp)
  rw [hA] at h; dsimp only at h
  rw [transformCall_other m nm args' hne] at h
  dsimp only at h
  injection h with h1
  injection h1 with ht hw
  injection ht with hn harg
  subst harg
  exact ⟨wq, rfl⟩

end XL

namespace XL

theorem guard_stable (m : List (String × String)) (an : String)
    (aargs : Args) (wa : Nat) (han : upperStr an = "ADDRESS")
    (hst : transformArgs m aargs = some (aargs, wa))
    (hIA : transformIA m an aargs =
      some (.call "INDIRECT" (.cons (.call an aargs) .nil), 1)) :
    ∃ w2, transformAst m (.call "INDIRECT" (.cons (.call an aargs) .nil)) =
      some (.call "INDIRECT" (.cons (.call an aargs) .nil), w2) := by
  have hne : ¬ upperStr an = "INDIRECT" := by rw [han]; decide
  exact ⟨_, by
    simp only [transformAst, transformArgs]
    rw [hst]
    dsimp only
    rw [transformCall_other m an aargs hne]
    dsimp only
    rw [transformCall_indirect_addr m an aargs han, hIA]⟩

theorem bin_sub_one_fix (m : List (String × String)) (e : Ast) (w1 : Nat)
    (he : transformAst m e = some (e, w1)) :
    transformAst m (.bin .sub e (.num "1")) =
      some (.bin .sub e (.num "1"), w1 + 0) := by
  simp only [transformAst]
  rw [he]

theorem offset_stable (m : List (String × String)) (s : String)
    (row col : Ast) (w1 w2 : Nat)
    (hr : transformAst m row = some (row, w1))
    (hc : transformAst m col = some (col, w2)) :
    ∃ w3, transformAst m (.call "OFFSET"
      (argsOf [.cell s, .bin .sub row (.num "1"),
        .bin .sub col (.num "1")])) =
      some (.call "OFFSET" (argsOf [.cell s, .bin .sub row (.num "1"),
        .bin .sub col (.num "1")]), w3) := by
  exact ⟨_, by
    simp only [argsOf, transformAst, transformArgs]
    rw [hr, hc]
    dsimp only
    rw [transformCall_other m "OFFSET" _ (by decide)]⟩

theorem transformIA_stable (m : List (String × String)) (an : String)
    (aargs : Args) (wa : Nat) (t2 : Ast) (w : Nat)
    (han : upperStr an = "ADDRESS")
    (hst : transformArgs m aargs = some (aargs, wa))
    (h : transformIA m an aargs = some (t2, w)) :
    ∃ w2, transformAst m t2 = some (t2, w2) := by
  unfold transformIA at h
  split at h
  next hlt =>
    simp only [argsOf] at h
    injection h with h1
    injection h1 with ht hw
    subst ht
    exact guard_stable m an aargs wa han hst
      (by unfold transformIA; rw [if_pos hlt]; simp [argsOf])
  next hge =>
    split at h
    next row col a3 a4 sheet rest =>
      split at h
      next q =>
        rcases hsr : sheetRef m (stripQ q) with _ | ref
        · rw [hsr] at h; exact absurd h (by simp)
        rw [hsr] at h
        dsimp only at h
        injection h with h1
        injection h1 with ht hw
        subst ht
        obtain ⟨⟨w1, hrow⟩, ⟨wr1, htail1⟩⟩ :=
          transformArgs_cons_fix m row _ _ hst
        obtain ⟨⟨w2, hcol⟩, -⟩ :=
          transformArgs_cons_fix m col _ _ htail1
        exact offset_stable m (ref ++ ".A1") row col w1 w2 hrow hcol
      next hnostr =>
        simp only [argsOf] at h
        injection h with h1
        injection h1 with ht hw
        subst ht
        refine guard_stable m an _ wa han hst ?_
        unfold transformIA
        rw [if_neg hge]
        dsimp only
        cases sheet with
        | str q => exact absurd rfl (hnostr q)
        | num s => simp [argsOf]
        | cell s => simp [argsOf]
        | bin o l r => simp [argsOf]
        | call n args => simp [argsOf]
    next hno =>
      exact absurd h (by simp)

end XL

namespace XL

theorem transStab (m : List (String × String)) : ∀ N : Nat,
    (∀ t t2 w, sizeA t ≤ N → transformAst m t = some (t2, w) →
      ∃ w2, transformAst m t2 = some (t2, w2)) ∧
    (∀ a a2 w, sizeArgs a ≤ N → transformArgs m a = some (a2, w) →
      ∃ w2, transformArgs m a2 = some (a2, w2)) := by
  intro N
  induction N with
  | zero =>
    constructor
    · intro t t2 w hsz h
      exact absurd hsz (by have := sizeA_pos t; omega)
    · intro a a2 w hsz h
      cases a with
      | nil =>
        simp only [transformArgs] at h
        injection h with h1
        injection h1 with ha hw
        subst ha
        exact ⟨0, rfl⟩
      | cons x y =>
        simp only [sizeArgs] at hsz
        omega
  | succ n ih =>
    obtain ⟨ihA, ihArgs⟩ := ih
    constructor
    · intro t t2 w hsz h
      cases t with
      | num s =>
        simp only [transformAst] at h
        injection h with h1
        injection h1 with ht hw
        subst ht
        exact ⟨0, rfl⟩
      | str s =>
        simp only [transformAst] at h
        injection h with h1
        injection h1 with ht hw
        subst ht
        exact ⟨0, rfl⟩
      | cell s =>
        simp only [transformAst] at h
        injection h with h1
        injection h1 with ht hw
        subst ht
        exact ⟨0, rfl⟩
      | bin o l r =>
        simp only [transformAst] at h
        rcases hl : transformAst m l with _ | ⟨l', wl⟩
        · rw [hl] at h; exact absurd h (by simp)
        rw [hl] at h
        dsimp only at h
        rcases hr : transformAst m r with _ | ⟨r', wr⟩
        · rw [hr] at h; exact absurd h (by simp)
        rw [hr] at h
        dsimp only at h
        injection h with h1
        injection h1 with ht hw
        subst ht
        have hszl : sizeA l ≤ n := by simp only [sizeA] at hsz; omega
        have hszr : sizeA r ≤ n := by simp only [sizeA] at hsz; omega
        obtain ⟨wl2, hl2⟩ := ihA l l' wl hszl hl
        obtain ⟨wr2, hr2⟩ := ihA r r' wr hszr hr
        exact ⟨wl2 + wr2, by
          simp only [transformAst]
          rw [hl2]
          dsimp only
          rw [hr2]⟩
      | call nm args =>
        simp only [transformAst] at h
        rcases hA : transformArgs m args with _ | ⟨args', wq⟩
        · rw [hA] at h; exact absurd h (by simp)
        rw [hA] at h
        dsimp only at h
        rcases hc : transformCall m nm args' with _ | ⟨tc, wc⟩
        · rw [hc] at h; exact absurd h (by simp)
        rw [hc] at h
        dsimp only at h
        injection h with h1
        injection h1 with ht hw
        subst ht
        have hszA : sizeArgs args ≤ n := by simp only [sizeA] at hsz; omega
        obtain ⟨wq2, hstA⟩ := ihArgs args args' wq hszA hA
        rcases transformCall_cases m nm args' tc wc hc with
          ⟨ht2, -⟩ | ⟨an, aargs, harg, han, hIA⟩
        · subst ht2
          exact ⟨wq2 + wc, by
            simp only [transformAst]
            rw [hstA]
            dsimp only
            rw [hc]⟩
        · subst harg
          obtain ⟨⟨w1, hone⟩, -⟩ :=
            transformArgs_cons_fix m (.call an aargs) .nil wq2 hstA
          have hneAn : ¬ upperStr an = "INDIRECT" := by rw [han]; decide
          obtain ⟨wa, hstAargs⟩ := call_fix_args m an aargs w1 hneAn hone
          exact transformIA_stable m an aargs wa tc wc han hstAargs hIA
    · intro a a2 w hsz h
      cases a with
      | nil =>
        simp only [transformArgs] at h
        injection h with h1
        injection h1 with ha hw
        subst ha
        exact ⟨0, rfl⟩
      | cons x y =>
        simp only [transformArgs] at h
        rcases hx : transformAst m x with _ | ⟨x', w1⟩
        · rw [hx] at h; exact absurd h (by simp)
        rw [hx] at h
        dsimp only at h
        rcases hy : transformArgs m y with _ | ⟨y', w2⟩
        · rw [hy] at h; exact absurd h (by simp)
        rw [hy] at h
        dsimp only at h
        injection h with h1
        injection h1 with ha hw
        subst ha
        have hszx : sizeA x ≤ n := by simp only [sizeArgs] at hsz; omega
        have hszy : sizeArgs y ≤ n := by simp only [sizeArgs] at hsz; omega
        obtain ⟨wx2, hx2⟩ := ihA x x' w1 hszx hx
        obtain ⟨wy2, hy2⟩ := ihArgs y y' w2 hszy hy
        exact ⟨wx2 + wy2, by
          simp only [transformArgs]
          rw [hx2]
          dsimp only
          rw [hy2]⟩

theorem transformAst_stable (m : List (String × String)) (t t2 : Ast)
    (w : Nat) (h : transformAst m t = some (t2, w)) :
    ∃ w2, transformAst m t2 = some (t2, w2) :=
  (transStab m (sizeA t)).1 t t2 w le_rfl h

end XL

namespace XL

theorem startsEq_printTop (t : Ast) : startsEq (printTop t) = true := by
  have h := printTop_chars t
  simp [startsEq, h, charsOf, tokChars, opStr]

/-- C5 (amended): the addressing rewrite is *not* idempotent on every
accepted formula (see the counterexample with a quoted sheet name,
whose `OFFSET` output no longer parses); it is idempotent whenever the
once-transformed tree `t2` prints to a formula that re-parses to `t2`
itself — guaranteed by the side conditions `wfT`, `good` and `noCoal`
of the round-trip theorem — because every `transformAst` output is a
fixpoint of `transformAst` (`transformAst_stable`): the second run then
parses the printed `OFFSET` form back to `t2`, transforms it to itself,
and reprints the same string. -/
theorem c5_idempotent_amended (m : List (String × String))
    (f g : String) (t t2 : Ast) (w : Nat)
    (hp : parseF f = some t)
    (ht : transformAst m t = some (t2, w))
    (hw : wfT t2 = true) (hg : good t2 = true)
    (hnc : noCoal (toksE t2 0) = true)
    (h : transformF m f = .ok g) :
    transformF m g = .ok g := by
  have hgp : g = printTop t2 := by
    simp only [transformF, hp] at h
    rw [ht] at h
    dsimp only at h
    injection h with h1
    exact h1.symm
  subst hgp
  have hre : parseF (printTop t2) = some t2 := print_parse_roundtrip t2 hw hg hnc
  obtain ⟨w2, hst⟩ := transformAst_stable m t t2 w ht
  simp only [transformF, hre]
  rw [hst]
  rfl

theorem c5_idempotent_amended_witness :
    parseF "=INDIRECT(ADDRESS(5;3;4;1;\"Sheet1\"))" =
      some (.call "INDIRECT" (argsOf [.call "ADDRESS"
        (argsOf [.num "5", .num "3", .num "4", .num "1",
          .str "\"Sheet1\""])])) ∧
    transformAst [] (.call "INDIRECT" (argsOf [.call "ADDRESS"
        (argsOf [.num "5", .num "3", .num "4", .num "1",
          .str "\"Sheet1\""])])) =
      some (.call "OFFSET" (argsOf [.cell "Sheet1.A1",
        .bin .sub (.num "5") (.num "1"),
        .bin .sub (.num "3") (.num "1")]), 0) ∧
    transformF [] "=INDIRECT(ADDRESS(5;3;4;1;\"Sheet1\"))" =
      .ok "=OFFSET(Sheet1.A1;5-1;3-1)" ∧
    transformF [] "=OFFSET(Sheet1.A1;5-1;3-1)" =
      .ok "=OFFSET(Sheet1.A1;5-1;3-1)" :=
  ⟨rfl, rfl, rfl,
   c5_idempotent_amended [] "=INDIRECT(ADDRESS(5;3;4;1;\"Sheet1\"))"
     "=OFFSET(Sheet1.A1;5-1;3-1)"
     (.call "INDIRECT" (argsOf [.call "ADDRESS"
        (argsOf [.num "5", .num "3", .num "4", .num "1",
          .str "\"Sheet1\""])]))
     (.call "OFFSET" (argsOf [.cell "Sheet1.A1",
        .bin .sub (.num "5") (.num "1"),
        .bin .sub (.num "3") (.num "1")]))
     0 rfl rfl rfl rfl rfl rfl⟩

end XL

namespace XL

/-- C7 (amended): every string returned by a successful run of the
parse/transform/print pipeline begins with `=`; it is *not* always
re-parseable (see the counterexample with a quoted sheet name), but it
is whenever the transformed tree satisfies the round-trip side
conditions `wfT`, `good` and `noCoal`, in which case the output
re-parses to exactly that tree. -/
theorem c7_output_invariant_amended (m : List (String × String))
    (f g : String) (h : transformF m f = .ok g) :
    startsEq g = true ∧
    ∀ t t2 w, parseF f = some t → transformAst m t = some (t2, w) →
      wfT t2 = true → good t2 = true → noCoal (toksE t2 0) = true →
      parseF g = some t2 := by
  constructor
  · rcases hp : parseF f with _ | t0
    · exact absurd h (by simp [transformF, hp])
    rcases ht : transformAst m t0 with _ | ⟨t2', w'⟩
    · exact absurd h (by simp [transformF, hp, ht])
    have hgp : g = printTop t2' := by
      simp only [transformF, hp] at h
      rw [ht] at h
      dsimp only at h
      injection h with h1
      exact h1.symm
    rw [hgp]
    exact startsEq_printTop t2'
  · intro t t2 w hp ht hw hgood hnc
    have hgp : g = printTop t2 := by
      simp only [transformF, hp] at h
      rw [ht] at h
      dsimp only at h
      injection h with h1
      exact h1.symm
    rw [hgp]
    exact print_parse_roundtrip t2 hw hgood hnc

theorem c7_output_invariant_amended_witness :
    transformF [] "=A1+B1" = .ok "=A1+B1" ∧
    startsEq "=A1+B1" = true ∧
    parseF "=A1+B1" = some (.bin .add (.cell "A1") (.cell "B1")) :=
  ⟨rfl,
   (c7_output_invariant_amended [] "=A1+B1" "=A1+B1" rfl).1,
   (c7_output_invariant_amended [] "=A1+B1" "=A1+B1" rfl).2
     (.bin .add (.cell "A1") (.cell "B1"))
     (.bin .add (.cell "A1") (.cell "B1")) 0 rfl rfl rfl rfl rfl⟩

end XL
